import Mathlib

/-!
# Graph: adjacency-matrix graph with Dijkstra tables, adjacency-list graph with DFS

Shallow embedding of `graphm.h`, `graphm.cpp`, `graphl.h`, `graphl.cpp`.

* C++ `int` values are `Int`; the one arithmetic operation of the program, the
  sum `T[i][v].dist + C[v][w]`, is `add32` (32-bit two's-complement wrap).
* The fixed arrays `C`, `T`, `nodes` are total functions of the index; the
  programs only touch indices `1..size`. Their capacity (`MAXNODES`,
  `MAXNODESL`, both 100) is not checked by the source and is not modelled.
* `size` is a `Nat`: a non-positive `size` makes every loop empty and every
  bounds check fail, exactly as `size = 0` does.
* Output streams are lists of the printed node numbers.
* Recursive procedures (`dfs`, `printPath`) carry a fuel argument and return
  `none` when it runs out.
-/

namespace Graph

/-! ## Shared -/

/-- Modelled from the spec: the node descriptor of `nodedata.h` (absent from the
sources), an opaque printable label attached to a node index. -/
structure NodeData where
  label : String
deriving DecidableEq

/-- The loop `for (int i = 1; i <= n; i++) s = body(i, s);` -/
def forLoop {σ : Type} (n : Nat) (body : Int → σ → σ) (s : σ) : σ :=
  match n with
  | 0 => s
  | k + 1 => body ((k : Int) + 1) (forLoop k body s)

/-- The same loop for a body that may fail. -/
def forLoopOpt {σ : Type} (n : Nat) (body : Int → σ → Option σ) (s : σ) : Option σ :=
  match n with
  | 0 => some s
  | k + 1 => (forLoopOpt k body s).bind (body ((k : Int) + 1))

/-! ## graphm.h / graphm.cpp -/

/-- The constant `INT_MAX` of `<climits>` for a 32-bit `int`. -/
def INT_MAX : Int := 2147483647

/-- The constant `const int MAX_VALUE = INT_MAX / 2;` -/
def MAX_VALUE : Int := INT_MAX / 2

/-- Reduction of a mathematical integer to the 32-bit signed range. -/
def wrap32 (x : Int) : Int := (x + 2147483648) % 4294967296 - 2147483648

/-- Addition of two `int` values. -/
def add32 (a b : Int) : Int := wrap32 (a + b)

/-- The record `struct TableType { bool visited; int dist; int path; }` -/
structure TableType where
  visited : Bool
  dist : Int
  path : Int
deriving DecidableEq

/-- The data members of `class GraphM`. -/
structure GraphM where
  data : Int → NodeData
  C : Int → Int → Int
  size : Nat
  T : Int → Int → TableType

/-- Assignment to one cell of a two-dimensional array. -/
def upd2 {α : Type} (A : Int → Int → α) (i j : Int) (x : α) : Int → Int → α :=
  fun a b => if a = i ∧ b = j then x else A a b

/-- The constructor `GraphM::GraphM()`; the arrays are set at every index, the
source sets the indices `1..MAXNODES` that the program can reach. -/
def GraphM.ctor : GraphM where
  data := fun _ => ⟨""⟩
  C := fun _ _ => MAX_VALUE
  size := 0
  T := fun _ _ => ⟨false, MAX_VALUE, MAX_VALUE⟩

/-- Function `bool GraphM::insertEdge(startNode, endNode, label)` -/
def GraphM.insertEdge (g : GraphM) (startNode endNode label : Int) : Bool × GraphM :=
  if startNode ≥ 1 ∧ endNode ≥ 1 ∧ label ≥ 0 ∧
      startNode ≤ g.size ∧ endNode ≤ g.size ∧
      label ≤ MAX_VALUE ∧ startNode ≠ endNode then
    (true, { g with C := upd2 g.C startNode endNode label })
  else
    (false, g)

/-- Function `bool GraphM::removeEdge(startNode, endNode)` -/
def GraphM.removeEdge (g : GraphM) (startNode endNode : Int) : Bool × GraphM :=
  if startNode ≥ 1 ∧ endNode ≥ 1 ∧
      startNode ≤ g.size ∧ endNode ≤ g.size ∧
      startNode ≠ endNode then
    (true, { g with C := upd2 g.C startNode endNode MAX_VALUE })
  else
    (false, g)

/-- Function `void GraphM::buildGraph(ifstream&)`: the stream is its parsed content, the
size, the `size` descriptor lines and the edge lines before the terminator. -/
def GraphM.buildGraph (g : GraphM) (n : Nat) (descr : Int → NodeData)
    (edges : List (Int × Int × Int)) : GraphM :=
  edges.foldl (fun h e => (h.insertEdge e.1 e.2.1 e.2.2).2)
    { g with size := n, data := fun i => if 1 ≤ i ∧ i ≤ (n : Int) then descr i else g.data i }

/-- Function `int GraphM::getSmallest(TableType data[])`; the loop state is
`(min, shortestDist)`. -/
def GraphM.getSmallest (g : GraphM) (data : Int → TableType) : Int :=
  (forLoop g.size
    (fun i (st : Int × Int) =>
      if (data i).dist < st.2 ∧ (data i).visited = false then (i, (data i).dist) else st)
    ((g.size : Int), MAX_VALUE)).1

/-- Body of the innermost loop of `findShortestPath` (loop variable `w`). -/
def GraphM.relax (g : GraphM) (i v w : Int) : GraphM :=
  if (g.T i w).visited = false then
    if (g.T i w).dist > add32 (g.T i v).dist (g.C v w) then
      let cell : TableType :=
        { visited := (g.T i w).visited, dist := add32 (g.T i v).dist (g.C v w), path := v }
      { g with T := upd2 g.T i w cell }
    else g
  else g

/-- The statement `T[i][v].visited = true;` -/
def GraphM.markVisited (g : GraphM) (i v : Int) : GraphM :=
  { g with T := upd2 g.T i v { (g.T i v) with visited := true } }

/-- The statement `T[source][source].dist = 0;` -/
def GraphM.zeroDist (g : GraphM) (source : Int) : GraphM :=
  { g with T := upd2 g.T source source { (g.T source source) with dist := 0 } }

/-- Body of the middle loop of `findShortestPath` (loop variable `i`). -/
def GraphM.settle (g : GraphM) (i : Int) : GraphM :=
  let v := g.getSmallest (g.T i)
  forLoop g.size (fun w h => h.relax i v w) (g.markVisited i v)

/-- Body of the outer loop of `findShortestPath` (loop variable `source`). -/
def GraphM.sourceStep (g : GraphM) (source : Int) : GraphM :=
  forLoop g.size (fun i h => h.settle i) (g.zeroDist source)

/-- Function `void GraphM::findShortestPath()` -/
def GraphM.findShortestPath (g : GraphM) : GraphM :=
  forLoop g.size (fun source h => h.sourceStep source) g

/-- Function `void GraphM::printPath(startNode, current)`: the printed node numbers. -/
def GraphM.printPath (g : GraphM) (fuel : Nat) (startNode current : Int) : Option (List Int) :=
  if current ≠ startNode then
    match fuel with
    | 0 => none
    | f + 1 =>
      (g.printPath f startNode (g.T startNode current).path).map
        (fun out => out ++ [(g.T startNode current).path])
  else some []

/-- What `displayHelper` writes for one pair. -/
inductive PathLine where
  | silent : PathLine
  | unreachable (startNode endNode : Int) : PathLine
  | route (startNode endNode length : Int) (nodes : List Int) : PathLine
deriving DecidableEq

/-- Function `void GraphM::displayHelper(startNode, endNode) const` -/
def GraphM.displayHelper (g : GraphM) (fuel : Nat) (startNode endNode : Int) :
    Option PathLine :=
  if startNode ≤ g.size ∧ endNode ≤ g.size ∧
      startNode ≥ 1 ∧ endNode ≥ 1 ∧ startNode ≠ endNode then
    if (g.T startNode endNode).dist = MAX_VALUE then
      some (PathLine.unreachable startNode endNode)
    else
      (g.printPath fuel startNode endNode).map
        (fun out => PathLine.route startNode endNode (g.T startNode endNode).dist
          (out ++ [endNode]))
  else some PathLine.silent

/-- A call made on a `GraphM` by its user. -/
inductive OpM where
  | insert (startNode endNode label : Int) : OpM
  | remove (startNode endNode : Int) : OpM
  | compute : OpM

/-- State after one call. -/
def GraphM.step (g : GraphM) : OpM → GraphM
  | OpM.insert s e w => (g.insertEdge s e w).2
  | OpM.remove s e => (g.removeEdge s e).2
  | OpM.compute => g.findShortestPath

/-- State after a sequence of calls. -/
def GraphM.run (g : GraphM) (ops : List OpM) : GraphM :=
  ops.foldl GraphM.step g

/-- The call is an edge update, not a shortest-path computation. -/
def OpM.isEdit : OpM → Bool
  | OpM.compute => false
  | _ => true

/-- A graph of `n` nodes right after construction and reading of its size and
descriptors, before any edge line. -/
def GraphM.fresh (n : Nat) : GraphM :=
  GraphM.ctor.buildGraph n (fun _ => ⟨""⟩) []

/-- The 3-node graph built from a stream whose edge lines are `1 2 a` and
`2 3 b`. -/
def GraphM.chain (descr : Int → NodeData) (a b : Int) : GraphM :=
  GraphM.ctor.buildGraph 3 descr [(1, 2, a), (2, 3, b)]

/-- Last node of the walk `s, p₁, p₂, ...`. -/
def walkEnd (s : Int) : List Int → Int
  | [] => s
  | t :: rest => walkEnd t rest

/-- Every step of the walk `s, p₁, p₂, ...` is a present edge (its entry of `C`
is not the value `MAX_VALUE` that stands for no edge) leaving a node of
`1..size`, and the last node is in `1..size`. -/
def GraphM.isWalk (g : GraphM) (s : Int) : List Int → Prop
  | [] => 1 ≤ s ∧ s ≤ (g.size : Int)
  | t :: rest => (1 ≤ s ∧ s ≤ (g.size : Int)) ∧ g.C s t ≠ MAX_VALUE ∧ g.isWalk t rest

/-- Total weight of the walk `s, p₁, p₂, ...`. -/
def GraphM.walkWeight (g : GraphM) (s : Int) : List Int → Int
  | [] => 0
  | t :: rest => g.C s t + g.walkWeight t rest

/-- There is a directed path from `s` to `t` along present edges. -/
def GraphM.Reach (g : GraphM) (s t : Int) : Prop :=
  ∃ p : List Int, g.isWalk s p ∧ walkEnd s p = t

/-- Every stored weight is in `0..MAX_VALUE`. -/
def GraphM.WeightsOk (g : GraphM) : Prop :=
  ∀ i j : Int, 0 ≤ g.C i j ∧ g.C i j ≤ MAX_VALUE

/-- Every stored distance is in `0..MAX_VALUE`. -/
def GraphM.DistOk (g : GraphM) : Prop :=
  ∀ i j : Int, 0 ≤ (g.T i j).dist ∧ (g.T i j).dist ≤ MAX_VALUE

/-- The table is as the constructor left it. -/
def GraphM.TableConstructed (g : GraphM) : Prop :=
  ∀ i j : Int, g.T i j = ⟨false, MAX_VALUE, MAX_VALUE⟩

/-- Row `s` of the table holds no distance yet. -/
def GraphM.Unstarted (g : GraphM) (s : Int) : Prop :=
  ∀ w : Int, (g.T s w).dist = MAX_VALUE

/-- Row `s` of the table is a predecessor tree rooted at `s`: the root has
distance 0 and every other node with a distance has a settled predecessor with a
distance, one hop (`hops`) closer to the root, joined to it by a present edge
that accounts for the difference of the two distances. -/
def GraphM.RowTree (g : GraphM) (s : Int) (hops : Int → Nat) : Prop :=
  (1 ≤ s ∧ s ≤ (g.size : Int)) ∧ (g.T s s).dist = 0 ∧ hops s = 0 ∧
  ∀ w : Int, w ≠ s → (g.T s w).dist < MAX_VALUE →
    (1 ≤ w ∧ w ≤ (g.size : Int)) ∧
    (g.T s (g.T s w).path).visited = true ∧
    (g.T s (g.T s w).path).dist < MAX_VALUE ∧
    g.C (g.T s w).path w < MAX_VALUE ∧
    (g.T s w).dist = (g.T s (g.T s w).path).dist + g.C (g.T s w).path w ∧
    hops w = hops (g.T s w).path + 1

/-- State of the table when the outer loop of `findShortestPath` has handled
the sources `1..k` of a run that started on a constructed table: those rows are
predecessor trees and the other rows hold no distance. -/
def GraphM.TableInv (g : GraphM) (k : Nat) : Prop :=
  g.WeightsOk ∧ g.DistOk ∧
  ∀ s : Int, ((1 ≤ s ∧ s ≤ (k : Int)) → ∃ hops : Int → Nat, g.RowTree s hops) ∧
    (¬ (1 ≤ s ∧ s ≤ (k : Int)) → g.Unstarted s)

/-! ## graphl.h / graphl.cpp -/

/-- The record `struct GraphNode`; the linked list behind `edgeHead` is the list of its
`adjGraphNode` fields, head first. -/
structure GraphNode where
  edgeHead : List Int
  data : NodeData
  visited : Bool

/-- The data members of `class GraphL`. -/
structure GraphL where
  nodes : Int → GraphNode
  size : Nat

/-- The constructor `GraphL::GraphL()`; a null entry of `nodes` is a node with no
edges. -/
def GraphL.ctor : GraphL where
  nodes := fun _ => ⟨[], ⟨""⟩, false⟩
  size := 0

/-- Assignment to one cell of an array. -/
def upd1 {α : Type} (A : Int → α) (i : Int) (x : α) : Int → α :=
  fun a => if a = i then x else A a

/-- Function `bool GraphL::insertEdge(startNode, endNode)` -/
def GraphL.insertEdge (g : GraphL) (startNode endNode : Int) : Bool × GraphL :=
  if startNode ≤ g.size ∧ endNode ≤ g.size ∧
      startNode ≥ 1 ∧ endNode ≥ 1 ∧ startNode ≠ endNode then
    let temp := (g.nodes startNode).edgeHead
    let node : GraphNode := { (g.nodes startNode) with edgeHead := endNode :: temp }
    (true, { g with nodes := upd1 g.nodes startNode node })
  else
    (false, g)

/-- Function `void GraphL::buildGraph(ifstream&)`: the stream is its parsed content; `junk`
stands for the indeterminate `visited` members of the freshly allocated nodes. -/
def GraphL.buildGraph (g : GraphL) (n : Nat) (descr : Int → NodeData) (junk : Int → Bool)
    (edges : List (Int × Int)) : GraphL :=
  edges.foldl (fun h e => (h.insertEdge e.1 e.2).2)
    { size := n,
      nodes := fun i => if 1 ≤ i ∧ i ≤ (n : Int) then ⟨[], descr i, junk i⟩ else g.nodes i }

/-- Function `void GraphL::displayGraph() const`: the printed `edge i t` lines as pairs. -/
def GraphL.displayGraph (g : GraphL) : List (Int × Int) :=
  forLoop g.size (fun i out => out ++ (g.nodes i).edgeHead.map (fun t => (i, t))) []

/-- Function `void GraphL::markUnvisited()` -/
def GraphL.markUnvisited (g : GraphL) : GraphL :=
  forLoop g.size (fun i h => { h with nodes := upd1 h.nodes i { (h.nodes i) with visited := false } }) g

/-- Function `void GraphL::dfs(int v)`: the state is the graph and the output so far. -/
def GraphL.dfs : Nat → Int → GraphL × List Int → Option (GraphL × List Int)
  | 0, _, _ => none
  | fuel + 1, v, st =>
    let g0 : GraphL := st.1
    let g1 : GraphL :=
      { g0 with nodes := upd1 g0.nodes v { (g0.nodes v) with visited := true } }
    (g1.nodes v).edgeHead.foldlM
      (fun (s : GraphL × List Int) (adj : Int) =>
        if (s.1.nodes adj).visited = false then GraphL.dfs fuel adj s else some s)
      (g1, st.2 ++ [v])

/-- Function `void GraphL::depthFirstSearch()` -/
def GraphL.depthFirstSearch (g : GraphL) (fuel : Nat) : Option (GraphL × List Int) :=
  forLoopOpt g.size
    (fun v (s : GraphL × List Int) =>
      if (s.1.nodes v).visited = false then GraphL.dfs fuel v s else some s)
    (g.markUnvisited, [])

/-- The node numbers `1..n`. -/
def nodeList (n : Nat) : List Int := (List.range n).map (fun (k : Nat) => (k : Int) + 1)

/-- Number of nodes of `1..size` not marked visited. -/
def GraphL.unvisitedCount (g : GraphL) : Nat :=
  (nodeList g.size).countP (fun i => !(g.nodes i).visited)

/-- Every edge record points to a node of `1..size`. -/
def GraphL.EdgesOk (g : GraphL) : Prop :=
  ∀ i t : Int, t ∈ (g.nodes i).edgeHead → 1 ≤ t ∧ t ≤ (g.size : Int)

/-- The traversal state `st2` comes from `st1` by visiting the nodes `new`, in
that order: they were unvisited nodes of `1..size`, each is visited once, they
are appended to the output and marked, and nothing else changes. -/
def GraphL.Grows (st1 st2 : GraphL × List Int) (new : List Int) : Prop :=
  st2.1.size = st1.1.size ∧
  (∀ i : Int, (st2.1.nodes i).edgeHead = (st1.1.nodes i).edgeHead ∧
    (st2.1.nodes i).data = (st1.1.nodes i).data) ∧
  st2.2 = st1.2 ++ new ∧ new.Nodup ∧
  (∀ x ∈ new, (1 ≤ x ∧ x ≤ (st1.1.size : Int)) ∧ (st1.1.nodes x).visited = false) ∧
  (∀ x : Int, (st2.1.nodes x).visited = true ↔ ((st1.1.nodes x).visited = true ∨ x ∈ new))

/-- The edge request `(start, end)` passes the check of `GraphL::insertEdge` on
a graph of `n` nodes. -/
def GraphL.accepts (n : Nat) (e : Int × Int) : Bool :=
  decide (e.1 ≤ (n : Int) ∧ e.2 ≤ (n : Int) ∧ e.1 ≥ 1 ∧ e.2 ≥ 1 ∧ e.1 ≠ e.2)

/-! ## Further parts of graphm.cpp -/

/-- Function `void GraphM::printDescriptions(startNode, current)`: the printed
descriptors. -/
def GraphM.printDescriptions (g : GraphM) (fuel : Nat) (startNode current : Int) :
    Option (List NodeData) :=
  if current ≠ startNode then
    match fuel with
    | 0 => none
    | f + 1 =>
      (g.printDescriptions f startNode (g.T startNode current).path).map
        (fun out => out ++ [g.data (g.T startNode current).path])
  else some []

/-- Function `void GraphM::display(startNode, endNode) const`: the line written by
`displayHelper` and the descriptors printed after it. -/
def GraphM.display (g : GraphM) (fuel : Nat) (startNode endNode : Int) :
    Option (PathLine × List NodeData) :=
  if startNode ≤ g.size ∧ endNode ≤ g.size ∧
      startNode ≥ 1 ∧ endNode ≥ 1 ∧ startNode ≠ endNode then
    (g.displayHelper fuel startNode endNode).bind (fun line =>
      if (g.T startNode endNode).dist ≠ MAX_VALUE then
        (g.printDescriptions fuel startNode endNode).map
          (fun out => (line, out ++ [g.data endNode]))
      else some (line, []))
  else some (PathLine.silent, [])

/-- The operand pairs of the sums `T[i][v].dist + C[v][w]` that one pass of the
innermost loop body of `findShortestPath` evaluates: one for the comparison when
`w` is unvisited, and the same once more for the assignment when the comparison
holds. -/
def GraphM.relaxSums (g : GraphM) (i v w : Int) : List (Int × Int) :=
  if (g.T i w).visited = false then
    if (g.T i w).dist > add32 (g.T i v).dist (g.C v w) then
      [((g.T i v).dist, g.C v w), ((g.T i v).dist, g.C v w)]
    else [((g.T i v).dist, g.C v w)]
  else []

/-- The middle loop body of `findShortestPath` together with the operand pairs
of the sums it evaluates, in order. -/
def GraphM.settleSums (g : GraphM) (i : Int) : GraphM × List (Int × Int) :=
  let v := g.getSmallest (g.T i)
  forLoop g.size
    (fun w (st : GraphM × List (Int × Int)) => (st.1.relax i v w, st.2 ++ st.1.relaxSums i v w))
    (g.markVisited i v, [])

/-- The outer loop body of `findShortestPath` together with the operand pairs of
the sums it evaluates. -/
def GraphM.sourceStepSums (g : GraphM) (source : Int) : GraphM × List (Int × Int) :=
  forLoop g.size
    (fun i (st : GraphM × List (Int × Int)) =>
      ((st.1.settleSums i).1, st.2 ++ (st.1.settleSums i).2))
    (g.zeroDist source, [])

/-- The run of `findShortestPath` together with the operand pairs of all the
sums it evaluates. -/
def GraphM.findShortestPathSums (g : GraphM) : GraphM × List (Int × Int) :=
  forLoop g.size
    (fun source (st : GraphM × List (Int × Int)) =>
      ((st.1.sourceStepSums source).1, st.2 ++ (st.1.sourceStepSums source).2))
    (g, [])

/-- Two traversal states over the graph `g0`: both have the size and the edge
lists of `g0`, the same output so far, and the same `visited` flags at the nodes
`1..size`. -/
def GraphL.SameTraversal (g0 : GraphL) (s s2 : GraphL × List Int) : Prop :=
  s.1.size = g0.size ∧ s2.1.size = g0.size ∧
  (∀ i : Int, (s.1.nodes i).edgeHead = (g0.nodes i).edgeHead ∧
    (s2.1.nodes i).edgeHead = (g0.nodes i).edgeHead) ∧
  (∀ i : Int, 1 ≤ i → i ≤ (g0.size : Int) → (s.1.nodes i).visited = (s2.1.nodes i).visited) ∧
  s.2 = s2.2

/-! ## Invariants of a complete Dijkstra run on one row -/

/-- Row `s` of the table is consistent with the edges out of its settled
nodes: no node of `1..size` has a distance above that of a settled node plus the
weight of the edge between them, and no settled node has a distance above that
of an unsettled one. -/
def GraphM.RowSettled (g : GraphM) (s : Int) : Prop :=
  (∀ v w : Int, 1 ≤ v → v ≤ (g.size : Int) → 1 ≤ w → w ≤ (g.size : Int) →
    (g.T s v).visited = true → (g.T s w).dist ≤ (g.T s v).dist + g.C v w) ∧
  (∀ v w : Int, 1 ≤ v → v ≤ (g.size : Int) → 1 ≤ w → w ≤ (g.size : Int) →
    (g.T s v).visited = true → (g.T s w).visited = false → (g.T s v).dist ≤ (g.T s w).dist)

/-- Row `s` has no unsettled node of `1..size` with a distance below
`MAX_VALUE` left. -/
def GraphM.RowDone (g : GraphM) (s : Int) : Prop :=
  ∀ w : Int, 1 ≤ w → w ≤ (g.size : Int) → (g.T s w).visited = false →
    MAX_VALUE ≤ (g.T s w).dist

/-- Number of nodes of `1..size` not yet settled in row `s`. -/
def GraphM.unvisitedIn (g : GraphM) (s : Int) : Nat :=
  (nodeList g.size).countP (fun w => !(g.T s w).visited)

/-- State of row `s` after `m` steps of `settle` on it that followed the
assignment `dist[s][s] = 0`: the row is consistent, and it is done or at least
`m` of its nodes are settled. -/
def GraphM.RowRun (g : GraphM) (s : Int) (m : Nat) : Prop :=
  g.WeightsOk ∧ g.DistOk ∧ (g.T s s).dist = 0 ∧ g.RowSettled s ∧
  (g.RowDone s ∨ g.unvisitedIn s + m ≤ g.size)

/-! # Theorems -/

/-! ## Edge insertion and removal -/

/-- C2: `GraphM.insertEdge` returns true exactly when both indices are in
`1..size`, distinct, and the weight is in `0..MAX_VALUE`; on success only
`C[start][end]` changes (to the weight), on failure nothing changes. -/
theorem GraphM.insertEdge_contract (g : GraphM) (s e w : Int) :
    ((g.insertEdge s e w).1 = true ↔
      (1 ≤ s ∧ s ≤ (g.size : Int) ∧ 1 ≤ e ∧ e ≤ (g.size : Int) ∧ s ≠ e ∧
        0 ≤ w ∧ w ≤ MAX_VALUE)) ∧
    ((g.insertEdge s e w).1 = true →
      (g.insertEdge s e w).2.C s e = w ∧
      (∀ i j : Int, ¬ (i = s ∧ j = e) → (g.insertEdge s e w).2.C i j = g.C i j) ∧
      (g.insertEdge s e w).2.size = g.size ∧
      (g.insertEdge s e w).2.T = g.T ∧
      (g.insertEdge s e w).2.data = g.data) ∧
    ((g.insertEdge s e w).1 = false → (g.insertEdge s e w).2 = g) := by
  unfold GraphM.insertEdge
  split_ifs with h
  · refine ⟨⟨fun _ => by omega, fun _ => rfl⟩, fun _ => ⟨?_, ?_, rfl, rfl, rfl⟩, fun h0 => by simp at h0⟩
    · simp [upd2]
    · intro i j hij
      simp [upd2, hij]
  · refine ⟨⟨fun h0 => by simp at h0, fun h1 => absurd (by omega) h⟩, fun h0 => by simp at h0, fun _ => rfl⟩

/-- C3: `GraphM.removeEdge` returns true exactly when both indices are in
`1..size` and distinct; on success only `C[start][end]` changes (to
`MAX_VALUE`), so removing an absent edge leaves the matrix as it was; on
failure nothing changes. -/
theorem GraphM.removeEdge_contract (g : GraphM) (s e : Int) :
    ((g.removeEdge s e).1 = true ↔
      (1 ≤ s ∧ s ≤ (g.size : Int) ∧ 1 ≤ e ∧ e ≤ (g.size : Int) ∧ s ≠ e)) ∧
    ((g.removeEdge s e).1 = true →
      (g.removeEdge s e).2.C s e = MAX_VALUE ∧
      (∀ i j : Int, ¬ (i = s ∧ j = e) → (g.removeEdge s e).2.C i j = g.C i j) ∧
      (g.removeEdge s e).2.size = g.size ∧
      (g.removeEdge s e).2.T = g.T ∧
      (g.removeEdge s e).2.data = g.data ∧
      (g.C s e = MAX_VALUE → (g.removeEdge s e).2 = g)) ∧
    ((g.removeEdge s e).1 = false → (g.removeEdge s e).2 = g) := by
  unfold GraphM.removeEdge
  split_ifs with h
  · refine ⟨⟨fun _ => by omega, fun _ => rfl⟩, fun _ => ⟨?_, ?_, rfl, rfl, rfl, ?_⟩,
      fun h0 => by simp at h0⟩
    · simp [upd2]
    · intro i j hij
      simp [upd2, hij]
    · intro hC
      have : upd2 g.C s e MAX_VALUE = g.C := by
        funext a b
        unfold upd2
        split_ifs with hab
        · rw [hab.1, hab.2, hC]
        · rfl
      simp [this]
  · refine ⟨⟨fun h0 => by simp at h0, fun h1 => absurd (by omega) h⟩, fun h0 => by simp at h0, fun _ => rfl⟩

/-- C4: `GraphL.insertEdge` returns true exactly when both indices are in
`1..size` and distinct; on success the start node's list gets the target in
front and nothing else changes, on failure nothing changes. -/
theorem GraphL.insertEdge_prepends (g : GraphL) (s e : Int) :
    ((g.insertEdge s e).1 = true ↔
      (1 ≤ s ∧ s ≤ (g.size : Int) ∧ 1 ≤ e ∧ e ≤ (g.size : Int) ∧ s ≠ e)) ∧
    ((g.insertEdge s e).1 = true →
      ((g.insertEdge s e).2.nodes s).edgeHead = e :: (g.nodes s).edgeHead ∧
      ((g.insertEdge s e).2.nodes s).data = (g.nodes s).data ∧
      ((g.insertEdge s e).2.nodes s).visited = (g.nodes s).visited ∧
      (∀ i : Int, i ≠ s → (g.insertEdge s e).2.nodes i = g.nodes i) ∧
      (g.insertEdge s e).2.size = g.size) ∧
    ((g.insertEdge s e).1 = false → (g.insertEdge s e).2 = g) := by
  unfold GraphL.insertEdge
  split_ifs with h
  · refine ⟨⟨fun _ => by omega, fun _ => rfl⟩, fun _ => ⟨?_, ?_, ?_, ?_, rfl⟩, fun h0 => by simp at h0⟩
    · simp [upd1]
    · simp [upd1]
    · simp [upd1]
    · intro i hi
      simp [upd1, hi]
  · refine ⟨⟨fun h0 => by simp at h0, fun h1 => absurd (by omega) h⟩, fun h0 => by simp at h0, fun _ => rfl⟩

/-! ## Loops -/

theorem forLoop_succ {σ : Type} (k : Nat) (body : Int → σ → σ) (s : σ) :
    forLoop (k + 1) body s = body ((k : Int) + 1) (forLoop k body s) := rfl

/-- Invariant rule for the counting loop: `P k` holds after `k` iterations. -/
theorem forLoop_induct {σ : Type} (P : Nat → σ → Prop) (n : Nat) (body : Int → σ → σ) (s : σ)
    (h0 : P 0 s)
    (hs : ∀ (k : Nat) (t : σ), k < n → P k t → P (k + 1) (body ((k : Int) + 1) t)) :
    P n (forLoop n body s) := by
  induction n with
  | zero => exact h0
  | succ m ih =>
    rw [forLoop_succ]
    exact hs m _ (Nat.lt_succ_self m) (ih (fun k t hk hp => hs k t (Nat.lt_succ_of_lt hk) hp))

/-- Invariant rule for a property that does not mention the iteration count. -/
theorem forLoop_preserve {σ : Type} (P : σ → Prop) (n : Nat) (body : Int → σ → σ) (s : σ)
    (h0 : P s)
    (hs : ∀ (i : Int) (t : σ), 1 ≤ i → i ≤ (n : Int) → P t → P (body i t)) :
    P (forLoop n body s) :=
  forLoop_induct (fun _ t => P t) n body s h0
    (fun k t hk hp => hs _ t (by omega) (by omega) hp)

/-- Two loops run in lockstep keep a relation between their states. -/
theorem forLoop_rel {σ τ : Type} (R : σ → τ → Prop) (n : Nat) (f : Int → σ → σ)
    (f2 : Int → τ → τ) (s : σ) (t : τ) (h0 : R s t)
    (hs : ∀ (i : Int) (x : σ) (y : τ), 1 ≤ i → i ≤ (n : Int) → R x y → R (f i x) (f2 i y)) :
    R (forLoop n f s) (forLoop n f2 t) := by
  induction n with
  | zero => exact h0
  | succ m ih =>
    rw [forLoop_succ, forLoop_succ]
    exact hs _ _ _ (by omega) (by omega)
      (ih (fun i x y h1 h2 hr => hs i x y h1 (by omega) hr))

/-! ## Arithmetic of the table -/

theorem MAX_VALUE_eq : MAX_VALUE = 1073741823 := by decide

theorem add32_eq {a b : Int} (ha : 0 ≤ a) (ha2 : a ≤ MAX_VALUE) (hb : 0 ≤ b)
    (hb2 : b ≤ MAX_VALUE) : add32 a b = a + b := by
  unfold add32 wrap32
  rw [MAX_VALUE_eq] at ha2 hb2
  omega

/-! ## What `findShortestPath` leaves alone -/

theorem GraphM.relax_frame (g : GraphM) (i v w : Int) :
    (g.relax i v w).C = g.C ∧ (g.relax i v w).size = g.size ∧ (g.relax i v w).data = g.data := by
  unfold GraphM.relax
  split_ifs <;> exact ⟨rfl, rfl, rfl⟩

theorem GraphM.settle_frame (g : GraphM) (i : Int) :
    (g.settle i).C = g.C ∧ (g.settle i).size = g.size ∧ (g.settle i).data = g.data := by
  simp only [GraphM.settle]
  refine forLoop_preserve (fun h : GraphM => h.C = g.C ∧ h.size = g.size ∧ h.data = g.data) _ _ _ ?_ ?_
  · exact ⟨rfl, rfl, rfl⟩
  · intro w t _ _ ht
    obtain ⟨h1, h2, h3⟩ := GraphM.relax_frame t i (g.getSmallest (g.T i)) w
    exact ⟨h1.trans ht.1, h2.trans ht.2.1, h3.trans ht.2.2⟩

theorem GraphM.sourceStep_frame (g : GraphM) (source : Int) :
    (g.sourceStep source).C = g.C ∧ (g.sourceStep source).size = g.size ∧
      (g.sourceStep source).data = g.data := by
  simp only [GraphM.sourceStep]
  refine forLoop_preserve (fun h : GraphM => h.C = g.C ∧ h.size = g.size ∧ h.data = g.data) _ _ _ ?_ ?_
  · exact ⟨rfl, rfl, rfl⟩
  · intro i t _ _ ht
    obtain ⟨h1, h2, h3⟩ := GraphM.settle_frame t i
    exact ⟨h1.trans ht.1, h2.trans ht.2.1, h3.trans ht.2.2⟩

theorem GraphM.findShortestPath_frame (g : GraphM) :
    g.findShortestPath.C = g.C ∧ g.findShortestPath.size = g.size ∧
      g.findShortestPath.data = g.data := by
  simp only [GraphM.findShortestPath]
  refine forLoop_preserve (fun h : GraphM => h.C = g.C ∧ h.size = g.size ∧ h.data = g.data) _ _ _ ?_ ?_
  · exact ⟨rfl, rfl, rfl⟩
  · intro i t _ _ ht
    obtain ⟨h1, h2, h3⟩ := GraphM.sourceStep_frame t i
    exact ⟨h1.trans ht.1, h2.trans ht.2.1, h3.trans ht.2.2⟩

/-- A `relax` on row `i` leaves the other rows alone. -/
theorem GraphM.relax_other_row (g : GraphM) (i v w s : Int) (hs : s ≠ i) (j : Int) :
    (g.relax i v w).T s j = g.T s j := by
  unfold GraphM.relax
  split_ifs
  · simp [upd2, hs]
  · rfl
  · rfl

/-- A `settle` on row `i` leaves the other rows alone. -/
theorem GraphM.settle_other_row (g : GraphM) (i s : Int) (hs : s ≠ i) (j : Int) :
    (g.settle i).T s j = g.T s j := by
  simp only [GraphM.settle]
  refine forLoop_preserve (fun h : GraphM => h.T s j = g.T s j) _ _ _ ?_ ?_
  · simp [GraphM.markVisited, upd2, hs]
  · intro w t _ _ ht
    rw [GraphM.relax_other_row t i _ w s hs j, ht]

/-- The pick of `getSmallest` is a node of `1..size` when there is one. -/
theorem GraphM.getSmallest_range (g : GraphM) (row : Int → TableType) (hn : 1 ≤ g.size) :
    1 ≤ g.getSmallest row ∧ g.getSmallest row ≤ (g.size : Int) := by
  simp only [GraphM.getSmallest]
  refine forLoop_preserve (fun st : Int × Int => 1 ≤ st.1 ∧ st.1 ≤ (g.size : Int)) _ _ _ ?_ ?_
  · show (1 : Int) ≤ (g.size : Int) ∧ (g.size : Int) ≤ (g.size : Int)
    omega
  · intro i t h1 h2 ht
    show 1 ≤ (if (row i).dist < t.2 ∧ (row i).visited = false then (i, (row i).dist) else t).1 ∧
      (if (row i).dist < t.2 ∧ (row i).visited = false then (i, (row i).dist) else t).1 ≤ (g.size : Int)
    split_ifs
    · exact ⟨h1, h2⟩
    · exact ht

/-! ## Invariants of the table -/

theorem GraphM.relax_visited (g : GraphM) (i v w a b : Int) :
    ((g.relax i v w).T a b).visited = (g.T a b).visited := by
  unfold GraphM.relax
  split_ifs with h1 h2
  · show (upd2 g.T i w _ a b).visited = _
    unfold upd2
    split_ifs with h3
    · rw [h3.1, h3.2]
    · rfl
  · rfl
  · rfl

theorem GraphM.relax_distOk (g : GraphM) (i v w : Int) (hC : g.WeightsOk) (hD : g.DistOk) :
    (g.relax i v w).DistOk := by
  unfold GraphM.relax
  split_ifs with h1 h2
  · intro a b
    show 0 ≤ (upd2 g.T i w _ a b).dist ∧ (upd2 g.T i w _ a b).dist ≤ MAX_VALUE
    unfold upd2
    split_ifs with h3
    · rw [add32_eq (hD i v).1 (hD i v).2 (hC v w).1 (hC v w).2] at h2 ⊢
      have := hD i v
      have := hC v w
      have := hD i w
      simp only
      omega
    · exact hD a b
  · exact hD
  · exact hD

theorem GraphM.markVisited_distOk (g : GraphM) (i v : Int) (hD : g.DistOk) :
    (g.markVisited i v).DistOk := by
  intro a b
  show 0 ≤ (upd2 g.T i v _ a b).dist ∧ (upd2 g.T i v _ a b).dist ≤ MAX_VALUE
  unfold upd2
  split_ifs with h3
  · exact hD i v
  · exact hD a b

theorem GraphM.settle_distOk (g : GraphM) (i : Int) (hC : g.WeightsOk) (hD : g.DistOk) :
    (g.settle i).DistOk := by
  simp only [GraphM.settle]
  refine (forLoop_preserve (fun h : GraphM => h.C = g.C ∧ h.DistOk) _ _ _ ?_ ?_).2
  · exact ⟨rfl, GraphM.markVisited_distOk g i _ hD⟩
  · intro w t _ _ ht
    have hCt : t.WeightsOk := by
      intro a b
      rw [ht.1]
      exact hC a b
    exact ⟨(GraphM.relax_frame t i _ w).1.trans ht.1, GraphM.relax_distOk t i _ w hCt ht.2⟩

/-- A row with no distance stays so under `relax`: the table is not touched. -/
theorem GraphM.relax_unstarted (g : GraphM) (s v w : Int) (hC : g.WeightsOk)
    (hU : g.Unstarted s) : g.relax s v w = g := by
  unfold GraphM.relax
  split_ifs with h1 h2
  · exfalso
    rw [hU w, hU v, add32_eq (by rw [MAX_VALUE_eq]; omega) le_rfl (hC v w).1 (hC v w).2] at h2
    have := hC v w
    omega
  · rfl
  · rfl

theorem GraphM.settle_unstarted (g : GraphM) (s : Int) (hC : g.WeightsOk)
    (hU : g.Unstarted s) : (g.settle s).Unstarted s := by
  simp only [GraphM.settle]
  refine (forLoop_preserve (fun h : GraphM => h.C = g.C ∧ h.Unstarted s) _ _ _ ?_ ?_).2
  · refine ⟨rfl, ?_⟩
    intro w
    show (upd2 g.T s _ _ s w).dist = MAX_VALUE
    unfold upd2
    split_ifs with h3
    · exact hU _
    · exact hU w
  · intro w t _ _ ht
    have hCt : t.WeightsOk := by
      intro a b
      rw [ht.1]
      exact hC a b
    rw [GraphM.relax_unstarted t s _ w hCt ht.2]
    exact ht

/-- The predicates on row `s` only read row `s`, the weights and the size. -/
theorem GraphM.RowTree_congr {g h : GraphM} {s : Int} {hops : Int → Nat}
    (hT : ∀ j : Int, h.T s j = g.T s j) (hC : h.C = g.C) (hn : h.size = g.size)
    (hR : g.RowTree s hops) : h.RowTree s hops := by
  unfold GraphM.RowTree at hR ⊢
  simp only [hT, hC, hn]
  exact hR

theorem GraphM.Unstarted_congr {g h : GraphM} {s : Int}
    (hT : ∀ j : Int, h.T s j = g.T s j) (hU : g.Unstarted s) : h.Unstarted s := by
  intro w
  rw [hT w]
  exact hU w

theorem GraphM.markVisited_rowTree (g : GraphM) (s v : Int) (hops : Int → Nat)
    (hR : g.RowTree s hops) : (g.markVisited s v).RowTree s hops := by
  have cell : ∀ b : Int, ((g.markVisited s v).T s b).dist = (g.T s b).dist ∧
      ((g.markVisited s v).T s b).path = (g.T s b).path ∧
      ((g.T s b).visited = true → ((g.markVisited s v).T s b).visited = true) := by
    intro b
    show (upd2 g.T s v _ s b).dist = _ ∧ (upd2 g.T s v _ s b).path = _ ∧
      (_ → (upd2 g.T s v _ s b).visited = true)
    unfold upd2
    split_ifs with h3
    · rw [h3.2]
      exact ⟨rfl, rfl, fun _ => rfl⟩
    · exact ⟨rfl, rfl, fun h => h⟩
  obtain ⟨hs, h0, hh, hw⟩ := hR
  refine ⟨hs, by rw [(cell s).1]; exact h0, hh, ?_⟩
  intro w hws hfin
  rw [(cell w).1] at hfin
  obtain ⟨a1, a2, a3, a4, a5, a6⟩ := hw w hws hfin
  rw [(cell w).2.1, (cell w).1, (cell _).1]
  exact ⟨a1, (cell _).2.2 a2, a3, a4, a5, a6⟩

/-- One relaxation keeps row `s` a predecessor tree, provided the node relaxed
from is settled. -/
theorem GraphM.relax_rowTree (g : GraphM) (s v w : Int) (hops : Int → Nat)
    (hC : g.WeightsOk) (hD : g.DistOk) (hw : 1 ≤ w ∧ w ≤ (g.size : Int))
    (hv : (g.T s v).visited = true) (hR : g.RowTree s hops) :
    ∃ hops2 : Int → Nat, (g.relax s v w).RowTree s hops2 := by
  unfold GraphM.relax
  split_ifs with h1 h2
  · rw [add32_eq (hD s v).1 (hD s v).2 (hC v w).1 (hC v w).2] at h2 ⊢
    obtain ⟨hs, h0, hh, hall⟩ := hR
    have dv := hD s v
    have cw := hC v w
    have dw := hD s w
    have hws : w ≠ s := by
      intro e
      rw [e] at h2
      rw [e] at cw
      omega
    have hwv : v ≠ w := by
      intro e
      rw [e, h1] at hv
      exact Bool.false_ne_true hv
    have key : ∀ b : Int, b ≠ w →
        upd2 g.T s w ⟨(g.T s w).visited, (g.T s v).dist + g.C v w, v⟩ s b = g.T s b := by
      intro b hb
      simp [upd2, hb]
    have keyw : upd2 g.T s w ⟨(g.T s w).visited, (g.T s v).dist + g.C v w, v⟩ s w =
        ⟨(g.T s w).visited, (g.T s v).dist + g.C v w, v⟩ := by
      simp [upd2]
    refine ⟨upd1 hops w (hops v + 1), hs, ?_, ?_, ?_⟩
    · show (upd2 g.T s w _ s s).dist = 0
      rw [key s (Ne.symm hws)]
      exact h0
    · simp [upd1, Ne.symm hws, hh]
    · intro u hus hfin
      show (1 ≤ u ∧ u ≤ (g.size : Int)) ∧
        (upd2 g.T s w _ s (upd2 g.T s w _ s u).path).visited = true ∧
        (upd2 g.T s w _ s (upd2 g.T s w _ s u).path).dist < MAX_VALUE ∧
        g.C (upd2 g.T s w _ s u).path u < MAX_VALUE ∧
        (upd2 g.T s w _ s u).dist =
          (upd2 g.T s w _ s (upd2 g.T s w _ s u).path).dist + g.C (upd2 g.T s w _ s u).path u ∧
        upd1 hops w (hops v + 1) u = upd1 hops w (hops v + 1) (upd2 g.T s w _ s u).path + 1
      change (upd2 g.T s w _ s u).dist < MAX_VALUE at hfin
      by_cases huw : u = w
      · subst huw
        rw [keyw]
        simp only
        rw [key v hwv]
        refine ⟨hw, hv, by omega, by omega, rfl, ?_⟩
        simp [upd1, hwv]
      · rw [key u huw] at hfin ⊢
        obtain ⟨a1, a2, a3, a4, a5, a6⟩ := hall u hus hfin
        have hp : (g.T s u).path ≠ w := by
          intro e
          rw [e, h1] at a2
          exact Bool.false_ne_true a2
        rw [key _ hp]
        refine ⟨a1, a2, a3, a4, a5, ?_⟩
        simp [upd1, huw, hp, a6]
  · exact ⟨hops, hR⟩
  · exact ⟨hops, hR⟩

/-- One `settle` on its own row keeps the row a predecessor tree. -/
theorem GraphM.settle_rowTree (g : GraphM) (s : Int) (hC : g.WeightsOk) (hD : g.DistOk)
    (hR : ∃ hops : Int → Nat, g.RowTree s hops) :
    ∃ hops : Int → Nat, (g.settle s).RowTree s hops := by
  obtain ⟨hops, hR⟩ := hR
  simp only [GraphM.settle]
  refine (forLoop_preserve
    (fun h : GraphM => h.C = g.C ∧ h.size = g.size ∧ h.DistOk ∧
      (h.T s (g.getSmallest (g.T s))).visited = true ∧
      ∃ hops2 : Int → Nat, h.RowTree s hops2) _ _ _ ?_ ?_).2.2.2.2
  · refine ⟨rfl, rfl, GraphM.markVisited_distOk g s _ hD, ?_,
      hops, GraphM.markVisited_rowTree g s _ hops hR⟩
    simp [GraphM.markVisited, upd2]
  · intro w t h1 h2 ht
    obtain ⟨tC, tn, tD, tv, hops2, tR⟩ := ht
    have hCt : t.WeightsOk := by
      intro a b
      rw [tC]
      exact hC a b
    obtain ⟨f1, f2, _⟩ := GraphM.relax_frame t s (g.getSmallest (g.T s)) w
    refine ⟨f1.trans tC, f2.trans tn, GraphM.relax_distOk t s _ w hCt tD, ?_,
      GraphM.relax_rowTree t s _ w hops2 hCt tD ⟨h1, by rw [tn]; exact h2⟩ tv tR⟩
    rw [GraphM.relax_visited]
    exact tv

theorem GraphM.WeightsOk_congr {g h : GraphM} (hC : h.C = g.C) (hW : g.WeightsOk) :
    h.WeightsOk := by
  intro a b
  rw [hC]
  exact hW a b

/-- Every `settle` of the middle loop keeps the table invariant. -/
theorem GraphM.settle_tableInv (g : GraphM) (i : Int) (k : Nat) (hI : g.TableInv k) :
    (g.settle i).TableInv k := by
  obtain ⟨hC, hD, hrows⟩ := hI
  obtain ⟨f1, f2, _⟩ := GraphM.settle_frame g i
  refine ⟨GraphM.WeightsOk_congr f1 hC, GraphM.settle_distOk g i hC hD, ?_⟩
  intro s
  by_cases hsi : s = i
  · subst hsi
    exact ⟨fun hs => GraphM.settle_rowTree g s hC hD ((hrows s).1 hs),
      fun hs => GraphM.settle_unstarted g s hC ((hrows s).2 hs)⟩
  · refine ⟨fun hs => ?_, fun hs => ?_⟩
    · obtain ⟨hops, hR⟩ := (hrows s).1 hs
      exact ⟨hops, GraphM.RowTree_congr (GraphM.settle_other_row g i s hsi) f1 f2 hR⟩
    · exact GraphM.Unstarted_congr (GraphM.settle_other_row g i s hsi) ((hrows s).2 hs)

/-- Setting the distance of the next source to itself starts its row. -/
theorem GraphM.zeroDist_tableInv (g : GraphM) (k : Nat) (hk : k < g.size) (hI : g.TableInv k) :
    (g.zeroDist ((k : Int) + 1)).TableInv (k + 1) := by
  obtain ⟨hC, hD, hrows⟩ := hI
  have cell : ∀ a b : Int, ¬ (a = (k : Int) + 1 ∧ b = (k : Int) + 1) →
      (g.zeroDist ((k : Int) + 1)).T a b = g.T a b := by
    intro a b hab
    simp [GraphM.zeroDist, upd2, hab]
  have cell0 : ((g.zeroDist ((k : Int) + 1)).T ((k : Int) + 1) ((k : Int) + 1)).dist = 0 := by
    simp [GraphM.zeroDist, upd2]
  refine ⟨hC, ?_, ?_⟩
  · intro a b
    by_cases hab : a = (k : Int) + 1 ∧ b = (k : Int) + 1
    · rw [hab.1, hab.2, cell0, MAX_VALUE_eq]
      omega
    · rw [cell a b hab]
      exact hD a b
  · intro s
    by_cases hs : s = (k : Int) + 1
    · subst hs
      refine ⟨fun _ => ⟨fun _ => 0, ⟨by omega, by show (k : Int) + 1 ≤ (g.size : Int); omega⟩, cell0, rfl, ?_⟩, fun h => absurd (by push_cast; omega) h⟩
      intro w hw hfin
      exfalso
      rw [cell _ w (fun h => hw h.2)] at hfin
      have := (hrows ((k : Int) + 1)).2 (by omega) w
      omega
    · have hrow : ∀ j : Int, (g.zeroDist ((k : Int) + 1)).T s j = g.T s j :=
        fun j => cell s j (fun h => hs h.1)
      refine ⟨fun h => ?_, fun h => ?_⟩
      · obtain ⟨hops, hR⟩ := (hrows s).1 (by push_cast at h; omega)
        exact ⟨hops, GraphM.RowTree_congr hrow rfl rfl hR⟩
      · exact GraphM.Unstarted_congr hrow ((hrows s).2 (by push_cast at h; omega))

theorem GraphM.sourceStep_tableInv (g : GraphM) (k : Nat) (hk : k < g.size) (hI : g.TableInv k) :
    (g.sourceStep ((k : Int) + 1)).TableInv (k + 1) := by
  simp only [GraphM.sourceStep]
  refine forLoop_preserve (fun h : GraphM => h.TableInv (k + 1)) _ _ _ ?_ ?_
  · exact GraphM.zeroDist_tableInv g k hk hI
  · intro i t _ _ ht
    exact GraphM.settle_tableInv t i (k + 1) ht

/-- After `findShortestPath` on a constructed table every row `1..size` is a
predecessor tree. -/
theorem GraphM.findShortestPath_tableInv (g : GraphM) (hW : g.WeightsOk)
    (hT : g.TableConstructed) : g.findShortestPath.TableInv g.size := by
  simp only [GraphM.findShortestPath]
  refine (forLoop_induct (fun (k : Nat) (h : GraphM) => h.size = g.size ∧ h.TableInv k)
    _ _ _ ?_ ?_).2
  · refine ⟨rfl, hW, ?_, ?_⟩
    · intro a b
      rw [hT a b, MAX_VALUE_eq]
      simp
    · intro s
      refine ⟨fun h => absurd h (by push_cast; omega), fun _ w => ?_⟩
      rw [hT s w]
  · intro k t hk ht
    exact ⟨(GraphM.sourceStep_frame t _).2.1.trans ht.1,
      GraphM.sourceStep_tableInv t k (by rw [ht.1]; exact hk) ht.2⟩

/-! ## States reached from construction -/

theorem GraphM.insertEdge_weightsOk (g : GraphM) (s e w : Int) (hW : g.WeightsOk) :
    (g.insertEdge s e w).2.WeightsOk := by
  unfold GraphM.insertEdge
  split_ifs with h
  · intro a b
    show 0 ≤ upd2 g.C s e w a b ∧ upd2 g.C s e w a b ≤ MAX_VALUE
    unfold upd2
    split_ifs
    · exact ⟨h.2.2.1, h.2.2.2.2.2.1⟩
    · exact hW a b
  · exact hW

theorem GraphM.removeEdge_weightsOk (g : GraphM) (s e : Int) (hW : g.WeightsOk) :
    (g.removeEdge s e).2.WeightsOk := by
  unfold GraphM.removeEdge
  split_ifs with h
  · intro a b
    show 0 ≤ upd2 g.C s e MAX_VALUE a b ∧ upd2 g.C s e MAX_VALUE a b ≤ MAX_VALUE
    unfold upd2
    split_ifs
    · rw [MAX_VALUE_eq]
      omega
    · exact hW a b
  · exact hW

theorem GraphM.insertEdge_size (g : GraphM) (s e w : Int) :
    (g.insertEdge s e w).2.size = g.size := by
  unfold GraphM.insertEdge
  split_ifs <;> rfl

theorem GraphM.insertEdge_T (g : GraphM) (s e w : Int) :
    (g.insertEdge s e w).2.T = g.T := by
  unfold GraphM.insertEdge
  split_ifs <;> rfl

theorem GraphM.removeEdge_size (g : GraphM) (s e : Int) :
    (g.removeEdge s e).2.size = g.size := by
  unfold GraphM.removeEdge
  split_ifs <;> rfl

theorem GraphM.removeEdge_T (g : GraphM) (s e : Int) :
    (g.removeEdge s e).2.T = g.T := by
  unfold GraphM.removeEdge
  split_ifs <;> rfl

/-- A graph built by `buildGraph` on a constructed object has `n` nodes, valid
weights and the constructed table. -/
theorem GraphM.buildGraph_state (n : Nat) (descr : Int → NodeData)
    (edges : List (Int × Int × Int)) :
    (GraphM.ctor.buildGraph n descr edges).size = n ∧
    (GraphM.ctor.buildGraph n descr edges).WeightsOk ∧
    (GraphM.ctor.buildGraph n descr edges).TableConstructed := by
  unfold GraphM.buildGraph
  have start : ∀ g : GraphM, g.size = n ∧ g.WeightsOk ∧ g.TableConstructed →
      (edges.foldl (fun h e => (h.insertEdge e.1 e.2.1 e.2.2).2) g).size = n ∧
      (edges.foldl (fun h e => (h.insertEdge e.1 e.2.1 e.2.2).2) g).WeightsOk ∧
      (edges.foldl (fun h e => (h.insertEdge e.1 e.2.1 e.2.2).2) g).TableConstructed := by
    induction edges with
    | nil => exact fun g hg => hg
    | cons e rest ih =>
      intro g hg
      rw [List.foldl_cons]
      refine ih _ ⟨?_, GraphM.insertEdge_weightsOk g _ _ _ hg.2.1, ?_⟩
      · rw [GraphM.insertEdge_size]
        exact hg.1
      · intro a b
        rw [GraphM.insertEdge_T]
        exact hg.2.2 a b
  refine start _ ⟨rfl, ?_, fun a b => rfl⟩
  intro a b
  show 0 ≤ MAX_VALUE ∧ MAX_VALUE ≤ MAX_VALUE
  rw [MAX_VALUE_eq]
  omega

/-- Edge updates keep the size, the validity of the weights and the table. -/
theorem GraphM.run_edits (g : GraphM) (ops : List OpM)
    (hE : ∀ op ∈ ops, op.isEdit = true) :
    (g.run ops).size = g.size ∧ (g.WeightsOk → (g.run ops).WeightsOk) ∧
      (g.run ops).T = g.T := by
  unfold GraphM.run
  induction ops generalizing g with
  | nil => exact ⟨rfl, fun h => h, rfl⟩
  | cons op rest ih =>
    rw [List.foldl_cons]
    have hrest : ∀ o ∈ rest, o.isEdit = true := fun o ho => hE o (List.mem_cons_of_mem _ ho)
    obtain ⟨i1, i2, i3⟩ := ih (g.step op) hrest
    cases op with
    | insert s e w =>
      exact ⟨i1.trans (GraphM.insertEdge_size g s e w),
        fun h => i2 (GraphM.insertEdge_weightsOk g s e w h),
        i3.trans (GraphM.insertEdge_T g s e w)⟩
    | remove s e =>
      exact ⟨i1.trans (GraphM.removeEdge_size g s e),
        fun h => i2 (GraphM.removeEdge_weightsOk g s e h),
        i3.trans (GraphM.removeEdge_T g s e)⟩
    | compute =>
      have := hE OpM.compute (List.mem_cons_self _ _)
      simp [OpM.isEdit] at this

/-! ## Walks -/

theorem GraphM.isWalk_snoc (g : GraphM) (s p w : Int) (q : List Int)
    (hq : g.isWalk s q) (he : walkEnd s q = p) (hC : g.C p w ≠ MAX_VALUE)
    (hw : 1 ≤ w ∧ w ≤ (g.size : Int)) :
    g.isWalk s (q ++ [w]) ∧ walkEnd s (q ++ [w]) = w := by
  induction q generalizing s with
  | nil =>
    simp only [walkEnd] at he
    subst he
    exact ⟨⟨hq, hC, hw⟩, rfl⟩
  | cons t rest ih =>
    obtain ⟨h1, h2, h3⟩ := hq
    obtain ⟨i1, i2⟩ := ih t h3 he
    exact ⟨⟨h1, h2, i1⟩, i2⟩

theorem GraphM.walkWeight_snoc (g : GraphM) (s w : Int) (q : List Int) :
    g.walkWeight s (q ++ [w]) = g.walkWeight s q + g.C (walkEnd s q) w := by
  induction q generalizing s with
  | nil => simp [GraphM.walkWeight, walkEnd]
  | cons t rest ih =>
    show g.C s t + g.walkWeight t (rest ++ [w]) =
      g.C s t + g.walkWeight t rest + g.C (walkEnd t rest) w
    rw [ih t]
    omega

/-- In a predecessor tree every node with a distance is reached from the root
by a walk along present edges whose weight is that distance. -/
theorem GraphM.RowTree.reach {g : GraphM} {s : Int} {hops : Int → Nat}
    (hR : g.RowTree s hops) (m : Nat) :
    ∀ w : Int, hops w = m → (g.T s w).dist < MAX_VALUE →
      ∃ q : List Int, g.isWalk s q ∧ walkEnd s q = w ∧ g.walkWeight s q = (g.T s w).dist := by
  obtain ⟨hs, h0, hh, hall⟩ := hR
  induction m with
  | zero =>
    intro w hw hfin
    by_cases hws : w = s
    · subst hws
      exact ⟨[], hs, rfl, h0.symm⟩
    · have := (hall w hws hfin).2.2.2.2.2
      omega
  | succ k ih =>
    intro w hw hfin
    by_cases hws : w = s
    · subst hws
      exact ⟨[], hs, rfl, h0.symm⟩
    · obtain ⟨a1, _, a3, a4, a5, a6⟩ := hall w hws hfin
      obtain ⟨q, q1, q2, q3⟩ := ih (g.T s w).path (by omega) a3
      obtain ⟨r1, r2⟩ := GraphM.isWalk_snoc g s _ w q q1 q2 (ne_of_lt a4) a1
      refine ⟨q ++ [w], r1, r2, ?_⟩
      rw [GraphM.walkWeight_snoc, q2, q3, a5]

/-! ## Walking the predecessor entries -/

theorem nodup_bounded_length (l : List Int) (n : Nat) (hnd : l.Nodup)
    (hr : ∀ x ∈ l, 1 ≤ x ∧ x ≤ (n : Int)) : l.length ≤ n := by
  have hsub : l.toFinset ⊆ Finset.Icc (1 : Int) (n : Int) := by
    intro x hx
    rw [List.mem_toFinset] at hx
    rw [Finset.mem_Icc]
    exact hr x hx
  have hcard := Finset.card_le_card hsub
  rw [List.toFinset_card_of_nodup hnd, Int.card_Icc] at hcard
  omega

theorem GraphM.printPath_zero (g : GraphM) (s w : Int) :
    g.printPath 0 s w = if w ≠ s then none else some [] := by
  rw [GraphM.printPath]

theorem GraphM.printPath_succ (g : GraphM) (f : Nat) (s w : Int) :
    g.printPath (f + 1) s w =
      if w ≠ s then
        (g.printPath f s (g.T s w).path).map (fun out => out ++ [(g.T s w).path])
      else some [] := by
  rw [GraphM.printPath]

/-- More fuel does not change a finished walk. -/
theorem GraphM.printPath_mono (g : GraphM) (s : Int) (f : Nat) :
    ∀ (w : Int) (l : List Int), g.printPath f s w = some l →
      ∀ k : Nat, g.printPath (f + k) s w = some l := by
  induction f with
  | zero =>
    intro w l h k
    rw [GraphM.printPath_zero] at h
    split_ifs at h with hw
    cases k with
    | zero => rw [Nat.add_zero, GraphM.printPath_zero, if_neg hw, ← h]
    | succ j => rw [Nat.zero_add, GraphM.printPath_succ, if_neg hw, ← h]
  | succ f ih =>
    intro w l h k
    rw [GraphM.printPath_succ] at h
    rw [show f + 1 + k = (f + k) + 1 by omega, GraphM.printPath_succ]
    split_ifs at h ⊢ with hw
    · cases hp : g.printPath f s (g.T s w).path with
      | none => rw [hp] at h; simp at h
      | some l2 =>
        rw [hp] at h
        rw [ih _ l2 hp k]
        exact h
    · exact h

/-- In a predecessor tree the walk from a node with a distance back to the root
takes as many steps as the node has hops, meets only nodes of `1..size`, and
meets no node twice. -/
theorem GraphM.RowTree.walk {g : GraphM} {s : Int} {hops : Int → Nat}
    (hR : g.RowTree s hops) (m : Nat) :
    ∀ w : Int, hops w = m → (g.T s w).dist < MAX_VALUE →
      ∃ l : List Int, g.printPath m s w = some l ∧ l.length = m ∧
        (∀ x ∈ l ++ [w], (1 ≤ x ∧ x ≤ (g.size : Int)) ∧ hops x ≤ m) ∧
        (l ++ [w]).Nodup ∧ (w ≠ s → l.head? = some s) := by
  obtain ⟨hs, h0, hh, hall⟩ := hR
  induction m with
  | zero =>
    intro w hw hfin
    by_cases hws : w = s
    · subst hws
      refine ⟨[], ?_, rfl, ?_, by simp, fun h => absurd rfl h⟩
      · rw [GraphM.printPath_zero]
        simp
      · intro x hx
        simp at hx
        subst hx
        exact ⟨hs, by omega⟩
    · have := (hall w hws hfin).2.2.2.2.2
      omega
  | succ k ih =>
    intro w hw hfin
    by_cases hws : w = s
    · subst hws
      omega
    · obtain ⟨a1, _, a3, _, _, a6⟩ := hall w hws hfin
      obtain ⟨l, l1, l2, l3, l4, l5⟩ := ih (g.T s w).path (by omega) a3
      refine ⟨l ++ [(g.T s w).path], ?_, by simp [l2], ?_, ?_, fun _ => ?_⟩
      · rw [GraphM.printPath_succ, if_pos hws, l1]
        rfl
      · intro x hx
        rw [List.mem_append, List.mem_singleton] at hx
        rcases hx with hx | hx
        · exact ⟨(l3 x hx).1, by have := (l3 x hx).2; omega⟩
        · subst hx
          exact ⟨a1, by omega⟩
      · rw [List.nodup_append]
        refine ⟨l4, by simp, ?_⟩
        intro x hx hy
        rw [List.mem_singleton] at hy
        subst hy
        have := (l3 x hx).2
        omega
      · by_cases hp : (g.T s w).path = s
        · have hl : l = [] := by
            apply List.eq_nil_of_length_eq_zero
            rw [l2, ← hh, ← hp]
            omega
          rw [hl, hp]
          rfl
        · have := l5 hp
          cases l with
          | nil => simp at this
          | cons y ys =>
            simp only [List.head?_cons] at this
            simp [this]

/-! ## The first computation after construction -/

theorem GraphM.run_snoc (g : GraphM) (ops : List OpM) (op : OpM) :
    g.run (ops ++ [op]) = (g.run ops).step op := by
  simp [GraphM.run, List.foldl_append]

/-- After construction, any edge updates and then one `findShortestPath`, the
graph still has its `n` nodes and every row `1..n` is a predecessor tree. -/
theorem GraphM.first_compute_state (n : Nat) (descr : Int → NodeData)
    (edges : List (Int × Int × Int)) (edits : List OpM)
    (hE : ∀ op ∈ edits, op.isEdit = true) :
    ((GraphM.ctor.buildGraph n descr edges).run (edits ++ [OpM.compute])).size = n ∧
    ((GraphM.ctor.buildGraph n descr edges).run (edits ++ [OpM.compute])).C =
      ((GraphM.ctor.buildGraph n descr edges).run edits).C ∧
    ((GraphM.ctor.buildGraph n descr edges).run (edits ++ [OpM.compute])).TableInv n := by
  obtain ⟨b1, b2, b3⟩ := GraphM.buildGraph_state n descr edges
  obtain ⟨r1, r2, r3⟩ := GraphM.run_edits (GraphM.ctor.buildGraph n descr edges) edits hE
  rw [GraphM.run_snoc]
  show (GraphM.findShortestPath _).size = n ∧ (GraphM.findShortestPath _).C = _ ∧
    (GraphM.findShortestPath _).TableInv n
  obtain ⟨f1, f2, _⟩ := GraphM.findShortestPath_frame ((GraphM.ctor.buildGraph n descr edges).run edits)
  refine ⟨f2.trans (r1.trans b1), f1, ?_⟩
  have hT : ((GraphM.ctor.buildGraph n descr edges).run edits).TableConstructed := by
    intro a b
    rw [r3]
    exact b3 a b
  have := GraphM.findShortestPath_tableInv _ (r2 b2) hT
  rw [r1, b1] at this
  exact this

/-! ## Unreachable pairs -/

theorem GraphM.insertEdge_C (g : GraphM) (s e w a b : Int) :
    (g.insertEdge s e w).2.C a b =
      if (s ≥ 1 ∧ e ≥ 1 ∧ w ≥ 0 ∧ s ≤ g.size ∧ e ≤ g.size ∧ w ≤ MAX_VALUE ∧ s ≠ e) ∧
          a = s ∧ b = e then w else g.C a b := by
  unfold GraphM.insertEdge
  split_ifs with h1 h2 h3
  · simp [upd2, h2.2]
  · simp only [upd2]
    rw [if_neg (fun h => h2 ⟨h1, h⟩)]
  · exact absurd h3.1 h1
  · rfl

theorem GraphM.removeEdge_C (g : GraphM) (s e a b : Int) :
    (g.removeEdge s e).2.C a b =
      if (s ≥ 1 ∧ e ≥ 1 ∧ s ≤ g.size ∧ e ≤ g.size ∧ s ≠ e) ∧
          a = s ∧ b = e then MAX_VALUE else g.C a b := by
  unfold GraphM.removeEdge
  split_ifs with h1 h2 h3
  · simp [upd2, h2.2]
  · simp only [upd2]
    rw [if_neg (fun h => h2 ⟨h1, h⟩)]
  · exact absurd h3.1 h1
  · rfl

/-- A graph in which no edge leaves `s` has no path from `s` to another node. -/
theorem GraphM.not_reach_of_no_edge (g : GraphM) (s t : Int) (hst : s ≠ t)
    (hC : ∀ j : Int, g.C s j = MAX_VALUE) : ¬ g.Reach s t := by
  rintro ⟨p, hp, he⟩
  cases p with
  | nil => exact hst he
  | cons x rest => exact hp.2.1 (hC x)

/-- A graph right after construction holds no edge. -/
theorem GraphM.fresh_weights (n : Nat) (i j : Int) : (GraphM.fresh n).C i j = MAX_VALUE := by
  simp [GraphM.fresh, GraphM.buildGraph, GraphM.ctor]

/-- After `insertEdge(1,2,5)`, `findShortestPath` and `removeEdge(1,2)` on a
2-node graph the weight matrix holds no edge. -/
theorem GraphM.removed_edge_weights (i j : Int) :
    ((GraphM.fresh 2).run [OpM.insert 1 2 5, OpM.compute, OpM.remove 1 2]).C i j =
      MAX_VALUE := by
  show (GraphM.removeEdge (GraphM.findShortestPath
    (GraphM.insertEdge (GraphM.fresh 2) 1 2 5).2) 1 2).2.C i j = MAX_VALUE
  rw [GraphM.removeEdge_C, (GraphM.findShortestPath_frame _).1, GraphM.insertEdge_C,
    GraphM.fresh_weights]
  by_cases h : i = 1 ∧ j = 2
  · simp [h.1, h.2, GraphM.findShortestPath_frame, GraphM.insertEdge_size, GraphM.fresh,
      GraphM.buildGraph, GraphM.ctor]
  · simp [h]

/-- C9 fails on the code: on a 2-node graph, after `insertEdge(1,2,5)`,
`findShortestPath`, `removeEdge(1,2)` and `findShortestPath` again, the weight
matrix holds no edge and no directed path leads from 1 to 2, yet `dist[1][2]`
is still 5, the distance from before the removal, not `MAX_VALUE`, and
`displayHelper(1, 2)` reports the route 1, 2 of length 5 along the removed
edge. -/
theorem GraphM.stale_distance_after_removal :
    (∀ i j : Int, ((GraphM.fresh 2).run
      [OpM.insert 1 2 5, OpM.compute, OpM.remove 1 2, OpM.compute]).C i j = MAX_VALUE) ∧
    ¬ ((GraphM.fresh 2).run
      [OpM.insert 1 2 5, OpM.compute, OpM.remove 1 2, OpM.compute]).Reach 1 2 ∧
    (((GraphM.fresh 2).run
      [OpM.insert 1 2 5, OpM.compute, OpM.remove 1 2, OpM.compute]).T 1 2).dist = 5 ∧
    (((GraphM.fresh 2).run
      [OpM.insert 1 2 5, OpM.compute, OpM.remove 1 2, OpM.compute]).T 1 2).dist ≠ MAX_VALUE ∧
    ((GraphM.fresh 2).run
      [OpM.insert 1 2 5, OpM.compute, OpM.remove 1 2, OpM.compute]).displayHelper 2 1 2 =
        some (PathLine.route 1 2 5 [1, 2]) := by
  have hC : ∀ i j : Int, ((GraphM.fresh 2).run
      [OpM.insert 1 2 5, OpM.compute, OpM.remove 1 2, OpM.compute]).C i j = MAX_VALUE := by
    intro i j
    show (GraphM.findShortestPath ((GraphM.fresh 2).run
      [OpM.insert 1 2 5, OpM.compute, OpM.remove 1 2])).C i j = MAX_VALUE
    rw [(GraphM.findShortestPath_frame _).1]
    exact GraphM.removed_edge_weights i j
  exact ⟨hC, GraphM.not_reach_of_no_edge _ 1 2 (by decide) (fun j => hC 1 j),
    by decide, by decide, by decide⟩

/-! ## Path reconstruction -/

/-- C10: after construction, edge updates and one `findShortestPath`, for
distinct `start`, `end` in `1..size` with `dist[start][end] ≠ MAX_VALUE` the walk
of `printPath` from `end` along `path[start][·]` reaches `start` within
`size - 1` steps; the nodes it prints begin with `start`, all lie in `1..size`,
and together with `end` contain no node twice. -/
theorem GraphM.printPath_reaches_start (n : Nat) (descr : Int → NodeData)
    (edges : List (Int × Int × Int)) (edits : List OpM)
    (hE : ∀ op ∈ edits, op.isEdit = true) (s t : Int)
    (hs : 1 ≤ s ∧ s ≤ (n : Int)) (_ht : 1 ≤ t ∧ t ≤ (n : Int)) (hst : s ≠ t)
    (hfin : (((GraphM.ctor.buildGraph n descr edges).run (edits ++ [OpM.compute])).T s t).dist
      ≠ MAX_VALUE) :
    ∃ l : List Int,
      ((GraphM.ctor.buildGraph n descr edges).run (edits ++ [OpM.compute])).printPath
        (n - 1) s t = some l ∧
      l.length ≤ n - 1 ∧ l.head? = some s ∧
      (∀ x ∈ l, 1 ≤ x ∧ x ≤ (n : Int)) ∧ (l ++ [t]).Nodup := by
  obtain ⟨hn, _, _, hD, hrows⟩ := GraphM.first_compute_state n descr edges edits hE
  obtain ⟨hops, hR⟩ := (hrows s).1 hs
  have hlt := lt_of_le_of_ne (hD s t).2 hfin
  obtain ⟨l, l1, l2, l3, l4, l5⟩ := hR.walk (hops t) t rfl hlt
  rw [hn] at l3
  have hlen := nodup_bounded_length (l ++ [t]) n l4 (fun x hx => (l3 x hx).1)
  rw [List.length_append, List.length_singleton] at hlen
  refine ⟨l, ?_, by omega, l5 (Ne.symm hst), fun x hx => (l3 x (List.mem_append_left _ hx)).1, l4⟩
  have := GraphM.printPath_mono _ s (hops t) t l l1 (n - 1 - hops t)
  rw [show hops t + (n - 1 - hops t) = n - 1 by omega] at this
  exact this

/-- C10 at the 3-node graph with edges 1→2 (5) and 2→3 (2), from 1 to 3. -/
theorem GraphM.printPath_reaches_start_witness :
    ∃ l : List Int,
      ((GraphM.ctor.buildGraph 3 (fun _ => ⟨""⟩) [(1, 2, 5), (2, 3, 2)]).run
        ([] ++ [OpM.compute])).printPath (3 - 1) 1 3 = some l ∧
      l.length ≤ 3 - 1 ∧ l.head? = some 1 ∧
      (∀ x ∈ l, 1 ≤ x ∧ x ≤ ((3 : Nat) : Int)) ∧ (l ++ [3]).Nodup :=
  GraphM.printPath_reaches_start 3 (fun _ => ⟨""⟩) [(1, 2, 5), (2, 3, 2)] []
    (by simp) 1 3 (by decide) (by decide) (by decide) (by decide)

/-- First `settle` on row 1 of the 3-node chain 1→2→3: node 1 is settled and
node 2 gets distance `a` through 1. -/
theorem GraphM.chain_settle_first (g : GraphM) (hn : g.size = 3) (a : Int)
    (ha : 0 ≤ a) (ha2 : a < MAX_VALUE)
    (h12 : g.C 1 2 = a) (h13 : g.C 1 3 = MAX_VALUE)
    (h1 : g.T 1 1 = ⟨false, 0, MAX_VALUE⟩) (h2 : g.T 1 2 = ⟨false, MAX_VALUE, MAX_VALUE⟩)
    (h3 : g.T 1 3 = ⟨false, MAX_VALUE, MAX_VALUE⟩) :
    (g.settle 1).T 1 1 = ⟨true, 0, MAX_VALUE⟩ ∧ (g.settle 1).T 1 2 = ⟨false, a, 1⟩ ∧
      (g.settle 1).T 1 3 = ⟨false, MAX_VALUE, MAX_VALUE⟩ := by
  have hM := MAX_VALUE_eq
  have e0a : add32 0 a = a := by rw [add32_eq] <;> omega
  have e0M : add32 0 MAX_VALUE = MAX_VALUE := by rw [add32_eq] <;> omega
  have hv : g.getSmallest (g.T 1) = 1 := by
    simp [GraphM.getSmallest, hn, forLoop, h1, h2, h3, hM]
  simp only [GraphM.settle, hv, hn, forLoop]
  simp [GraphM.relax, GraphM.markVisited, upd2, h1, h2, h3, h12, h13, e0a, e0M, ha2]

/-- Second `settle` on row 1 of the chain: node 2 is settled and node 3 gets
distance `a + b` through 2. -/
theorem GraphM.chain_settle_second (g : GraphM) (hn : g.size = 3) (a b : Int)
    (ha : 0 ≤ a) (hb : 0 ≤ b) (hab : a + b < MAX_VALUE)
    (h23 : g.C 2 3 = b)
    (h1 : g.T 1 1 = ⟨true, 0, MAX_VALUE⟩) (h2 : g.T 1 2 = ⟨false, a, 1⟩)
    (h3 : g.T 1 3 = ⟨false, MAX_VALUE, MAX_VALUE⟩) :
    (g.settle 1).T 1 1 = ⟨true, 0, MAX_VALUE⟩ ∧ (g.settle 1).T 1 2 = ⟨true, a, 1⟩ ∧
      (g.settle 1).T 1 3 = ⟨false, a + b, 2⟩ := by
  have hM := MAX_VALUE_eq
  have ha2 : a < 1073741823 := by omega
  have eab : add32 a b = a + b := by rw [add32_eq] <;> omega
  have ha3 : ¬ ((1073741823 : Int) < a) := by omega
  have hv : g.getSmallest (g.T 1) = 2 := by
    simp [GraphM.getSmallest, hn, forLoop, h1, h2, h3, hM, ha2, ha3]
  simp only [GraphM.settle, hv, hn, forLoop]
  simp [GraphM.relax, GraphM.markVisited, upd2, h1, h2, h3, h23, eab, hab]

/-- Third `settle` on row 1 of the chain: node 3 is settled, no distance
changes. -/
theorem GraphM.chain_settle_third (g : GraphM) (hn : g.size = 3) (a b : Int)
    (hab : a + b < MAX_VALUE)
    (h1 : g.T 1 1 = ⟨true, 0, MAX_VALUE⟩) (h2 : g.T 1 2 = ⟨true, a, 1⟩)
    (h3 : g.T 1 3 = ⟨false, a + b, 2⟩) :
    (g.settle 1).T 1 2 = ⟨true, a, 1⟩ ∧ (g.settle 1).T 1 3 = ⟨true, a + b, 2⟩ := by
  have hM := MAX_VALUE_eq
  have hab2 : a + b < 1073741823 := by omega
  have hv : g.getSmallest (g.T 1) = 3 := by
    simp [GraphM.getSmallest, hn, forLoop, h1, h2, h3, hM, hab2]
  simp only [GraphM.settle, hv, hn, forLoop]
  simp [GraphM.relax, GraphM.markVisited, upd2, h1, h2, h3]

/-- On a 3-node graph one round of the outer loop changes row 1 by `settle 1`
only, unless the round is that of source 1. -/
theorem GraphM.sourceStep_row_one (g : GraphM) (hn : g.size = 3) (k j : Int) :
    (g.sourceStep k).T 1 j = ((g.zeroDist k).settle 1).T 1 j := by
  simp only [GraphM.sourceStep, hn, forLoop]
  norm_num
  rw [GraphM.settle_other_row _ 3 1 (by decide), GraphM.settle_other_row _ 2 1 (by decide)]

theorem GraphM.chain_state (descr : Int → NodeData) (a b : Int) (ha : 0 ≤ a) (hb : 0 ≤ b)
    (hab : a + b < MAX_VALUE) :
    (GraphM.chain descr a b).size = 3 ∧ (GraphM.chain descr a b).C 1 2 = a ∧
    (GraphM.chain descr a b).C 1 3 = MAX_VALUE ∧ (GraphM.chain descr a b).C 2 3 = b ∧
    ∀ i j : Int, (GraphM.chain descr a b).T i j = ⟨false, MAX_VALUE, MAX_VALUE⟩ := by
  have h1 : a ≤ MAX_VALUE := by omega
  have h2 : b ≤ MAX_VALUE := by omega
  refine ⟨(GraphM.buildGraph_state 3 descr _).1, ?_, ?_, ?_, (GraphM.buildGraph_state 3 descr _).2.2⟩
  · simp [GraphM.chain, GraphM.buildGraph, GraphM.insertEdge_C, GraphM.insertEdge_size,
      GraphM.ctor, ha, hb, h1, h2]
  · simp [GraphM.chain, GraphM.buildGraph, GraphM.insertEdge_C, GraphM.insertEdge_size,
      GraphM.ctor, ha, hb, h1, h2]
  · simp [GraphM.chain, GraphM.buildGraph, GraphM.insertEdge_C, GraphM.insertEdge_size,
      GraphM.ctor, ha, hb, h1, h2]

/-- C7: on the 3-node graph with only the edges 1→2 (weight `a`) and 2→3
(weight `b`), `a + b < MAX_VALUE`, `findShortestPath` gives `dist[1][3] = a + b`,
`path[1][3] = 2`, `path[1][2] = 1`; `printPath` prints 1, 2 and the displayed
path from 1 to 3 is 1, 2, 3. -/
theorem GraphM.chain_shortest_path (descr : Int → NodeData) (a b : Int) (ha : 0 ≤ a)
    (hb : 0 ≤ b) (hab : a + b < MAX_VALUE) :
    ((GraphM.chain descr a b).findShortestPath.T 1 3).dist = a + b ∧
    ((GraphM.chain descr a b).findShortestPath.T 1 3).path = 2 ∧
    ((GraphM.chain descr a b).findShortestPath.T 1 2).path = 1 ∧
    (GraphM.chain descr a b).findShortestPath.printPath 2 1 3 = some [1, 2] ∧
    (GraphM.chain descr a b).findShortestPath.displayHelper 2 1 3 =
      some (PathLine.route 1 3 (a + b) [1, 2, 3]) := by
  obtain ⟨hn, c12, c13, c23, hT⟩ := GraphM.chain_state descr a b ha hb hab
  have ha2 : a < MAX_VALUE := by omega
  -- round of source 1
  obtain ⟨f1C, f1n, _⟩ := GraphM.sourceStep_frame (GraphM.chain descr a b) 1
  obtain ⟨r11, r12, r13⟩ := GraphM.chain_settle_first ((GraphM.chain descr a b).zeroDist 1)
    hn a ha ha2 c12 c13 (by simp [GraphM.zeroDist, upd2, hT])
    (by simp [GraphM.zeroDist, upd2, hT]) (by simp [GraphM.zeroDist, upd2, hT])
  rw [← GraphM.sourceStep_row_one _ hn] at r11 r12 r13
  -- round of source 2
  have n1 : ((GraphM.chain descr a b).sourceStep 1).size = 3 := f1n.trans hn
  obtain ⟨f2C, f2n, _⟩ := GraphM.sourceStep_frame ((GraphM.chain descr a b).sourceStep 1) 2
  obtain ⟨r21, r22, r23⟩ := GraphM.chain_settle_second
    (((GraphM.chain descr a b).sourceStep 1).zeroDist 2) n1 a b ha hb hab
    (by show ((GraphM.chain descr a b).sourceStep 1).C 2 3 = b; rw [f1C]; exact c23)
    (by simp [GraphM.zeroDist, upd2, r11]) (by simp [GraphM.zeroDist, upd2, r12])
    (by simp [GraphM.zeroDist, upd2, r13])
  rw [← GraphM.sourceStep_row_one _ n1] at r21 r22 r23
  -- round of source 3
  have n2 : (((GraphM.chain descr a b).sourceStep 1).sourceStep 2).size = 3 := f2n.trans n1
  obtain ⟨r32, r33⟩ := GraphM.chain_settle_third
    ((((GraphM.chain descr a b).sourceStep 1).sourceStep 2).zeroDist 3) n2 a b hab
    (by simp [GraphM.zeroDist, upd2, r21]) (by simp [GraphM.zeroDist, upd2, r22])
    (by simp [GraphM.zeroDist, upd2, r23])
  rw [← GraphM.sourceStep_row_one _ n2] at r32 r33
  have hfsp : (GraphM.chain descr a b).findShortestPath =
      (((GraphM.chain descr a b).sourceStep 1).sourceStep 2).sourceStep 3 := by
    simp only [GraphM.findShortestPath, hn, forLoop]
    norm_num
  have hsize : (GraphM.chain descr a b).findShortestPath.size = 3 :=
    (GraphM.findShortestPath_frame _).2.1.trans hn
  rw [← hfsp] at r32 r33
  have hp : (GraphM.chain descr a b).findShortestPath.printPath 2 1 3 = some [1, 2] := by
    rw [GraphM.printPath_succ, if_pos (by decide), r33]
    simp only
    rw [GraphM.printPath_succ, if_pos (by decide), r32]
    simp only
    rw [GraphM.printPath_zero, if_neg (by decide)]
    rfl
  refine ⟨by rw [r33], by rw [r33], by rw [r32], hp, ?_⟩
  have hne : a + b ≠ MAX_VALUE := ne_of_lt hab
  simp [GraphM.displayHelper, hsize, hp, r33, hne]

/-- C7 at the weights of the example, `a = 5` and `b = 2`: `dist[1][3] = 7`
through node 2. -/
theorem GraphM.chain_shortest_path_witness :
    ((GraphM.chain (fun _ => ⟨""⟩) 5 2).findShortestPath.T 1 3).dist = 5 + 2 ∧
    ((GraphM.chain (fun _ => ⟨""⟩) 5 2).findShortestPath.T 1 3).path = 2 ∧
    ((GraphM.chain (fun _ => ⟨""⟩) 5 2).findShortestPath.T 1 2).path = 1 ∧
    (GraphM.chain (fun _ => ⟨""⟩) 5 2).findShortestPath.printPath 2 1 3 = some [1, 2] ∧
    (GraphM.chain (fun _ => ⟨""⟩) 5 2).findShortestPath.displayHelper 2 1 3 =
      some (PathLine.route 1 3 (5 + 2) [1, 2, 3]) :=
  GraphM.chain_shortest_path (fun _ => ⟨""⟩) 5 2 (by decide) (by decide) (by decide)

/-! ## Repeated calls of `findShortestPath` -/

/-- C8 fails on the code: `findShortestPath` does not recompute the table, it
continues from the entries it finds. On the 3-node graph with edges 3→1 and
1→2 (weight 1 each) the first call leaves the size and the weights as they
were and leaves `dist[3][2] = MAX_VALUE`; a second call, on that same size and
those same weights, leaves `dist[3][2] = 2`. On a 2-node graph the state after
`insertEdge(1,2,5)`, `findShortestPath`, `removeEdge(1,2)` has the size and the
weights of a freshly constructed 2-node graph; `findShortestPath` leaves
`dist[1][2] = 5`, `path[1][2] = 1` on it and `dist[1][2] = MAX_VALUE`,
`path[1][2] = MAX_VALUE` on the fresh graph. -/
theorem GraphM.recompute_depends_on_table :
    (GraphM.ctor.buildGraph 3 (fun _ => ⟨""⟩) [(3, 1, 1), (1, 2, 1)]).findShortestPath.size =
      (GraphM.ctor.buildGraph 3 (fun _ => ⟨""⟩) [(3, 1, 1), (1, 2, 1)]).size ∧
    (GraphM.ctor.buildGraph 3 (fun _ => ⟨""⟩) [(3, 1, 1), (1, 2, 1)]).findShortestPath.C =
      (GraphM.ctor.buildGraph 3 (fun _ => ⟨""⟩) [(3, 1, 1), (1, 2, 1)]).C ∧
    ((GraphM.ctor.buildGraph 3 (fun _ => ⟨""⟩)
      [(3, 1, 1), (1, 2, 1)]).findShortestPath.findShortestPath.T 3 2).dist = 2 ∧
    ((GraphM.ctor.buildGraph 3 (fun _ => ⟨""⟩)
      [(3, 1, 1), (1, 2, 1)]).findShortestPath.T 3 2).dist = MAX_VALUE ∧
    ((GraphM.fresh 2).run [OpM.insert 1 2 5, OpM.compute, OpM.remove 1 2]).size =
      (GraphM.fresh 2).size ∧
    (∀ i j : Int, ((GraphM.fresh 2).run [OpM.insert 1 2 5, OpM.compute, OpM.remove 1 2]).C i j =
      (GraphM.fresh 2).C i j) ∧
    (((GraphM.fresh 2).run [OpM.insert 1 2 5, OpM.compute, OpM.remove 1 2]).findShortestPath.T
      1 2).dist = 5 ∧
    (((GraphM.fresh 2).run [OpM.insert 1 2 5, OpM.compute, OpM.remove 1 2]).findShortestPath.T
      1 2).path = 1 ∧
    ((GraphM.fresh 2).findShortestPath.T 1 2).dist = MAX_VALUE ∧
    ((GraphM.fresh 2).findShortestPath.T 1 2).path = MAX_VALUE :=
  ⟨(GraphM.findShortestPath_frame _).2.1, (GraphM.findShortestPath_frame _).1,
    by decide, by decide, by decide,
    fun i j => (GraphM.removed_edge_weights i j).trans (GraphM.fresh_weights 2 i j).symm,
    by decide, by decide, by decide, by decide⟩

/-! ## All-pairs correctness -/

/-- C1 fails on the code: on the 3-node graph whose only edge is 2→3 with
weight 1, the walk 2, 3 is a directed path of weight 1 along a present edge,
and after `findShortestPath` on the constructed table `dist[2][3]` is
`MAX_VALUE`, not 1. -/
theorem GraphM.findShortestPath_misses_edge :
    ((GraphM.fresh 3).run [OpM.insert 2 3 1, OpM.compute]).isWalk 2 [3] ∧
    walkEnd 2 [3] = 3 ∧
    ((GraphM.fresh 3).run [OpM.insert 2 3 1, OpM.compute]).walkWeight 2 [3] = 1 ∧
    (((GraphM.fresh 3).run [OpM.insert 2 3 1, OpM.compute]).T 2 3).dist = MAX_VALUE := by
  refine ⟨⟨by decide, by decide, ?_⟩, rfl, by decide, by decide⟩
  show 1 ≤ (3 : Int) ∧ (3 : Int) ≤ (((GraphM.fresh 3).run [OpM.insert 2 3 1, OpM.compute]).size : Int)
  decide

/-! ## Depth-first traversal -/

theorem mem_nodeList (n : Nat) (x : Int) : x ∈ nodeList n ↔ 1 ≤ x ∧ x ≤ (n : Int) := by
  unfold nodeList
  rw [List.mem_map]
  constructor
  · rintro ⟨k, hk, rfl⟩
    rw [List.mem_range] at hk
    omega
  · intro h
    refine ⟨(x - 1).toNat, ?_, ?_⟩
    · rw [List.mem_range]
      omega
    · omega

theorem nodeList_nodup (n : Nat) : (nodeList n).Nodup := by
  unfold nodeList
  refine List.Nodup.map ?_ (List.nodup_range n)
  intro a b h
  simp only at h
  omega

theorem nodeList_length (n : Nat) : (nodeList n).length = n := by
  simp [nodeList]

theorem countP_lt_of_imp {α : Type} (l : List α) (p q : α → Bool)
    (himp : ∀ x ∈ l, q x = true → p x = true) (v : α) (hv : v ∈ l) (hp : p v = true)
    (hq : q v = false) : l.countP q < l.countP p := by
  induction l with
  | nil => simp at hv
  | cons a rest ih =>
    rw [List.countP_cons, List.countP_cons]
    have hle : rest.countP q ≤ rest.countP p :=
      List.countP_mono_left (fun x hx => himp x (List.mem_cons_of_mem _ hx))
    rcases List.mem_cons.mp hv with h | h
    · subst h
      simp [hp, hq]
      omega
    · have := ih (fun x hx => himp x (List.mem_cons_of_mem _ hx)) h
      have ha := himp a (List.mem_cons_self _ _)
      by_cases hqa : q a = true
      · simp [hqa, ha hqa]
        omega
      · simp [hqa]
        omega

theorem GraphL.Grows.refl (st : GraphL × List Int) : GraphL.Grows st st [] := by
  refine ⟨rfl, fun i => ⟨rfl, rfl⟩, by simp, List.nodup_nil, by simp, by simp⟩

theorem GraphL.Grows.trans {a b c : GraphL × List Int} {n1 n2 : List Int}
    (h1 : GraphL.Grows a b n1) (h2 : GraphL.Grows b c n2) : GraphL.Grows a c (n1 ++ n2) := by
  obtain ⟨s1, e1, o1, d1, u1, v1⟩ := h1
  obtain ⟨s2, e2, o2, d2, u2, v2⟩ := h2
  refine ⟨s2.trans s1, fun i => ⟨(e2 i).1.trans (e1 i).1, (e2 i).2.trans (e1 i).2⟩, ?_, ?_, ?_, ?_⟩
  · rw [o2, o1, List.append_assoc]
  · rw [List.nodup_append]
    refine ⟨d1, d2, ?_⟩
    intro x hx1 hx2
    have hb : (b.1.nodes x).visited = true := (v1 x).2 (Or.inr hx1)
    rw [(u2 x hx2).2] at hb
    exact Bool.false_ne_true hb
  · intro x hx
    rcases List.mem_append.mp hx with h | h
    · exact u1 x h
    · obtain ⟨r, hu⟩ := u2 x h
      rw [s1] at r
      refine ⟨r, ?_⟩
      by_contra hc
      have hb : (b.1.nodes x).visited = true := (v1 x).2 (Or.inl (by simpa using hc))
      rw [hu] at hb
      exact Bool.false_ne_true hb
  · intro x
    rw [v2 x, v1 x, List.mem_append, or_assoc]

theorem GraphL.Grows.count_le {a b : GraphL × List Int} {new : List Int}
    (h : GraphL.Grows a b new) : b.1.unvisitedCount ≤ a.1.unvisitedCount := by
  obtain ⟨s1, _, _, _, _, v1⟩ := h
  unfold GraphL.unvisitedCount
  rw [s1]
  apply List.countP_mono_left
  intro x _ hx
  simp only [Bool.not_eq_true'] at hx ⊢
  by_contra hc
  have : (b.1.nodes x).visited = true := (v1 x).2 (Or.inl (by simpa using hc))
  rw [hx] at this
  exact Bool.false_ne_true this

theorem GraphL.Grows.edgesOk {a b : GraphL × List Int} {new : List Int}
    (h : GraphL.Grows a b new) (hE : a.1.EdgesOk) : b.1.EdgesOk := by
  intro i t ht
  rw [(h.2.1 i).1] at ht
  rw [h.1]
  exact hE i t ht

theorem GraphL.dfs_succ (fuel : Nat) (v : Int) (st : GraphL × List Int) :
    GraphL.dfs (fuel + 1) v st =
      (st.1.nodes v).edgeHead.foldlM
        (fun (s : GraphL × List Int) (adj : Int) =>
          if (s.1.nodes adj).visited = false then GraphL.dfs fuel adj s else some s)
        (({ st.1 with nodes := upd1 st.1.nodes v { (st.1.nodes v) with visited := true } } :
          GraphL), st.2 ++ [v]) := by
  rw [GraphL.dfs]
  simp [upd1]

/-- Marking an unvisited node of `1..size` and printing it is a traversal step
that lowers the number of unvisited nodes. -/
theorem GraphL.mark_grows (st : GraphL × List Int) (v : Int)
    (hv : 1 ≤ v ∧ v ≤ (st.1.size : Int)) (hu : (st.1.nodes v).visited = false) :
    GraphL.Grows st
      (({ st.1 with nodes := upd1 st.1.nodes v { (st.1.nodes v) with visited := true } } :
        GraphL), st.2 ++ [v]) [v] ∧
    ({ st.1 with nodes := upd1 st.1.nodes v { (st.1.nodes v) with visited := true } } :
      GraphL).unvisitedCount < st.1.unvisitedCount := by
  constructor
  · refine ⟨rfl, fun i => ?_, rfl, List.nodup_singleton v, ?_, fun x => ?_⟩
    · show (upd1 st.1.nodes v _ i).edgeHead = _ ∧ (upd1 st.1.nodes v _ i).data = _
      unfold upd1
      split_ifs with h
      · rw [h]
        exact ⟨rfl, rfl⟩
      · exact ⟨rfl, rfl⟩
    · intro x hx
      rw [List.mem_singleton] at hx
      subst hx
      exact ⟨hv, hu⟩
    · show (upd1 st.1.nodes v _ x).visited = true ↔ _
      unfold upd1
      rw [List.mem_singleton]
      split_ifs with h
      · simp [h]
      · simp [h]
  · unfold GraphL.unvisitedCount
    refine countP_lt_of_imp _ _ _ ?_ v ((mem_nodeList _ v).2 hv) (by simp [hu]) ?_
    · intro x _ hx
      change (!(upd1 st.1.nodes v _ x).visited) = true at hx
      unfold upd1 at hx
      split_ifs at hx with h
      · simp at hx
      · exact hx
    · show (!(upd1 st.1.nodes v _ v).visited) = false
      simp [upd1]

/-- The loop over the edge list of a node, given that `dfs` with this fuel
behaves. -/
theorem GraphL.dfs_edges (f : Nat)
    (hdfs : ∀ (v : Int) (st : GraphL × List Int), st.1.EdgesOk →
      (1 ≤ v ∧ v ≤ (st.1.size : Int)) → (st.1.nodes v).visited = false →
      st.1.unvisitedCount ≤ f →
      ∃ (st2 : GraphL × List Int) (rest : List Int),
        GraphL.dfs f v st = some st2 ∧ GraphL.Grows st st2 (v :: rest))
    (es : List Int) :
    ∀ s : GraphL × List Int, s.1.EdgesOk → (∀ t ∈ es, 1 ≤ t ∧ t ≤ (s.1.size : Int)) →
      s.1.unvisitedCount ≤ f →
      ∃ (s2 : GraphL × List Int) (new : List Int),
        es.foldlM (fun (s : GraphL × List Int) (adj : Int) =>
          if (s.1.nodes adj).visited = false then GraphL.dfs f adj s else some s) s = some s2 ∧
        GraphL.Grows s s2 new ∧ ∀ t ∈ es, (s2.1.nodes t).visited = true := by
  induction es with
  | nil =>
    intro s _ _ _
    exact ⟨s, [], rfl, GraphL.Grows.refl s, by simp⟩
  | cons t rest ih =>
    intro s hE hr hc
    rw [List.foldlM_cons]
    have hrest : ∀ x ∈ rest, 1 ≤ x ∧ x ≤ (s.1.size : Int) :=
      fun x hx => hr x (List.mem_cons_of_mem _ hx)
    by_cases hu : (s.1.nodes t).visited = false
    · obtain ⟨s1, r1, e1, g1⟩ := hdfs t s hE (hr t (List.mem_cons_self _ _)) hu hc
      rw [if_pos hu, e1]
      obtain ⟨s2, n2, e2, g2, v2⟩ := ih s1 (g1.edgesOk hE) (by rw [g1.1]; exact hrest)
        (le_trans g1.count_le hc)
      refine ⟨s2, (t :: r1) ++ n2, e2, g1.trans g2, ?_⟩
      intro x hx
      rcases List.mem_cons.mp hx with h | h
      · subst h
        exact (g2.2.2.2.2.2 x).2 (Or.inl ((g1.2.2.2.2.2 x).2 (Or.inr (List.mem_cons_self _ _))))
      · exact v2 x h
    · rw [if_neg hu]
      obtain ⟨s2, n2, e2, g2, v2⟩ := ih s hE hrest hc
      refine ⟨s2, n2, e2, g2, ?_⟩
      intro x hx
      rcases List.mem_cons.mp hx with h | h
      · subst h
        exact (g2.2.2.2.2.2 x).2 (Or.inl (by simpa using hu))
      · exact v2 x h

/-- A `dfs` from an unvisited node returns when its fuel is at least the number
of unvisited nodes; it visits that node first, then only unvisited nodes, each
once. -/
theorem GraphL.dfs_spec (f : Nat) :
    ∀ (v : Int) (st : GraphL × List Int), st.1.EdgesOk →
      (1 ≤ v ∧ v ≤ (st.1.size : Int)) → (st.1.nodes v).visited = false →
      st.1.unvisitedCount ≤ f →
      ∃ (st2 : GraphL × List Int) (rest : List Int),
        GraphL.dfs f v st = some st2 ∧ GraphL.Grows st st2 (v :: rest) := by
  induction f with
  | zero =>
    intro v st _ hv hu hc
    exfalso
    have := (GraphL.mark_grows st v hv hu).2
    omega
  | succ f ih =>
    intro v st hE hv hu hc
    obtain ⟨g1, c1⟩ := GraphL.mark_grows st v hv hu
    rw [GraphL.dfs_succ]
    obtain ⟨s2, n2, e2, g2, _⟩ := GraphL.dfs_edges f ih (st.1.nodes v).edgeHead _
      (g1.edgesOk hE) (fun t ht => hE v t ht) (Nat.le_of_lt_succ (Nat.lt_of_lt_of_le c1 hc))
    exact ⟨s2, n2, e2, g1.trans g2⟩

theorem forLoopOpt_succ {σ : Type} (k : Nat) (body : Int → σ → Option σ) (s : σ) :
    forLoopOpt (k + 1) body s = (forLoopOpt k body s).bind (body ((k : Int) + 1)) := rfl

/-- Invariant rule for the counting loop with a body that may fail: if every
iteration returns and keeps the invariant, so does the loop. -/
theorem forLoopOpt_induct {σ : Type} (P : Nat → σ → Prop) (n : Nat)
    (body : Int → σ → Option σ) (s : σ) (h0 : P 0 s)
    (hs : ∀ (k : Nat) (t : σ), k < n → P k t →
      ∃ t2 : σ, body ((k : Int) + 1) t = some t2 ∧ P (k + 1) t2) :
    ∃ t : σ, forLoopOpt n body s = some t ∧ P n t := by
  induction n with
  | zero => exact ⟨s, rfl, h0⟩
  | succ m ih =>
    obtain ⟨t, e, p⟩ := ih (fun k t hk hp => hs k t (Nat.lt_succ_of_lt hk) hp)
    obtain ⟨t2, e2, p2⟩ := hs m t (Nat.lt_succ_self m) p
    exact ⟨t2, by rw [forLoopOpt_succ, e]; exact e2, p2⟩

/-- The function `markUnvisited` clears the flag of the nodes `1..size` and nothing else. -/
theorem GraphL.markUnvisited_state (g : GraphL) :
    g.markUnvisited.size = g.size ∧
    ∀ i : Int, (g.markUnvisited.nodes i).edgeHead = (g.nodes i).edgeHead ∧
      (g.markUnvisited.nodes i).data = (g.nodes i).data ∧
      (g.markUnvisited.nodes i).visited =
        if 1 ≤ i ∧ i ≤ (g.size : Int) then false else (g.nodes i).visited := by
  unfold GraphL.markUnvisited
  refine forLoop_induct (fun (k : Nat) (h : GraphL) => h.size = g.size ∧
    ∀ i : Int, (h.nodes i).edgeHead = (g.nodes i).edgeHead ∧
      (h.nodes i).data = (g.nodes i).data ∧
      (h.nodes i).visited = if 1 ≤ i ∧ i ≤ (k : Int) then false else (g.nodes i).visited)
    _ _ _ ?_ ?_
  · refine ⟨rfl, fun i => ⟨rfl, rfl, ?_⟩⟩
    rw [if_neg (by omega)]
  · intro k h _ hp
    refine ⟨hp.1, fun i => ?_⟩
    show (upd1 h.nodes _ _ i).edgeHead = _ ∧ (upd1 h.nodes _ _ i).data = _ ∧
      (upd1 h.nodes _ _ i).visited = _
    unfold upd1
    obtain ⟨p1, p2, p3⟩ := hp.2 i
    split_ifs with c1 c2 c2
    · subst c1
      exact ⟨p1, p2, rfl⟩
    · exact absurd (by push_cast; omega) c2
    · rw [p3, if_pos (by push_cast at c2; omega)]
      exact ⟨p1, p2, rfl⟩
    · rw [p3, if_neg (by push_cast at c2; omega)]
      exact ⟨p1, p2, rfl⟩

/-- The traversal of a graph whose edges point into `1..size`, with fuel at
least `size`: it returns, its output lists every node of `1..size` once, every
such node ends up visited, and the output begins with the output of the first
`dfs` call. -/
theorem GraphL.depthFirstSearch_spec (g : GraphL) (hE : g.EdgesOk) (fuel : Nat)
    (hf : g.size ≤ fuel) :
    ∃ st : GraphL × List Int, g.depthFirstSearch fuel = some st ∧
      st.2.Perm (nodeList g.size) ∧
      (∀ i : Int, 1 ≤ i → i ≤ (g.size : Int) → (st.1.nodes i).visited = true) ∧
      (1 ≤ g.size → ∀ st1 : GraphL × List Int,
        GraphL.dfs fuel 1 (g.markUnvisited, []) = some st1 → ∃ tail, st.2 = st1.2 ++ tail) := by
  obtain ⟨m1, m2⟩ := GraphL.markUnvisited_state g
  have hE0 : g.markUnvisited.EdgesOk := by
    intro i t ht
    rw [(m2 i).1] at ht
    rw [m1]
    exact hE i t ht
  have hu0 : ∀ i : Int, 1 ≤ i → i ≤ (g.size : Int) → (g.markUnvisited.nodes i).visited = false := by
    intro i i1 i2
    rw [(m2 i).2.2, if_pos ⟨i1, i2⟩]
  have hc0 : g.markUnvisited.unvisitedCount ≤ fuel := by
    unfold GraphL.unvisitedCount
    exact le_trans (List.countP_le_length _) (by rw [nodeList_length, m1]; exact hf)
  unfold GraphL.depthFirstSearch
  obtain ⟨st, e, new, gr, vis, k0, pre⟩ := forLoopOpt_induct
    (fun (k : Nat) (st : GraphL × List Int) =>
      ∃ new : List Int, GraphL.Grows (g.markUnvisited, []) st new ∧
        (∀ i : Int, 1 ≤ i → i ≤ (k : Int) → (st.1.nodes i).visited = true) ∧
        (k = 0 → st = (g.markUnvisited, [])) ∧
        (1 ≤ k → ∀ st1 : GraphL × List Int,
          GraphL.dfs fuel 1 (g.markUnvisited, []) = some st1 → ∃ tail, st.2 = st1.2 ++ tail))
    g.size
    (fun v (s : GraphL × List Int) =>
      if (s.1.nodes v).visited = false then GraphL.dfs fuel v s else some s)
    (g.markUnvisited, [])
    ⟨[], GraphL.Grows.refl _, fun i i1 i2 => absurd i2 (by push_cast; omega), fun _ => rfl,
      fun h => absurd h (by omega)⟩
    (by
      intro k st hk hp
      obtain ⟨new, gr, vis, k0, pre⟩ := hp
      beta_reduce
      by_cases hu : (st.1.nodes ((k : Int) + 1)).visited = false
      · rw [if_pos hu]
        obtain ⟨st2, rest, e2, g2⟩ := GraphL.dfs_spec fuel ((k : Int) + 1) st (gr.edgesOk hE0)
          (by rw [gr.1]; show (1 : Int) ≤ (k : Int) + 1 ∧ (k : Int) + 1 ≤ (g.markUnvisited.size : Int)
              rw [m1]; omega) hu (le_trans gr.count_le hc0)
        refine ⟨st2, e2, new ++ (((k : Int) + 1) :: rest), gr.trans g2, ?_, fun h => absurd h (by omega),
          fun _ st1 h1 => ?_⟩
        · intro i i1 i2
          by_cases hik : i = (k : Int) + 1
          · subst hik
            exact (g2.2.2.2.2.2 _).2 (Or.inr (List.mem_cons_self _ _))
          · exact (g2.2.2.2.2.2 i).2 (Or.inl (vis i i1 (by push_cast at i2; omega)))
        · by_cases hk0 : k = 0
          · subst hk0
            rw [k0 rfl] at e2
            simp only [Nat.cast_zero, zero_add] at e2
            rw [e2] at h1
            exact ⟨[], by rw [← Option.some.inj h1, List.append_nil]⟩
          · obtain ⟨tail, ht⟩ := pre (by omega) st1 h1
            exact ⟨tail ++ (((k : Int) + 1) :: rest), by rw [g2.2.2.1, ht, List.append_assoc]⟩
      · rw [if_neg hu]
        have hv : (st.1.nodes ((k : Int) + 1)).visited = true := by simpa using hu
        refine ⟨st, rfl, new, gr, ?_, fun h => absurd h (by omega), fun _ st1 h1 => ?_⟩
        · intro i i1 i2
          by_cases hik : i = (k : Int) + 1
          · subst hik
            exact hv
          · exact vis i i1 (by push_cast at i2; omega)
        · by_cases hk0 : k = 0
          · exfalso
            subst hk0
            rw [k0 rfl] at hv
            rw [hu0 _ (by omega) (by simp only [Nat.cast_zero, zero_add]; omega)] at hv
            exact Bool.false_ne_true hv
          · exact pre (by omega) st1 h1)
  refine ⟨st, e, ?_, fun i i1 i2 => vis i i1 i2, pre⟩
  have hout : st.2 = new := by
    rw [gr.2.2.1]
    rfl
  rw [hout]
  rw [List.perm_ext_iff_of_nodup gr.2.2.2.1 (nodeList_nodup _)]
  intro x
  rw [mem_nodeList]
  constructor
  · intro hx
    have := (gr.2.2.2.2.1 x hx).1
    rw [m1] at this
    exact this
  · intro hx
    rcases (gr.2.2.2.2.2 x).1 (vis x hx.1 hx.2) with h | h
    · rw [hu0 x hx.1 hx.2] at h
      exact absurd h Bool.false_ne_true
    · exact h

/-! ## Graphs built through `insertEdge` -/

theorem GraphL.insertEdge_keeps_size (g : GraphL) (s e : Int) :
    (g.insertEdge s e).2.size = g.size := by
  unfold GraphL.insertEdge
  split_ifs <;> rfl

theorem GraphL.insertEdge_edgeHead (g : GraphL) (s e i : Int) :
    ((g.insertEdge s e).2.nodes i).edgeHead =
      if GraphL.accepts g.size (s, e) = true ∧ s = i then e :: (g.nodes i).edgeHead
      else (g.nodes i).edgeHead := by
  unfold GraphL.insertEdge GraphL.accepts
  split_ifs with h1 h2 h3
  · show (upd1 g.nodes s _ i).edgeHead = _
    rw [← h2.2]
    simp [upd1]
  · show (upd1 g.nodes s _ i).edgeHead = _
    have : i ≠ s := fun h => h2 ⟨by simpa using h1, h.symm⟩
    simp [upd1, this]
  · exact absurd (by simpa using h3.1) h1
  · rfl

/-- After a sequence of `insertEdge` calls the list of node `i` is its old list
with the targets of the accepted requests from `i` put in front, last request
first. -/
theorem GraphL.insertEdges_edgeHead (edges : List (Int × Int)) :
    ∀ g : GraphL,
      (edges.foldl (fun h e => (h.insertEdge e.1 e.2).2) g).size = g.size ∧
      ∀ i : Int, ((edges.foldl (fun h e => (h.insertEdge e.1 e.2).2) g).nodes i).edgeHead =
        ((edges.filter (fun e => GraphL.accepts g.size e && decide (e.1 = i))).map
          Prod.snd).reverse ++ (g.nodes i).edgeHead := by
  induction edges with
  | nil =>
    intro g
    exact ⟨rfl, fun i => rfl⟩
  | cons e rest ih =>
    intro g
    rw [List.foldl_cons]
    obtain ⟨h1, h2⟩ := ih (g.insertEdge e.1 e.2).2
    rw [GraphL.insertEdge_keeps_size] at h1 h2
    refine ⟨h1, fun i => ?_⟩
    rw [h2 i, GraphL.insertEdge_edgeHead, List.filter_cons]
    by_cases hc : GraphL.accepts g.size (e.1, e.2) = true ∧ e.1 = i
    · have hc2 : (GraphL.accepts g.size e && decide (e.1 = i)) = true := by
        simpa using hc
      rw [if_pos hc, if_pos hc2]
      simp
    · have hc2 : ¬ ((GraphL.accepts g.size e && decide (e.1 = i)) = true) := by
        simpa using hc
      rw [if_neg hc, if_neg hc2]

/-- A graph built by `buildGraph` on a constructed object has `n` nodes, edge
lists that hold the accepted targets in reverse order of insertion, and only
edges into `1..n`. -/
theorem GraphL.buildGraph_lists (n : Nat) (descr : Int → NodeData) (junk : Int → Bool)
    (edges : List (Int × Int)) :
    (GraphL.ctor.buildGraph n descr junk edges).size = n ∧
    (∀ i : Int, ((GraphL.ctor.buildGraph n descr junk edges).nodes i).edgeHead =
      ((edges.filter (fun e => GraphL.accepts n e && decide (e.1 = i))).map Prod.snd).reverse) ∧
    (GraphL.ctor.buildGraph n descr junk edges).EdgesOk := by
  unfold GraphL.buildGraph
  obtain ⟨h1, h2⟩ := GraphL.insertEdges_edgeHead edges
    { size := n,
      nodes := fun i => if 1 ≤ i ∧ i ≤ (n : Int) then ⟨[], descr i, junk i⟩
        else GraphL.ctor.nodes i }
  change _ = n at h1
  have h3 : ∀ i : Int, ((edges.foldl (fun h e => (h.insertEdge e.1 e.2).2)
      ({ size := n,
         nodes := fun i => if 1 ≤ i ∧ i ≤ (n : Int) then ⟨[], descr i, junk i⟩
          else GraphL.ctor.nodes i } : GraphL)).nodes i).edgeHead =
      ((edges.filter (fun e => GraphL.accepts n e && decide (e.1 = i))).map
        Prod.snd).reverse := by
    intro i
    rw [h2 i]
    have : ((if 1 ≤ i ∧ i ≤ (n : Int) then (⟨[], descr i, junk i⟩ : GraphNode)
        else GraphL.ctor.nodes i)).edgeHead = [] := by
      split_ifs <;> rfl
    simp only [this, List.append_nil]
  refine ⟨h1, h3, ?_⟩
  intro i t ht
  rw [h3 i, List.mem_reverse, List.mem_map] at ht
  obtain ⟨e, he, rfl⟩ := ht
  rw [List.mem_filter] at he
  have ha : GraphL.accepts n e = true := by
    have := he.2
    simp only [Bool.and_eq_true] at this
    exact this.1
  unfold GraphL.accepts at ha
  rw [h1]
  simp only [decide_eq_true_eq] at ha
  omega

/-- C5: on every graph of `n` nodes built through `insertEdge`, whatever the
edges, `depthFirstSearch` returns (fuel `n` or more suffices for the recursion)
and its output is a permutation of the node numbers `1..n`, each appearing
exactly once. -/
theorem GraphL.depthFirstSearch_visits_each_once (n : Nat) (descr : Int → NodeData)
    (junk : Int → Bool) (edges : List (Int × Int)) (extra : Nat) :
    ∃ st : GraphL × List Int,
      (GraphL.ctor.buildGraph n descr junk edges).depthFirstSearch (n + extra) = some st ∧
      st.2.Perm (nodeList n) ∧ st.2.Nodup ∧
      ∀ i : Int, 1 ≤ i → i ≤ (n : Int) → st.2.count i = 1 := by
  obtain ⟨b1, _, b3⟩ := GraphL.buildGraph_lists n descr junk edges
  obtain ⟨st, e, p, _, _⟩ := GraphL.depthFirstSearch_spec
    (GraphL.ctor.buildGraph n descr junk edges) b3 (n + extra) (by omega)
  rw [b1] at p
  have hnd : st.2.Nodup := p.nodup_iff.2 (nodeList_nodup n)
  refine ⟨st, e, p, hnd, fun i i1 i2 => ?_⟩
  exact List.count_eq_one_of_mem hnd (p.mem_iff.2 ((mem_nodeList n i).2 ⟨i1, i2⟩))

/-- When the edge list of `v` starts with an unvisited node `t`, `dfs(v)` prints
`v` and then `t`. -/
theorem GraphL.dfs_first_edge (f : Nat) (st : GraphL × List Int) (v t : Int) (rest : List Int)
    (hE : st.1.EdgesOk) (hv : 1 ≤ v ∧ v ≤ (st.1.size : Int))
    (hu : (st.1.nodes v).visited = false) (hc : st.1.unvisitedCount ≤ f + 1)
    (hhead : (st.1.nodes v).edgeHead = t :: rest) (htv : t ≠ v)
    (htu : (st.1.nodes t).visited = false) :
    ∃ (s3 : GraphL × List Int) (more : List Int),
      GraphL.dfs (f + 1) v st = some s3 ∧ s3.2 = st.2 ++ v :: t :: more := by
  obtain ⟨g1, c1⟩ := GraphL.mark_grows st v hv hu
  have ht : 1 ≤ t ∧ t ≤ (st.1.size : Int) := hE v t (by rw [hhead]; exact List.mem_cons_self _ _)
  have hc1 : ((({ st.1 with nodes := upd1 st.1.nodes v { (st.1.nodes v) with visited := true } } :
      GraphL), st.2 ++ [v]) : GraphL × List Int).1.unvisitedCount ≤ f :=
    Nat.le_of_lt_succ (Nat.lt_of_lt_of_le c1 hc)
  rw [GraphL.dfs_succ, hhead, List.foldlM_cons]
  generalize (({ st.1 with nodes := upd1 st.1.nodes v { (st.1.nodes v) with visited := true } } :
    GraphL), st.2 ++ [v]) = s1 at g1 hc1 ⊢
  have hut : (s1.1.nodes t).visited = false := by
    by_contra hne
    have hvis : (s1.1.nodes t).visited = true := by simpa using hne
    rcases (g1.2.2.2.2.2 t).1 hvis with h | h
    · rw [htu] at h
      exact Bool.false_ne_true h
    · exact htv (List.mem_singleton.1 h)
  obtain ⟨s2, r2, e2, g2⟩ := GraphL.dfs_spec f t s1 (g1.edgesOk hE)
    (by rw [g1.1]; exact ht) hut hc1
  rw [if_pos hut, e2]
  obtain ⟨s3, n3, e3, g3, _⟩ := GraphL.dfs_edges f (GraphL.dfs_spec f) rest s2
    (g2.edgesOk (g1.edgesOk hE))
    (by
      intro x hx
      rw [g2.1, g1.1]
      exact hE v x (by rw [hhead]; exact List.mem_cons_of_mem _ hx))
    (le_trans g2.count_le hc1)
  refine ⟨s3, r2 ++ n3, e3, ?_⟩
  rw [g3.2.2.1, g2.2.2.1, g1.2.2.1]
  simp

/-- In a graph built through `insertEdge` in which node 1 has an accepted
outgoing edge, the output of `depthFirstSearch` starts with 1 followed by the
target `t` of the last accepted edge inserted from node 1. -/
theorem GraphL.depthFirstSearch_head (n : Nat) (descr : Int → NodeData)
    (junk : Int → Bool) (edges : List (Int × Int)) (t : Int)
    (hlast : (edges.filter (fun e => GraphL.accepts n e && decide (e.1 = 1))).getLast? =
      some (1, t)) :
    ∃ (st : GraphL × List Int) (tail : List Int),
      (GraphL.ctor.buildGraph n descr junk edges).depthFirstSearch n = some st ∧
      st.2 = 1 :: t :: tail := by
  obtain ⟨b1, b2, b3⟩ := GraphL.buildGraph_lists n descr junk edges
  -- the last accepted request from node 1 heads the list of node 1
  obtain ⟨init, hinit⟩ := List.getLast?_eq_some_iff.1 hlast
  have hhead : ((GraphL.ctor.buildGraph n descr junk edges).nodes 1).edgeHead =
      t :: (init.map Prod.snd).reverse := by
    rw [b2 1, hinit]
    simp
  have hacc : GraphL.accepts n (1, t) = true := by
    have hm : ((1 : Int), t) ∈ edges.filter (fun e => GraphL.accepts n e && decide (e.1 = 1)) := by
      rw [hinit]
      simp
    have := (List.mem_filter.1 hm).2
    simp only [Bool.and_eq_true] at this
    exact this.1
  unfold GraphL.accepts at hacc
  simp only [decide_eq_true_eq] at hacc
  have hn : 1 ≤ n := by omega
  obtain ⟨f, hf⟩ : ∃ f : Nat, n = f + 1 := ⟨n - 1, by omega⟩
  obtain ⟨m1, m2⟩ := GraphL.markUnvisited_state (GraphL.ctor.buildGraph n descr junk edges)
  rw [b1] at m1 m2
  have hE0 : (GraphL.ctor.buildGraph n descr junk edges).markUnvisited.EdgesOk := by
    intro i x hx
    rw [(m2 i).1] at hx
    rw [m1, ← b1]
    exact b3 i x hx
  have hu0 : ∀ i : Int, 1 ≤ i → i ≤ (n : Int) →
      ((GraphL.ctor.buildGraph n descr junk edges).markUnvisited.nodes i).visited = false := by
    intro i i1 i2
    rw [(m2 i).2.2, if_pos ⟨i1, i2⟩]
  have hc0 : (GraphL.ctor.buildGraph n descr junk edges).markUnvisited.unvisitedCount ≤ n := by
    unfold GraphL.unvisitedCount
    exact le_trans (List.countP_le_length _) (by rw [nodeList_length, m1])
  -- the first call, `dfs(1)`
  obtain ⟨s3, more, e3, o3⟩ := GraphL.dfs_first_edge f
    ((GraphL.ctor.buildGraph n descr junk edges).markUnvisited, ([] : List Int)) 1 t
    (init.map Prod.snd).reverse hE0
    (by show (1 : Int) ≤ 1 ∧ (1 : Int) ≤ ((GraphL.ctor.buildGraph n descr junk edges).markUnvisited.size : Int)
        rw [m1]; omega)
    (hu0 1 (by omega) (by omega))
    (by rw [← hf]; exact hc0)
    ((m2 1).1.trans hhead)
    (fun h => hacc.2.2.2.2 h.symm)
    (hu0 t hacc.2.2.2.1 hacc.2.1)
  rw [← hf] at e3
  obtain ⟨st, e, _, _, pre⟩ := GraphL.depthFirstSearch_spec
    (GraphL.ctor.buildGraph n descr junk edges) b3 n (by rw [b1])
  obtain ⟨tail, ht⟩ := pre (by rw [b1]; exact hn) s3 e3
  exact ⟨st, more ++ tail, e, by rw [ht, o3]; rfl⟩

/-- C6: `depthFirstSearch` explores the most recently inserted edge first. In a
graph built through `insertEdge` in which node 1 has an accepted outgoing edge,
the output starts with 1 followed by the target `t` of the last accepted edge
inserted from node 1. On 3 nodes with the edges inserted in the order 1→2, 2→3,
1→3 the output is 1 3 2, and with 1→3 inserted before 1→2 (in each of the three
possible orders) it is 1 2 3. -/
theorem GraphL.depthFirstSearch_last_edge_first :
    (∀ (n : Nat) (descr : Int → NodeData) (junk : Int → Bool) (edges : List (Int × Int))
      (t : Int),
      (edges.filter (fun e => GraphL.accepts n e && decide (e.1 = 1))).getLast? = some (1, t) →
      ∃ (st : GraphL × List Int) (tail : List Int),
        (GraphL.ctor.buildGraph n descr junk edges).depthFirstSearch n = some st ∧
        st.2 = 1 :: t :: tail) ∧
    (∀ (descr : Int → NodeData) (junk : Int → Bool),
      ((GraphL.ctor.buildGraph 3 descr junk [(1, 2), (2, 3), (1, 3)]).depthFirstSearch 3).map
        Prod.snd = some [1, 3, 2]) ∧
    (∀ (descr : Int → NodeData) (junk : Int → Bool),
      ((GraphL.ctor.buildGraph 3 descr junk [(1, 3), (1, 2), (2, 3)]).depthFirstSearch 3).map
        Prod.snd = some [1, 2, 3] ∧
      ((GraphL.ctor.buildGraph 3 descr junk [(1, 3), (2, 3), (1, 2)]).depthFirstSearch 3).map
        Prod.snd = some [1, 2, 3] ∧
      ((GraphL.ctor.buildGraph 3 descr junk [(2, 3), (1, 3), (1, 2)]).depthFirstSearch 3).map
        Prod.snd = some [1, 2, 3]) := by
  refine ⟨GraphL.depthFirstSearch_head, fun descr junk => ?_, fun descr junk => ⟨?_, ?_, ?_⟩⟩
  · rfl
  · rfl
  · rfl
  · rfl

/-- C6 at the 3-node graph with the edges inserted in the order 1→2, 2→3, 1→3:
the last edge from node 1 goes to 3, so the output starts 1 3. -/
theorem GraphL.depthFirstSearch_last_edge_first_witness :
    ∃ (st : GraphL × List Int) (tail : List Int),
      (GraphL.ctor.buildGraph 3 (fun _ => ⟨""⟩) (fun _ => true)
        [(1, 2), (2, 3), (1, 3)]).depthFirstSearch 3 = some st ∧
      st.2 = 1 :: 3 :: tail :=
  GraphL.depthFirstSearch_last_edge_first.1 3 (fun _ => ⟨""⟩) (fun _ => true)
    [(1, 2), (2, 3), (1, 3)] 3 (by decide)

/-! ## Before the first computation -/

/-- C11: in a state reached from construction by edge insertions and removals
only, every `dist` entry is `MAX_VALUE`; so `display` reports each valid distinct
pair as unreachable, prints no descriptor, and needs no step of the walk along
`path` (it returns this with any fuel, also with none). -/
theorem GraphM.display_before_compute (n : Nat) (descr : Int → NodeData)
    (edges : List (Int × Int × Int)) (edits : List OpM)
    (hE : ∀ op ∈ edits, op.isEdit = true) :
    (∀ s t : Int, (((GraphM.ctor.buildGraph n descr edges).run edits).T s t).dist = MAX_VALUE) ∧
    ∀ (s t : Int) (fuel : Nat), 1 ≤ s → s ≤ (n : Int) → 1 ≤ t → t ≤ (n : Int) → s ≠ t →
      ((GraphM.ctor.buildGraph n descr edges).run edits).display fuel s t =
        some (PathLine.unreachable s t, []) ∧
      ((GraphM.ctor.buildGraph n descr edges).run edits).displayHelper fuel s t =
        some (PathLine.unreachable s t) := by
  obtain ⟨b1, _, b3⟩ := GraphM.buildGraph_state n descr edges
  obtain ⟨r1, _, r3⟩ := GraphM.run_edits (GraphM.ctor.buildGraph n descr edges) edits hE
  have hd : ∀ s t : Int,
      (((GraphM.ctor.buildGraph n descr edges).run edits).T s t).dist = MAX_VALUE := by
    intro s t
    rw [r3, b3 s t]
  refine ⟨hd, fun s t fuel s1 s2 t1 t2 hst => ?_⟩
  have hsz : ((GraphM.ctor.buildGraph n descr edges).run edits).size = n := r1.trans b1
  have hv : s ≤ (((GraphM.ctor.buildGraph n descr edges).run edits).size : Int) ∧
      t ≤ (((GraphM.ctor.buildGraph n descr edges).run edits).size : Int) ∧
      s ≥ 1 ∧ t ≥ 1 ∧ s ≠ t := by
    rw [hsz]
    exact ⟨s2, t2, s1, t1, hst⟩
  have hh : ((GraphM.ctor.buildGraph n descr edges).run edits).displayHelper fuel s t =
      some (PathLine.unreachable s t) := by
    unfold GraphM.displayHelper
    rw [if_pos hv, if_pos (hd s t)]
  refine ⟨?_, hh⟩
  unfold GraphM.display
  rw [if_pos hv, hh]
  simp [hd s t]

/-- C11 at the 2-node graph built with the edge 1→2 and then 2→1 inserted and
1→2 removed: `display(2, 1)` with no fuel. -/
theorem GraphM.display_before_compute_witness :
    (∀ s t : Int, (((GraphM.ctor.buildGraph 2 (fun _ => ⟨""⟩) [(1, 2, 5)]).run
      [OpM.insert 2 1 3, OpM.remove 1 2]).T s t).dist = MAX_VALUE) ∧
    ∀ (s t : Int) (fuel : Nat), 1 ≤ s → s ≤ ((2 : Nat) : Int) → 1 ≤ t → t ≤ ((2 : Nat) : Int) →
      s ≠ t →
      ((GraphM.ctor.buildGraph 2 (fun _ => ⟨""⟩) [(1, 2, 5)]).run
        [OpM.insert 2 1 3, OpM.remove 1 2]).display fuel s t =
        some (PathLine.unreachable s t, []) ∧
      ((GraphM.ctor.buildGraph 2 (fun _ => ⟨""⟩) [(1, 2, 5)]).run
        [OpM.insert 2 1 3, OpM.remove 1 2]).displayHelper fuel s t =
        some (PathLine.unreachable s t) :=
  GraphM.display_before_compute 2 (fun _ => ⟨""⟩) [(1, 2, 5)]
    [OpM.insert 2 1 3, OpM.remove 1 2] (by decide)

/-! ## Ranges and overflow -/

theorem GraphM.zeroDist_distOk (g : GraphM) (k : Int) (hD : g.DistOk) :
    (g.zeroDist k).DistOk := by
  intro a b
  show 0 ≤ (upd2 g.T k k _ a b).dist ∧ (upd2 g.T k k _ a b).dist ≤ MAX_VALUE
  unfold upd2
  split_ifs with h
  · show (0 : Int) ≤ 0 ∧ (0 : Int) ≤ MAX_VALUE
    rw [MAX_VALUE_eq]
    omega
  · exact hD a b

theorem GraphM.sourceStep_distOk (g : GraphM) (k : Int) (hC : g.WeightsOk) (hD : g.DistOk) :
    (g.sourceStep k).DistOk := by
  simp only [GraphM.sourceStep]
  refine (forLoop_preserve (fun h : GraphM => h.C = g.C ∧ h.DistOk) _ _ (g.zeroDist k)
    ⟨rfl, GraphM.zeroDist_distOk g k hD⟩ ?_).2
  intro i t _ _ ht
  exact ⟨(GraphM.settle_frame t i).1.trans ht.1,
    GraphM.settle_distOk t i (GraphM.WeightsOk_congr ht.1 hC) ht.2⟩

theorem GraphM.findShortestPath_distOk (g : GraphM) (hC : g.WeightsOk) (hD : g.DistOk) :
    g.findShortestPath.DistOk := by
  simp only [GraphM.findShortestPath]
  refine (forLoop_preserve (fun h : GraphM => h.C = g.C ∧ h.DistOk) _ _ g ⟨rfl, hD⟩ ?_).2
  intro i t _ _ ht
  exact ⟨(GraphM.sourceStep_frame t i).1.trans ht.1,
    GraphM.sourceStep_distOk t i (GraphM.WeightsOk_congr ht.1 hC) ht.2⟩

/-- Every call keeps the weights and the distances in `0..MAX_VALUE`. -/
theorem GraphM.run_rangesOk (g : GraphM) (ops : List OpM) (hC : g.WeightsOk) (hD : g.DistOk) :
    (g.run ops).WeightsOk ∧ (g.run ops).DistOk := by
  unfold GraphM.run
  induction ops generalizing g with
  | nil => exact ⟨hC, hD⟩
  | cons op rest ih =>
    rw [List.foldl_cons]
    cases op with
    | insert s e w =>
      refine ih _ (GraphM.insertEdge_weightsOk g s e w hC) ?_
      intro a b
      show 0 ≤ ((g.insertEdge s e w).2.T a b).dist ∧ ((g.insertEdge s e w).2.T a b).dist ≤ MAX_VALUE
      rw [GraphM.insertEdge_T]
      exact hD a b
    | remove s e =>
      refine ih _ (GraphM.removeEdge_weightsOk g s e hC) ?_
      intro a b
      show 0 ≤ ((g.removeEdge s e).2.T a b).dist ∧ ((g.removeEdge s e).2.T a b).dist ≤ MAX_VALUE
      rw [GraphM.removeEdge_T]
      exact hD a b
    | compute =>
      exact ih _ (GraphM.WeightsOk_congr (GraphM.findShortestPath_frame g).1 hC)
        (GraphM.findShortestPath_distOk g hC hD)

/-- Operands in `0..MAX_VALUE` add up without overflow. -/
theorem add32_exact (a b : Int) (ha : 0 ≤ a ∧ a ≤ MAX_VALUE) (hb : 0 ≤ b ∧ b ≤ MAX_VALUE) :
    a + b ≤ INT_MAX ∧ add32 a b = a + b := by
  refine ⟨?_, add32_eq ha.1 ha.2 hb.1 hb.2⟩
  have h1 := ha.2
  have h2 := hb.2
  rw [MAX_VALUE_eq] at h1 h2
  have : INT_MAX = 2147483647 := rfl
  omega

theorem GraphM.relaxSums_ok (g : GraphM) (i v w : Int) (hC : g.WeightsOk) (hD : g.DistOk) :
    ∀ p ∈ g.relaxSums i v w, (0 ≤ p.1 ∧ p.1 ≤ MAX_VALUE) ∧ (0 ≤ p.2 ∧ p.2 ≤ MAX_VALUE) := by
  intro p hp
  unfold GraphM.relaxSums at hp
  split_ifs at hp
  · simp only [List.mem_cons, List.mem_singleton, List.not_mem_nil, or_false, or_self] at hp
    rw [hp]
    exact ⟨hD i v, hC v w⟩
  · rw [List.mem_singleton] at hp
    rw [hp]
    exact ⟨hD i v, hC v w⟩
  · simp at hp

/-- The traced middle loop body computes what `settle` computes, and all the
operands it records are in `0..MAX_VALUE`. -/
theorem GraphM.settleSums_ok (g : GraphM) (i : Int) (hC : g.WeightsOk) (hD : g.DistOk) :
    (g.settleSums i).1 = g.settle i ∧
    ∀ p ∈ (g.settleSums i).2, (0 ≤ p.1 ∧ p.1 ≤ MAX_VALUE) ∧ (0 ≤ p.2 ∧ p.2 ≤ MAX_VALUE) := by
  simp only [GraphM.settleSums, GraphM.settle]
  have key := forLoop_rel
    (fun (x : GraphM × List (Int × Int)) (y : GraphM) => x.1 = y ∧ y.C = g.C ∧ y.DistOk ∧
      ∀ p ∈ x.2, (0 ≤ p.1 ∧ p.1 ≤ MAX_VALUE) ∧ (0 ≤ p.2 ∧ p.2 ≤ MAX_VALUE))
    g.size
    (fun w (st : GraphM × List (Int × Int)) =>
      (st.1.relax i (g.getSmallest (g.T i)) w,
        st.2 ++ st.1.relaxSums i (g.getSmallest (g.T i)) w))
    (fun w h => h.relax i (g.getSmallest (g.T i)) w)
    (g.markVisited i (g.getSmallest (g.T i)), [])
    (g.markVisited i (g.getSmallest (g.T i)))
    ⟨rfl, rfl, GraphM.markVisited_distOk g i _ hD, by simp⟩
    (by
      intro w x y _ _ hxy
      obtain ⟨e, c, d, l⟩ := hxy
      have hCy : y.WeightsOk := GraphM.WeightsOk_congr c hC
      refine ⟨by show x.1.relax i _ w = _; rw [e], (GraphM.relax_frame y i _ w).1.trans c,
        GraphM.relax_distOk y i _ w hCy d, ?_⟩
      intro p hp
      rcases List.mem_append.mp hp with h | h
      · exact l p h
      · rw [e] at h
        exact GraphM.relaxSums_ok y i _ w hCy d p h)
  exact ⟨key.1, key.2.2.2⟩

theorem GraphM.sourceStepSums_ok (g : GraphM) (k : Int) (hC : g.WeightsOk) (hD : g.DistOk) :
    (g.sourceStepSums k).1 = g.sourceStep k ∧
    ∀ p ∈ (g.sourceStepSums k).2, (0 ≤ p.1 ∧ p.1 ≤ MAX_VALUE) ∧ (0 ≤ p.2 ∧ p.2 ≤ MAX_VALUE) := by
  simp only [GraphM.sourceStepSums, GraphM.sourceStep]
  have key := forLoop_rel
    (fun (x : GraphM × List (Int × Int)) (y : GraphM) => x.1 = y ∧ y.C = g.C ∧ y.DistOk ∧
      ∀ p ∈ x.2, (0 ≤ p.1 ∧ p.1 ≤ MAX_VALUE) ∧ (0 ≤ p.2 ∧ p.2 ≤ MAX_VALUE))
    g.size
    (fun i (st : GraphM × List (Int × Int)) =>
      ((st.1.settleSums i).1, st.2 ++ (st.1.settleSums i).2))
    (fun i h => h.settle i)
    (g.zeroDist k, [])
    (g.zeroDist k)
    ⟨rfl, rfl, GraphM.zeroDist_distOk g k hD, by simp⟩
    (by
      intro i x y _ _ hxy
      obtain ⟨e, c, d, l⟩ := hxy
      have hCy : y.WeightsOk := GraphM.WeightsOk_congr c hC
      obtain ⟨s1, s2⟩ := GraphM.settleSums_ok y i hCy d
      refine ⟨by show (x.1.settleSums i).1 = _; rw [e]; exact s1,
        (GraphM.settle_frame y i).1.trans c, GraphM.settle_distOk y i hCy d, ?_⟩
      intro p hp
      rcases List.mem_append.mp hp with h | h
      · exact l p h
      · rw [e] at h
        exact s2 p h)
  exact ⟨key.1, key.2.2.2⟩

theorem GraphM.findShortestPathSums_ok (g : GraphM) (hC : g.WeightsOk) (hD : g.DistOk) :
    g.findShortestPathSums.1 = g.findShortestPath ∧
    ∀ p ∈ g.findShortestPathSums.2,
      (0 ≤ p.1 ∧ p.1 ≤ MAX_VALUE) ∧ (0 ≤ p.2 ∧ p.2 ≤ MAX_VALUE) := by
  simp only [GraphM.findShortestPathSums, GraphM.findShortestPath]
  have key := forLoop_rel
    (fun (x : GraphM × List (Int × Int)) (y : GraphM) => x.1 = y ∧ y.C = g.C ∧ y.DistOk ∧
      ∀ p ∈ x.2, (0 ≤ p.1 ∧ p.1 ≤ MAX_VALUE) ∧ (0 ≤ p.2 ∧ p.2 ≤ MAX_VALUE))
    g.size
    (fun k (st : GraphM × List (Int × Int)) =>
      ((st.1.sourceStepSums k).1, st.2 ++ (st.1.sourceStepSums k).2))
    (fun k h => h.sourceStep k)
    (g, [])
    g
    ⟨rfl, rfl, hD, by simp⟩
    (by
      intro k x y _ _ hxy
      obtain ⟨e, c, d, l⟩ := hxy
      have hCy : y.WeightsOk := GraphM.WeightsOk_congr c hC
      obtain ⟨s1, s2⟩ := GraphM.sourceStepSums_ok y k hCy d
      refine ⟨by show (x.1.sourceStepSums k).1 = _; rw [e]; exact s1,
        (GraphM.sourceStep_frame y k).1.trans c, GraphM.sourceStep_distOk y k hCy d, ?_⟩
      intro p hp
      rcases List.mem_append.mp hp with h | h
      · exact l p h
      · rw [e] at h
        exact s2 p h)
  exact ⟨key.1, key.2.2.2⟩

/-- C12: in every state reached from construction by any calls of `insertEdge`,
`removeEdge` and `findShortestPath`, all weights and all distances are in
`0..MAX_VALUE`, where `MAX_VALUE = INT_MAX / 2`; and every sum
`T[i][v].dist + C[v][w]` that a further `findShortestPath` evaluates is at most
`INT_MAX` and is computed without wrap-around. -/
theorem GraphM.no_overflow_in_relaxation (n : Nat) (descr : Int → NodeData)
    (edges : List (Int × Int × Int)) (ops : List OpM) :
    (∀ i j : Int,
      (0 ≤ ((GraphM.ctor.buildGraph n descr edges).run ops).C i j ∧
        ((GraphM.ctor.buildGraph n descr edges).run ops).C i j ≤ MAX_VALUE) ∧
      (0 ≤ (((GraphM.ctor.buildGraph n descr edges).run ops).T i j).dist ∧
        (((GraphM.ctor.buildGraph n descr edges).run ops).T i j).dist ≤ MAX_VALUE)) ∧
    MAX_VALUE = INT_MAX / 2 ∧
    ((GraphM.ctor.buildGraph n descr edges).run ops).findShortestPathSums.1 =
      ((GraphM.ctor.buildGraph n descr edges).run ops).findShortestPath ∧
    ∀ p ∈ ((GraphM.ctor.buildGraph n descr edges).run ops).findShortestPathSums.2,
      p.1 + p.2 ≤ INT_MAX ∧ add32 p.1 p.2 = p.1 + p.2 := by
  obtain ⟨_, b2, b3⟩ := GraphM.buildGraph_state n descr edges
  have hD0 : (GraphM.ctor.buildGraph n descr edges).DistOk := by
    intro a b
    rw [b3 a b, MAX_VALUE_eq]
    simp
  obtain ⟨hC, hD⟩ := GraphM.run_rangesOk _ ops b2 hD0
  obtain ⟨s1, s2⟩ := GraphM.findShortestPathSums_ok _ hC hD
  exact ⟨fun i j => ⟨hC i j, hD i j⟩, rfl, s1,
    fun p hp => add32_exact p.1 p.2 (s2 p hp).1 (s2 p hp).2⟩

/-! ## The weight matrix -/

theorem GraphM.insertEdge_diag (g : GraphM) (s e w i : Int) :
    (g.insertEdge s e w).2.C i i = g.C i i := by
  rw [GraphM.insertEdge_C]
  split_ifs with h
  · exact absurd (h.2.1.symm.trans h.2.2) h.1.2.2.2.2.2.2
  · rfl

theorem GraphM.removeEdge_diag (g : GraphM) (s e i : Int) :
    (g.removeEdge s e).2.C i i = g.C i i := by
  rw [GraphM.removeEdge_C]
  split_ifs with h
  · exact absurd (h.2.1.symm.trans h.2.2) h.1.2.2.2.2
  · rfl

theorem GraphM.buildGraph_diag (n : Nat) (descr : Int → NodeData)
    (edges : List (Int × Int × Int)) (i : Int) :
    (GraphM.ctor.buildGraph n descr edges).C i i = MAX_VALUE := by
  unfold GraphM.buildGraph
  have start : ∀ g : GraphM, g.C i i = MAX_VALUE →
      (edges.foldl (fun h e => (h.insertEdge e.1 e.2.1 e.2.2).2) g).C i i = MAX_VALUE := by
    induction edges with
    | nil => exact fun g hg => hg
    | cons e rest ih =>
      intro g hg
      rw [List.foldl_cons]
      exact ih _ ((GraphM.insertEdge_diag g _ _ _ i).trans hg)
  exact start _ rfl

theorem GraphM.run_edits_diag (g : GraphM) (ops : List OpM)
    (hE : ∀ op ∈ ops, op.isEdit = true) (i : Int) (hg : g.C i i = MAX_VALUE) :
    (g.run ops).C i i = MAX_VALUE := by
  unfold GraphM.run
  induction ops generalizing g with
  | nil => exact hg
  | cons op rest ih =>
    rw [List.foldl_cons]
    have hrest : ∀ o ∈ rest, o.isEdit = true := fun o ho => hE o (List.mem_cons_of_mem _ ho)
    cases op with
    | insert s e w => exact ih _ hrest ((GraphM.insertEdge_diag g s e w i).trans hg)
    | remove s e => exact ih _ hrest ((GraphM.removeEdge_diag g s e i).trans hg)
    | compute =>
      have := hE OpM.compute (List.mem_cons_self _ _)
      simp [OpM.isEdit] at this

/-- C13: in every state reached from construction by any sequence of
`insertEdge` and `removeEdge` calls, accepted or not, `C[i][i]` is the value
`MAX_VALUE` that stands for no edge, for every `i`, and every `C[i][j]` is in
`0..MAX_VALUE`. -/
theorem GraphM.weight_invariant (n : Nat) (descr : Int → NodeData)
    (edges : List (Int × Int × Int)) (edits : List OpM)
    (hE : ∀ op ∈ edits, op.isEdit = true) :
    (∀ i : Int, ((GraphM.ctor.buildGraph n descr edges).run edits).C i i = MAX_VALUE) ∧
    ∀ i j : Int, 0 ≤ ((GraphM.ctor.buildGraph n descr edges).run edits).C i j ∧
      ((GraphM.ctor.buildGraph n descr edges).run edits).C i j ≤ MAX_VALUE := by
  obtain ⟨_, b2, _⟩ := GraphM.buildGraph_state n descr edges
  exact ⟨fun i => GraphM.run_edits_diag _ edits hE i (GraphM.buildGraph_diag n descr edges i),
    (GraphM.run_edits _ edits hE).2.1 b2⟩

/-- C13 at a 2-node graph on which a self-loop, a negative weight, an index out
of range and an over-limit weight are requested besides valid edges. -/
theorem GraphM.weight_invariant_witness :
    (∀ i : Int, ((GraphM.ctor.buildGraph 2 (fun _ => ⟨""⟩) [(1, 2, 5), (1, 1, 4)]).run
      [OpM.insert 2 2 3, OpM.insert 2 1 (-4), OpM.insert 3 1 7, OpM.insert 2 1 1073741824,
        OpM.remove 1 1, OpM.remove 1 2, OpM.insert 2 1 0]).C i i = MAX_VALUE) ∧
    ∀ i j : Int, 0 ≤ ((GraphM.ctor.buildGraph 2 (fun _ => ⟨""⟩) [(1, 2, 5), (1, 1, 4)]).run
      [OpM.insert 2 2 3, OpM.insert 2 1 (-4), OpM.insert 3 1 7, OpM.insert 2 1 1073741824,
        OpM.remove 1 1, OpM.remove 1 2, OpM.insert 2 1 0]).C i j ∧
      ((GraphM.ctor.buildGraph 2 (fun _ => ⟨""⟩) [(1, 2, 5), (1, 1, 4)]).run
      [OpM.insert 2 2 3, OpM.insert 2 1 (-4), OpM.insert 3 1 7, OpM.insert 2 1 1073741824,
        OpM.remove 1 1, OpM.remove 1 2, OpM.insert 2 1 0]).C i j ≤ MAX_VALUE :=
  GraphM.weight_invariant 2 (fun _ => ⟨""⟩) [(1, 2, 5), (1, 1, 4)]
    [OpM.insert 2 2 3, OpM.insert 2 1 (-4), OpM.insert 3 1 7, OpM.insert 2 1 1073741824,
      OpM.remove 1 1, OpM.remove 1 2, OpM.insert 2 1 0] (by decide)

/-- C16 (as stated) fails: `insertEdge` accepts the weight `MAX_VALUE`, and the
entry it stores is then the value that stands for no edge. -/
theorem GraphM.insertEdge_accepts_sentinel :
    ((GraphM.fresh 2).insertEdge 1 2 MAX_VALUE).1 = true ∧
    (0 ≤ MAX_VALUE ∧ MAX_VALUE ≤ MAX_VALUE) ∧
    ¬ (((GraphM.fresh 2).insertEdge 1 2 MAX_VALUE).2.C 1 2 ≠ MAX_VALUE) := by
  refine ⟨by decide, by decide, ?_⟩
  intro h
  exact h (by decide)

/-- C16 (amended): for `start ≠ end` in `1..size` and a weight `w` with
`0 ≤ w < MAX_VALUE`, `insertEdge(start, end, w)` succeeds and right after it
`C[start][end] = w`, which differs from the value `MAX_VALUE` for no edge. -/
theorem GraphM.insertEdge_then_present (g : GraphM) (s e w : Int)
    (hs : 1 ≤ s ∧ s ≤ (g.size : Int)) (he : 1 ≤ e ∧ e ≤ (g.size : Int)) (hse : s ≠ e)
    (hw : 0 ≤ w ∧ w < MAX_VALUE) :
    (g.insertEdge s e w).1 = true ∧ (g.insertEdge s e w).2.C s e = w ∧
      (g.insertEdge s e w).2.C s e ≠ MAX_VALUE := by
  have hcond : s ≥ 1 ∧ e ≥ 1 ∧ w ≥ 0 ∧ s ≤ (g.size : Int) ∧ e ≤ (g.size : Int) ∧
      w ≤ MAX_VALUE ∧ s ≠ e := ⟨hs.1, he.1, hw.1, hs.2, he.2, le_of_lt hw.2, hse⟩
  have hC : (g.insertEdge s e w).2.C s e = w := by
    rw [GraphM.insertEdge_C, if_pos ⟨hcond, rfl, rfl⟩]
  refine ⟨?_, hC, ?_⟩
  · unfold GraphM.insertEdge
    rw [if_pos hcond]
  · rw [hC]
    exact ne_of_lt hw.2

/-- C16 (amended) on a 3-node graph: edge 3→1 with weight 0. -/
theorem GraphM.insertEdge_then_present_witness :
    ((GraphM.fresh 3).insertEdge 3 1 0).1 = true ∧ ((GraphM.fresh 3).insertEdge 3 1 0).2.C 3 1 = 0 ∧
      ((GraphM.fresh 3).insertEdge 3 1 0).2.C 3 1 ≠ MAX_VALUE :=
  GraphM.insertEdge_then_present (GraphM.fresh 3) 3 1 0 (by decide) (by decide) (by decide)
    (by decide)

/-! ## Edge lists of a built graph -/

theorem nodeList_succ (k : Nat) : nodeList (k + 1) = nodeList k ++ [(k : Int) + 1] := by
  simp [nodeList, List.range_succ]

/-- The listing of `displayGraph`: for each node `1..size` in turn, its edge
list from the head on. -/
theorem GraphL.displayGraph_eq (g : GraphL) :
    g.displayGraph =
      (nodeList g.size).flatMap (fun i => (g.nodes i).edgeHead.map (fun t => (i, t))) := by
  unfold GraphL.displayGraph
  induction g.size with
  | zero => rfl
  | succ k ih =>
    rw [forLoop_succ, ih, nodeList_succ, List.flatMap_append, List.flatMap_singleton]

theorem GraphL.mem_displayGraph (g : GraphL) (p : Int × Int) :
    p ∈ g.displayGraph ↔
      (1 ≤ p.1 ∧ p.1 ≤ (g.size : Int)) ∧ p.2 ∈ (g.nodes p.1).edgeHead := by
  rw [GraphL.displayGraph_eq, List.mem_flatMap]
  constructor
  · rintro ⟨i, hi, hp⟩
    rw [List.mem_map] at hp
    obtain ⟨t, ht, rfl⟩ := hp
    exact ⟨(mem_nodeList _ i).1 hi, ht⟩
  · rintro ⟨h1, h2⟩
    exact ⟨p.1, (mem_nodeList _ _).2 h1, List.mem_map.2 ⟨p.2, h2, rfl⟩⟩

/-- A target is in the list of node `i` of a built graph exactly when the
request `(i, t)` occurs in the stream and passes the check of `insertEdge`. -/
theorem GraphL.mem_edgeHead_built (n : Nat) (descr : Int → NodeData) (junk : Int → Bool)
    (edges : List (Int × Int)) (i t : Int) :
    t ∈ ((GraphL.ctor.buildGraph n descr junk edges).nodes i).edgeHead ↔
      (i, t) ∈ edges ∧ GraphL.accepts n (i, t) = true := by
  rw [(GraphL.buildGraph_lists n descr junk edges).2.1 i, List.mem_reverse, List.mem_map]
  constructor
  · rintro ⟨e, he, rfl⟩
    rw [List.mem_filter] at he
    simp only [Bool.and_eq_true, decide_eq_true_eq] at he
    obtain ⟨h1, h2, h3⟩ := he
    subst h3
    exact ⟨h1, h2⟩
  · rintro ⟨h1, h2⟩
    refine ⟨(i, t), ?_, rfl⟩
    rw [List.mem_filter]
    simp [h1, h2]

/-- C14: in every graph of `n` nodes built through `insertEdge`, each edge
record in the list of node `i` has a target `t` in `1..n` other than `i`. So
`displayGraph` lists only pairs of nodes of `1..n`, and each node printed by
`depthFirstSearch`, as each target in its list, is a node of `1..n`: these are
the indices at which the two procedures read `nodes`. -/
theorem GraphL.edge_invariant (n : Nat) (descr : Int → NodeData) (junk : Int → Bool)
    (edges : List (Int × Int)) :
    (∀ i t : Int, t ∈ ((GraphL.ctor.buildGraph n descr junk edges).nodes i).edgeHead →
      (1 ≤ t ∧ t ≤ (n : Int)) ∧ t ≠ i) ∧
    (∀ p ∈ (GraphL.ctor.buildGraph n descr junk edges).displayGraph,
      (1 ≤ p.1 ∧ p.1 ≤ (n : Int)) ∧ (1 ≤ p.2 ∧ p.2 ≤ (n : Int))) ∧
    ∀ extra : Nat, ∃ st : GraphL × List Int,
      (GraphL.ctor.buildGraph n descr junk edges).depthFirstSearch (n + extra) = some st ∧
      ∀ v ∈ st.2, (1 ≤ v ∧ v ≤ (n : Int)) ∧
        ∀ t ∈ ((GraphL.ctor.buildGraph n descr junk edges).nodes v).edgeHead,
          1 ≤ t ∧ t ≤ (n : Int) := by
  obtain ⟨b1, _, b3⟩ := GraphL.buildGraph_lists n descr junk edges
  have hinv : ∀ i t : Int,
      t ∈ ((GraphL.ctor.buildGraph n descr junk edges).nodes i).edgeHead →
      (1 ≤ t ∧ t ≤ (n : Int)) ∧ t ≠ i := by
    intro i t ht
    have ha := ((GraphL.mem_edgeHead_built n descr junk edges i t).1 ht).2
    unfold GraphL.accepts at ha
    simp only [decide_eq_true_eq] at ha
    exact ⟨⟨ha.2.2.2.1, ha.2.1⟩, fun h => ha.2.2.2.2 h.symm⟩
  refine ⟨hinv, ?_, ?_⟩
  · intro p hp
    rw [GraphL.mem_displayGraph, b1] at hp
    exact ⟨hp.1, (hinv p.1 p.2 hp.2).1⟩
  · intro extra
    obtain ⟨st, e, p, _, _⟩ := GraphL.depthFirstSearch_spec
      (GraphL.ctor.buildGraph n descr junk edges) b3 (n + extra) (by omega)
    rw [b1] at p
    exact ⟨st, e, fun v hv => ⟨(mem_nodeList n v).1 (p.mem_iff.1 hv),
      fun t ht => (hinv v t ht).1⟩⟩

/-- C15: after the requests of a stream have gone through `insertEdge` on an
edge-free graph of `n` nodes, the list of each node `i` is the reverse of the
targets of the requests with start `i` that pass the check; `displayGraph`
prints these lists node by node; and a pair is listed exactly when it is a
request of the stream that passes the check, so no rejected request appears. -/
theorem GraphL.listing_round_trip (n : Nat) (descr : Int → NodeData) (junk : Int → Bool)
    (edges : List (Int × Int)) :
    (∀ i : Int, ((GraphL.ctor.buildGraph n descr junk edges).nodes i).edgeHead =
      ((edges.filter (fun e => GraphL.accepts n e && decide (e.1 = i))).map Prod.snd).reverse) ∧
    (GraphL.ctor.buildGraph n descr junk edges).displayGraph =
      (nodeList n).flatMap (fun i =>
        (((edges.filter (fun e => GraphL.accepts n e && decide (e.1 = i))).map
          Prod.snd).reverse).map (fun t => (i, t))) ∧
    (∀ p : Int × Int, p ∈ (GraphL.ctor.buildGraph n descr junk edges).displayGraph ↔
      p ∈ edges ∧ GraphL.accepts n p = true) ∧
    ∀ e ∈ edges, GraphL.accepts n e = false →
      e ∉ (GraphL.ctor.buildGraph n descr junk edges).displayGraph ∧
      e.2 ∉ ((GraphL.ctor.buildGraph n descr junk edges).nodes e.1).edgeHead := by
  obtain ⟨b1, b2, _⟩ := GraphL.buildGraph_lists n descr junk edges
  have hmem : ∀ p : Int × Int, p ∈ (GraphL.ctor.buildGraph n descr junk edges).displayGraph ↔
      p ∈ edges ∧ GraphL.accepts n p = true := by
    intro p
    rw [GraphL.mem_displayGraph, GraphL.mem_edgeHead_built, b1]
    constructor
    · exact fun h => h.2
    · intro h
      refine ⟨?_, h⟩
      have ha := h.2
      unfold GraphL.accepts at ha
      simp only [decide_eq_true_eq] at ha
      exact ⟨ha.2.2.1, ha.1⟩
  refine ⟨b2, ?_, hmem, ?_⟩
  · rw [GraphL.displayGraph_eq, b1]
    congr 1
    funext i
    rw [b2 i]
  · intro e _ he
    constructor
    · intro h
      rw [((hmem e).1 h).2] at he
      exact Bool.noConfusion he
    · intro h
      rw [((GraphL.mem_edgeHead_built n descr junk edges e.1 e.2).1 h).2] at he
      exact Bool.noConfusion he

/-- C17 (as stated) fails: inserting 1→2 twice into a 2-node graph leaves two
edge records with target 2 in the list of node 1. -/
theorem GraphL.parallel_edges_kept :
    ((GraphL.ctor.buildGraph 2 (fun _ => ⟨""⟩) (fun _ => false)
      [(1, 2), (1, 2)]).nodes 1).edgeHead = [2, 2] ∧
    ¬ ((GraphL.ctor.buildGraph 2 (fun _ => ⟨""⟩) (fun _ => false)
      [(1, 2), (1, 2)]).nodes 1).edgeHead.Nodup := by
  have h : ((GraphL.ctor.buildGraph 2 (fun _ => ⟨""⟩) (fun _ => false)
      [(1, 2), (1, 2)]).nodes 1).edgeHead = [2, 2] := by decide
  refine ⟨h, ?_⟩
  rw [h]
  decide

/-- C17 (amended): `GraphL` keeps parallel edges. In every graph built through
`insertEdge` the list of node `i` holds the target `t` once for each request
`(i, t)` of the stream that passes the check; and an accepted `insertEdge` adds
one record also when the edge is already present. -/
theorem GraphL.parallel_edges_counted (n : Nat) (descr : Int → NodeData) (junk : Int → Bool)
    (edges : List (Int × Int)) :
    (∀ i t : Int, ((GraphL.ctor.buildGraph n descr junk edges).nodes i).edgeHead.count t =
      (edges.filter (fun e => GraphL.accepts n e)).count (i, t)) ∧
    ∀ s e : Int,
      ((GraphL.ctor.buildGraph n descr junk edges).insertEdge s e).1 = true →
      ((((GraphL.ctor.buildGraph n descr junk edges).insertEdge s e).2.nodes s).edgeHead.count e =
        ((GraphL.ctor.buildGraph n descr junk edges).nodes s).edgeHead.count e + 1) := by
  constructor
  · intro i t
    rw [(GraphL.buildGraph_lists n descr junk edges).2.1 i, List.count_reverse,
      List.count_eq_countP, List.count_eq_countP, List.countP_map, List.countP_filter,
      List.countP_filter]
    apply List.countP_congr
    intro x _
    rcases x with ⟨a, b⟩
    simp only [Function.comp, Bool.and_eq_true, beq_iff_eq, decide_eq_true_eq, Prod.mk.injEq]
    constructor
    · rintro ⟨h1, h2, h3⟩
      exact ⟨⟨h3, h1⟩, h2⟩
    · rintro ⟨⟨h1, h2⟩, h3⟩
      exact ⟨h2, h3, h1⟩
  · intro s e h
    unfold GraphL.insertEdge at h ⊢
    split_ifs at h ⊢ with hc
    simp [upd1]

/-! ## The pick of `getSmallest` -/

/-- State of the scan of `getSmallest` after the indices `1..k`: either no
unvisited entry below `MAX_VALUE` was met and the state is the initial one, or
the state holds the lowest index among the unvisited entries of least `dist`. -/
theorem GraphM.getSmallest_scan (g : GraphM) (row : Int → TableType) (k : Nat) :
    (((forLoop k
        (fun i (st : Int × Int) =>
          if (row i).dist < st.2 ∧ (row i).visited = false then (i, (row i).dist) else st)
        ((g.size : Int), MAX_VALUE)) = ((g.size : Int), MAX_VALUE)) ∧
      ∀ i : Int, 1 ≤ i → i ≤ (k : Int) → ¬ ((row i).visited = false ∧ (row i).dist < MAX_VALUE)) ∨
    (∃ m d : Int,
      (forLoop k
        (fun i (st : Int × Int) =>
          if (row i).dist < st.2 ∧ (row i).visited = false then (i, (row i).dist) else st)
        ((g.size : Int), MAX_VALUE)) = (m, d) ∧
      (1 ≤ m ∧ m ≤ (k : Int)) ∧ (row m).visited = false ∧ (row m).dist = d ∧ d < MAX_VALUE ∧
      (∀ i : Int, 1 ≤ i → i ≤ (k : Int) → (row i).visited = false → d ≤ (row i).dist) ∧
      (∀ i : Int, 1 ≤ i → i < m → (row i).visited = false → d < (row i).dist)) := by
  induction k with
  | zero =>
    left
    exact ⟨rfl, fun i i1 i2 => absurd i2 (by push_cast; omega)⟩
  | succ k ih =>
    rw [forLoop_succ]
    rcases ih with ⟨e, hnone⟩ | ⟨m, d, e, hm, hv, hd, hlt, hmin, hfirst⟩
    · rw [e]
      by_cases hc : (row ((k : Int) + 1)).dist < MAX_VALUE ∧ (row ((k : Int) + 1)).visited = false
      · right
        refine ⟨(k : Int) + 1, (row ((k : Int) + 1)).dist, by simp only [if_pos hc],
          ⟨by omega, by push_cast; omega⟩, hc.2, rfl, hc.1, ?_, ?_⟩
        · intro i i1 i2 hi
          by_cases hik : i = (k : Int) + 1
          · rw [hik]
          · have := hnone i i1 (by push_cast at i2; omega)
            have h2 : ¬ ((row i).dist < MAX_VALUE) := fun h => this ⟨hi, h⟩
            omega
        · intro i i1 i2 hi
          have := hnone i i1 (by omega)
          have h2 : ¬ ((row i).dist < MAX_VALUE) := fun h => this ⟨hi, h⟩
          omega
      · left
        refine ⟨by simp only [if_neg hc], ?_⟩
        intro i i1 i2
        by_cases hik : i = (k : Int) + 1
        · rw [hik]
          exact fun h => hc ⟨h.2, h.1⟩
        · exact hnone i i1 (by push_cast at i2; omega)
    · rw [e]
      right
      by_cases hc : (row ((k : Int) + 1)).dist < d ∧ (row ((k : Int) + 1)).visited = false
      · refine ⟨(k : Int) + 1, (row ((k : Int) + 1)).dist, by simp only [if_pos hc],
          ⟨by omega, by push_cast; omega⟩, hc.2, rfl, by omega, ?_, ?_⟩
        · intro i i1 i2 hi
          by_cases hik : i = (k : Int) + 1
          · rw [hik]
          · have := hmin i i1 (by push_cast at i2; omega) hi
            omega
        · intro i i1 i2 hi
          have := hmin i i1 (by omega) hi
          omega
      · refine ⟨m, d, by simp only [if_neg hc], ⟨hm.1, by push_cast; omega⟩, hv, hd, hlt, ?_,
          hfirst⟩
        intro i i1 i2 hi
        by_cases hik : i = (k : Int) + 1
        · rw [hik]
          rw [hik] at hi
          by_contra hlt2
          exact hc ⟨by omega, hi⟩
        · exact hmin i i1 (by push_cast at i2; omega) hi

/-- C18: on a row of the table, if some node of `1..size` is unvisited with
`dist` below `MAX_VALUE`, `getSmallest` returns an unvisited node whose `dist`
is the least among the unvisited nodes, the lowest such index; if there is none,
it returns `size`; the result is in `1..size` when `size ≥ 1`. -/
theorem GraphM.getSmallest_pick (g : GraphM) (row : Int → TableType) :
    ((∃ i : Int, 1 ≤ i ∧ i ≤ (g.size : Int) ∧ (row i).visited = false ∧
        (row i).dist < MAX_VALUE) →
      (1 ≤ g.getSmallest row ∧ g.getSmallest row ≤ (g.size : Int)) ∧
      (row (g.getSmallest row)).visited = false ∧
      (row (g.getSmallest row)).dist < MAX_VALUE ∧
      (∀ j : Int, 1 ≤ j → j ≤ (g.size : Int) → (row j).visited = false →
        (row (g.getSmallest row)).dist ≤ (row j).dist) ∧
      (∀ j : Int, 1 ≤ j → j ≤ (g.size : Int) → (row j).visited = false →
        (row j).dist = (row (g.getSmallest row)).dist → g.getSmallest row ≤ j)) ∧
    ((¬ ∃ i : Int, 1 ≤ i ∧ i ≤ (g.size : Int) ∧ (row i).visited = false ∧
        (row i).dist < MAX_VALUE) →
      g.getSmallest row = (g.size : Int)) ∧
    (1 ≤ g.size → 1 ≤ g.getSmallest row ∧ g.getSmallest row ≤ (g.size : Int)) := by
  refine ⟨fun hex => ?_, fun hno => ?_, fun hn => GraphM.getSmallest_range g row hn⟩
  · rcases GraphM.getSmallest_scan g row g.size with
      ⟨_, hnone⟩ | ⟨m, d, e, hm, hv, hd, hlt, hmin, hfirst⟩
    · obtain ⟨i, i1, i2, i3, i4⟩ := hex
      exact absurd ⟨i3, i4⟩ (hnone i i1 i2)
    · have hv2 : g.getSmallest row = m := by
        unfold GraphM.getSmallest
        rw [e]
      rw [hv2, hd]
      refine ⟨hm, hv, hlt, hmin, ?_⟩
      intro j j1 _ j3 j4
      by_contra hlt2
      have := hfirst j j1 (by omega) j3
      omega
  · rcases GraphM.getSmallest_scan g row g.size with
      ⟨e, _⟩ | ⟨m, d, _, hm, hv, hd, hlt, _, _⟩
    · unfold GraphM.getSmallest
      rw [e]
    · exact absurd ⟨m, hm.1, hm.2, hv, by rw [hd]; exact hlt⟩ hno

/-- C18 on a row of a 3-node graph in which node 1 is visited and nodes 2 and 3
are unvisited with the same distance 7: the pick is node 2. -/
theorem GraphM.getSmallest_pick_witness :
    (1 ≤ (GraphM.fresh 3).getSmallest
        (fun j => if j = 1 then ⟨true, 0, MAX_VALUE⟩ else ⟨false, 7, 1⟩) ∧
      (GraphM.fresh 3).getSmallest
        (fun j => if j = 1 then ⟨true, 0, MAX_VALUE⟩ else ⟨false, 7, 1⟩) ≤
          (((GraphM.fresh 3).size : Nat) : Int)) ∧
    (GraphM.fresh 3).getSmallest
      (fun j => if j = 1 then ⟨true, 0, MAX_VALUE⟩ else ⟨false, 7, 1⟩) = 2 :=
  ⟨((GraphM.getSmallest_pick (GraphM.fresh 3)
      (fun j => if j = 1 then ⟨true, 0, MAX_VALUE⟩ else ⟨false, 7, 1⟩)).1
      ⟨3, by decide, by decide, by decide, by decide⟩).1, by decide⟩

/-! ## Leftover traversal state -/

theorem optionRel_cases {σ τ : Type} {R : σ → τ → Prop} {a : Option σ} {b : Option τ}
    (h : Option.Rel R a b) :
    (a = none ∧ b = none) ∨ ∃ (x : σ) (y : τ), a = some x ∧ b = some y ∧ R x y := by
  cases h with
  | none => exact Or.inl ⟨rfl, rfl⟩
  | some hr => exact Or.inr ⟨_, _, rfl, rfl, hr⟩

/-- Two counting loops with bodies that may fail, run in lockstep on related
states, both fail or end in related states. -/
theorem forLoopOpt_rel {σ τ : Type} (R : σ → τ → Prop) (n : Nat) (f : Int → σ → Option σ)
    (f2 : Int → τ → Option τ) (s : σ) (t : τ) (h0 : R s t)
    (hs : ∀ (i : Int) (x : σ) (y : τ), 1 ≤ i → i ≤ (n : Int) → R x y →
      Option.Rel R (f i x) (f2 i y)) :
    Option.Rel R (forLoopOpt n f s) (forLoopOpt n f2 t) := by
  induction n with
  | zero => exact Option.Rel.some h0
  | succ m ih =>
    rw [forLoopOpt_succ, forLoopOpt_succ]
    rcases optionRel_cases (ih (fun i x y h1 h2 hr => hs i x y h1 (by push_cast; omega) hr)) with
      ⟨e1, e2⟩ | ⟨x, y, e1, e2, hr⟩
    · rw [e1, e2]
      exact Option.Rel.none
    · rw [e1, e2]
      exact hs _ _ _ (by omega) (by push_cast; omega) hr

/-- The loop over an edge list on two related states. -/
theorem GraphL.dfs_edges_same (g0 : GraphL) (f : Nat)
    (hdfs : ∀ (v : Int) (s s2 : GraphL × List Int), (1 ≤ v ∧ v ≤ (g0.size : Int)) →
      GraphL.SameTraversal g0 s s2 →
      Option.Rel (GraphL.SameTraversal g0) (GraphL.dfs f v s) (GraphL.dfs f v s2))
    (es : List Int) (hes : ∀ t ∈ es, 1 ≤ t ∧ t ≤ (g0.size : Int)) :
    ∀ s s2 : GraphL × List Int, GraphL.SameTraversal g0 s s2 →
      Option.Rel (GraphL.SameTraversal g0)
        (es.foldlM (fun (s : GraphL × List Int) (adj : Int) =>
          if (s.1.nodes adj).visited = false then GraphL.dfs f adj s else some s) s)
        (es.foldlM (fun (s : GraphL × List Int) (adj : Int) =>
          if (s.1.nodes adj).visited = false then GraphL.dfs f adj s else some s) s2) := by
  induction es with
  | nil =>
    intro s s2 h
    exact Option.Rel.some h
  | cons t rest ih =>
    intro s s2 h
    rw [List.foldlM_cons, List.foldlM_cons]
    have ht := hes t (List.mem_cons_self _ _)
    have hrest : ∀ x ∈ rest, 1 ≤ x ∧ x ≤ (g0.size : Int) :=
      fun x hx => hes x (List.mem_cons_of_mem _ hx)
    have hvis := h.2.2.2.1 t ht.1 ht.2
    rw [← hvis]
    by_cases hu : (s.1.nodes t).visited = false
    · rw [if_pos hu, if_pos hu]
      rcases optionRel_cases (hdfs t s s2 ht h) with ⟨e1, e2⟩ | ⟨x, y, e1, e2, hr⟩
      · rw [e1, e2]
        exact Option.Rel.none
      · rw [e1, e2]
        exact ih hrest _ _ hr
    · rw [if_neg hu, if_neg hu]
      exact ih hrest s s2 h

/-- On two related states `dfs` both runs out of fuel or ends in related
states: it reads the `visited` flags of nodes of `1..size` only. -/
theorem GraphL.dfs_same (g0 : GraphL) (hE : g0.EdgesOk) (f : Nat) :
    ∀ (v : Int) (s s2 : GraphL × List Int), (1 ≤ v ∧ v ≤ (g0.size : Int)) →
      GraphL.SameTraversal g0 s s2 →
      Option.Rel (GraphL.SameTraversal g0) (GraphL.dfs f v s) (GraphL.dfs f v s2) := by
  induction f with
  | zero =>
    intro v s s2 _ _
    exact Option.Rel.none
  | succ f ih =>
    intro v s s2 hv h
    obtain ⟨z1, z2, he, hvis, hout⟩ := h
    rw [GraphL.dfs_succ, GraphL.dfs_succ, (he v).1, (he v).2]
    apply GraphL.dfs_edges_same g0 f ih _ (fun t ht => hE v t ht)
    refine ⟨z1, z2, fun i => ?_, fun i i1 i2 => ?_, by show s.2 ++ [v] = s2.2 ++ [v]; rw [hout]⟩
    · show (upd1 s.1.nodes v _ i).edgeHead = _ ∧ (upd1 s2.1.nodes v _ i).edgeHead = _
      unfold upd1
      split_ifs with hi
      · rw [hi]
        exact he v
      · exact he i
    · show (upd1 s.1.nodes v _ i).visited = (upd1 s2.1.nodes v _ i).visited
      unfold upd1
      split_ifs with hi
      · rfl
      · exact hvis i i1 i2

/-- Two graphs with the same size and edge lists, whatever their `visited`
flags, give `depthFirstSearch` the same course. -/
theorem GraphL.depthFirstSearch_same (g h : GraphL) (hE : g.EdgesOk) (hn : h.size = g.size)
    (he : ∀ i : Int, (h.nodes i).edgeHead = (g.nodes i).edgeHead) (fuel : Nat) :
    Option.Rel (GraphL.SameTraversal g) (g.depthFirstSearch fuel) (h.depthFirstSearch fuel) := by
  unfold GraphL.depthFirstSearch
  rw [hn]
  obtain ⟨g1, g2⟩ := GraphL.markUnvisited_state g
  obtain ⟨h1, h2⟩ := GraphL.markUnvisited_state h
  refine forLoopOpt_rel (GraphL.SameTraversal g) g.size _ _ (g.markUnvisited, [])
    (h.markUnvisited, []) ?_ ?_
  · refine ⟨g1, h1.trans hn, fun i => ⟨(g2 i).1, (h2 i).1.trans (he i)⟩, fun i i1 i2 => ?_, rfl⟩
    show (g.markUnvisited.nodes i).visited = (h.markUnvisited.nodes i).visited
    rw [(g2 i).2.2, (h2 i).2.2, if_pos ⟨i1, i2⟩, if_pos ⟨i1, by rw [hn]; exact i2⟩]
  · intro v x y v1 v2 hxy
    beta_reduce
    rw [← hxy.2.2.2.1 v v1 v2]
    by_cases hu : (x.1.nodes v).visited = false
    · rw [if_pos hu, if_pos hu]
      exact GraphL.dfs_same g hE fuel v x y ⟨v1, v2⟩ hxy
    · rw [if_neg hu, if_neg hu]
      exact Option.Rel.some hxy

/-- C19: the output of `depthFirstSearch` does not depend on the `visited`
flags it finds. Two graphs built from the same stream with different initial
flags give the same output; after the call every node of `1..size` is marked
visited; and a second call on the graph the first one leaves gives the same
output again. -/
theorem GraphL.depthFirstSearch_ignores_flags (n : Nat) (descr : Int → NodeData)
    (junk junk2 : Int → Bool) (edges : List (Int × Int)) (extra : Nat) :
    ∃ st : GraphL × List Int,
      (GraphL.ctor.buildGraph n descr junk edges).depthFirstSearch (n + extra) = some st ∧
      ((GraphL.ctor.buildGraph n descr junk2 edges).depthFirstSearch (n + extra)).map Prod.snd =
        some st.2 ∧
      (∀ i : Int, 1 ≤ i → i ≤ (n : Int) → (st.1.nodes i).visited = true) ∧
      (st.1.depthFirstSearch (n + extra)).map Prod.snd = some st.2 := by
  obtain ⟨b1, b2, b3⟩ := GraphL.buildGraph_lists n descr junk edges
  obtain ⟨c1, c2, _⟩ := GraphL.buildGraph_lists n descr junk2 edges
  obtain ⟨st, e, _, hvis, _⟩ := GraphL.depthFirstSearch_spec
    (GraphL.ctor.buildGraph n descr junk edges) b3 (n + extra) (by omega)
  rw [b1] at hvis
  refine ⟨st, e, ?_, hvis, ?_⟩
  · have := GraphL.depthFirstSearch_same (GraphL.ctor.buildGraph n descr junk edges)
      (GraphL.ctor.buildGraph n descr junk2 edges) b3 (c1.trans b1.symm)
      (fun i => (c2 i).trans (b2 i).symm) (n + extra)
    rcases optionRel_cases this with ⟨e1, _⟩ | ⟨x, y, e1, e2, hr⟩
    · rw [e] at e1
      exact Option.noConfusion e1
    · rw [e] at e1
      have hx : st = x := Option.some.inj e1
      subst hx
      rw [e2]
      show some y.2 = some st.2
      rw [hr.2.2.2.2]
  · have hself := GraphL.depthFirstSearch_same (GraphL.ctor.buildGraph n descr junk edges)
      (GraphL.ctor.buildGraph n descr junk edges) b3 rfl (fun i => rfl) (n + extra)
    rcases optionRel_cases hself with ⟨e1, _⟩ | ⟨x, y, e1, _, hr⟩
    · rw [e] at e1
      exact Option.noConfusion e1
    · rw [e] at e1
      rw [← Option.some.inj e1] at hr
      rcases optionRel_cases (GraphL.depthFirstSearch_same
        (GraphL.ctor.buildGraph n descr junk edges) st.1 b3 hr.1 (fun i => (hr.2.2.1 i).1)
        (n + extra)) with ⟨e3, _⟩ | ⟨x2, y2, e3, e4, hr2⟩
      · rw [e] at e3
        exact Option.noConfusion e3
      · rw [e] at e3
        have hx : st = x2 := Option.some.inj e3
        subst hx
        rw [e4]
        show some y2.2 = some st.2
        rw [hr2.2.2.2.2]

/-! ## Predecessors and displayed paths -/

theorem GraphM.printDescriptions_eq (g : GraphM) (s : Int) (f : Nat) :
    ∀ w : Int, g.printDescriptions f s w = (g.printPath f s w).map (List.map g.data) := by
  induction f with
  | zero =>
    intro w
    rw [GraphM.printDescriptions, GraphM.printPath]
    split_ifs <;> rfl
  | succ f ih =>
    intro w
    rw [GraphM.printDescriptions, GraphM.printPath]
    split_ifs
    · rw [ih]
      cases g.printPath f s (g.T s w).path with
      | none => rfl
      | some l => simp
    · rfl

/-- In a predecessor tree the nodes that `printPath` prints for a node with a
distance, followed by that node, are a walk from the root along present edges
whose weight is the distance. -/
theorem GraphM.RowTree.route {g : GraphM} {s : Int} {hops : Int → Nat}
    (hR : g.RowTree s hops) (m : Nat) :
    ∀ w : Int, hops w = m → (g.T s w).dist < MAX_VALUE →
      ∃ l q : List Int, g.printPath m s w = some l ∧ l ++ [w] = s :: q ∧
        g.isWalk s q ∧ walkEnd s q = w ∧ g.walkWeight s q = (g.T s w).dist := by
  obtain ⟨hs, h0, hh, hall⟩ := hR
  induction m with
  | zero =>
    intro w hw hfin
    by_cases hws : w = s
    · subst hws
      exact ⟨[], [], by rw [GraphM.printPath_zero]; simp, rfl, hs, rfl, h0.symm⟩
    · have := (hall w hws hfin).2.2.2.2.2
      omega
  | succ k ih =>
    intro w hw hfin
    by_cases hws : w = s
    · subst hws
      omega
    · obtain ⟨a1, _, a3, a4, a5, a6⟩ := hall w hws hfin
      obtain ⟨l, q, l1, l2, q1, q2, q3⟩ := ih (g.T s w).path (by omega) a3
      obtain ⟨r1, r2⟩ := GraphM.isWalk_snoc g s _ w q q1 q2 (ne_of_lt a4) a1
      refine ⟨l ++ [(g.T s w).path], q ++ [w], ?_, by rw [l2]; rfl, r1, r2, ?_⟩
      · rw [GraphM.printPath_succ, if_pos hws, l1]
        rfl
      · rw [GraphM.walkWeight_snoc, q2, q3, a5]

/-- C20: after construction, edge updates and one `findShortestPath`,
`dist[s][s] = 0` for every `s` in `1..size`; and for distinct `s`, `t` in
`1..size` with `dist[s][t] ≠ MAX_VALUE` the node `p = path[s][t]` is in `1..size`,
`C[p][t] < MAX_VALUE` and `dist[s][t] = dist[s][p] + C[p][t]`. The path that
`displayHelper` and `display` print for `s`, `t` starts at `s`, runs along
present edges to `t`, and its weights sum to the printed distance. -/
theorem GraphM.predecessors_describe_paths (n : Nat) (descr : Int → NodeData)
    (edges : List (Int × Int × Int)) (edits : List OpM)
    (hE : ∀ op ∈ edits, op.isEdit = true) :
    (∀ s : Int, 1 ≤ s → s ≤ (n : Int) →
      (((GraphM.ctor.buildGraph n descr edges).run (edits ++ [OpM.compute])).T s s).dist = 0) ∧
    ∀ s t : Int, 1 ≤ s → s ≤ (n : Int) → 1 ≤ t → t ≤ (n : Int) → s ≠ t →
      (((GraphM.ctor.buildGraph n descr edges).run (edits ++ [OpM.compute])).T s t).dist ≠
        MAX_VALUE →
      ((1 ≤ (((GraphM.ctor.buildGraph n descr edges).run (edits ++ [OpM.compute])).T s t).path ∧
        (((GraphM.ctor.buildGraph n descr edges).run (edits ++ [OpM.compute])).T s t).path ≤
          (n : Int)) ∧
      ((GraphM.ctor.buildGraph n descr edges).run (edits ++ [OpM.compute])).C
        (((GraphM.ctor.buildGraph n descr edges).run (edits ++ [OpM.compute])).T s t).path t <
          MAX_VALUE ∧
      (((GraphM.ctor.buildGraph n descr edges).run (edits ++ [OpM.compute])).T s t).dist =
        (((GraphM.ctor.buildGraph n descr edges).run (edits ++ [OpM.compute])).T s
          (((GraphM.ctor.buildGraph n descr edges).run (edits ++ [OpM.compute])).T s t).path).dist +
        ((GraphM.ctor.buildGraph n descr edges).run (edits ++ [OpM.compute])).C
          (((GraphM.ctor.buildGraph n descr edges).run (edits ++ [OpM.compute])).T s t).path t) ∧
      ∃ q : List Int,
        ((GraphM.ctor.buildGraph n descr edges).run (edits ++ [OpM.compute])).displayHelper
          (n - 1) s t =
          some (PathLine.route s t
            (((GraphM.ctor.buildGraph n descr edges).run (edits ++ [OpM.compute])).T s t).dist
            (s :: q)) ∧
        ((GraphM.ctor.buildGraph n descr edges).run (edits ++ [OpM.compute])).display
          (n - 1) s t =
          some (PathLine.route s t
            (((GraphM.ctor.buildGraph n descr edges).run (edits ++ [OpM.compute])).T s t).dist
            (s :: q),
            (s :: q).map
              ((GraphM.ctor.buildGraph n descr edges).run (edits ++ [OpM.compute])).data) ∧
        ((GraphM.ctor.buildGraph n descr edges).run (edits ++ [OpM.compute])).isWalk s q ∧
        walkEnd s q = t ∧
        ((GraphM.ctor.buildGraph n descr edges).run (edits ++ [OpM.compute])).walkWeight s q =
          (((GraphM.ctor.buildGraph n descr edges).run (edits ++ [OpM.compute])).T s t).dist := by
  obtain ⟨hn, _, _, hD, hrows⟩ := GraphM.first_compute_state n descr edges edits hE
  generalize (GraphM.ctor.buildGraph n descr edges).run (edits ++ [OpM.compute]) = g
    at hn hD hrows ⊢
  refine ⟨fun s s1 s2 => ?_, fun s t s1 s2 t1 t2 hst hfin => ?_⟩
  · obtain ⟨hops, hR⟩ := (hrows s).1 ⟨s1, s2⟩
    exact hR.2.1
  · obtain ⟨hops, hR⟩ := (hrows s).1 ⟨s1, s2⟩
    have hlt := lt_of_le_of_ne (hD s t).2 hfin
    obtain ⟨_, _, a3, a4, a5, _⟩ := hR.2.2.2 t (Ne.symm hst) hlt
    have hp : 1 ≤ (g.T s t).path ∧ (g.T s t).path ≤ (n : Int) := by
      by_cases hps : (g.T s t).path = s
      · rw [hps]
        exact ⟨s1, s2⟩
      · have := (hR.2.2.2 _ hps a3).1
        rw [hn] at this
        exact this
    refine ⟨⟨hp, a4, a5⟩, ?_⟩
    -- the printed walk
    obtain ⟨l, l1, _, l3, l4, _⟩ := hR.walk (hops t) t rfl hlt
    rw [hn] at l3
    have hlen := nodup_bounded_length (l ++ [t]) n l4 (fun x hx => (l3 x hx).1)
    rw [List.length_append, List.length_singleton] at hlen
    obtain ⟨l', q, p1, p2, q1, q2, q3⟩ := hR.route (hops t) t rfl hlt
    have hl : l' = l := Option.some.inj (p1.symm.trans l1)
    subst hl
    have hfuel : g.printPath (n - 1) s t = some l' := by
      have := GraphM.printPath_mono g s (hops t) t l' p1 (n - 1 - hops t)
      rw [show hops t + (n - 1 - hops t) = n - 1 by
        have : l'.length = hops t := by
          obtain ⟨l2, e2, len2, _⟩ := hR.walk (hops t) t rfl hlt
          rw [← Option.some.inj (e2.symm.trans p1)]
          exact len2
        omega] at this
      exact this
    have hv : s ≤ (g.size : Int) ∧ t ≤ (g.size : Int) ∧ s ≥ 1 ∧ t ≥ 1 ∧ s ≠ t := by
      rw [hn]
      exact ⟨s2, t2, s1, t1, hst⟩
    have hline : g.displayHelper (n - 1) s t =
        some (PathLine.route s t (g.T s t).dist (s :: q)) := by
      unfold GraphM.displayHelper
      rw [if_pos hv, if_neg hfin, hfuel, ← p2]
      rfl
    refine ⟨q, hline, ?_, q1, q2, q3⟩
    unfold GraphM.display
    rw [if_pos hv, hline, GraphM.printDescriptions_eq, hfuel]
    simp only [Option.bind, ne_eq, hfin, not_false_eq_true, if_true, Option.map]
    rw [← p2]
    simp

/-- C20 at the 3-node graph with edges 1→2 (5) and 2→3 (2), for the pair 1, 3. -/
theorem GraphM.predecessors_describe_paths_witness :
    (((GraphM.ctor.buildGraph 3 (fun _ => ⟨""⟩) [(1, 2, 5), (2, 3, 2)]).run
      ([] ++ [OpM.compute])).T 1 3).dist =
      (((GraphM.ctor.buildGraph 3 (fun _ => ⟨""⟩) [(1, 2, 5), (2, 3, 2)]).run
        ([] ++ [OpM.compute])).T 1
        (((GraphM.ctor.buildGraph 3 (fun _ => ⟨""⟩) [(1, 2, 5), (2, 3, 2)]).run
          ([] ++ [OpM.compute])).T 1 3).path).dist +
      ((GraphM.ctor.buildGraph 3 (fun _ => ⟨""⟩) [(1, 2, 5), (2, 3, 2)]).run
        ([] ++ [OpM.compute])).C
        (((GraphM.ctor.buildGraph 3 (fun _ => ⟨""⟩) [(1, 2, 5), (2, 3, 2)]).run
          ([] ++ [OpM.compute])).T 1 3).path 3 :=
  (((GraphM.predecessors_describe_paths 3 (fun _ => ⟨""⟩) [(1, 2, 5), (2, 3, 2)] []
    (by simp)).2 1 3 (by decide) (by decide) (by decide) (by decide) (by decide)
    (by decide)).1).2.2

/-! ## Row 1: a complete Dijkstra run -/

/-- The two outcomes of `getSmallest` on a row: no unvisited node of `1..size`
has a distance below `MAX_VALUE` and the result is `size`, or the result is an
unvisited node of `1..size` of least distance among the unvisited ones. -/
theorem GraphM.getSmallest_cases (g : GraphM) (row : Int → TableType) :
    (g.getSmallest row = (g.size : Int) ∧
      ∀ i : Int, 1 ≤ i → i ≤ (g.size : Int) → (row i).visited = false →
        MAX_VALUE ≤ (row i).dist) ∨
    ((1 ≤ g.getSmallest row ∧ g.getSmallest row ≤ (g.size : Int)) ∧
      (row (g.getSmallest row)).visited = false ∧
      (row (g.getSmallest row)).dist < MAX_VALUE ∧
      ∀ i : Int, 1 ≤ i → i ≤ (g.size : Int) → (row i).visited = false →
        (row (g.getSmallest row)).dist ≤ (row i).dist) := by
  rcases GraphM.getSmallest_scan g row g.size with
    ⟨e, hnone⟩ | ⟨m, d, e, hm, hv, hd, hlt, hmin, _⟩
  · left
    refine ⟨by unfold GraphM.getSmallest; rw [e], fun i i1 i2 hi => ?_⟩
    by_contra hc
    exact hnone i i1 i2 ⟨hi, by omega⟩
  · right
    have hv2 : g.getSmallest row = m := by
      unfold GraphM.getSmallest
      rw [e]
    rw [hv2, hd]
    exact ⟨hm, hv, hlt, hmin⟩

/-- The cells of row `i` after one `relax`, when nothing overflows. -/
theorem GraphM.relax_row (g : GraphM) (i v w b : Int) (hC : g.WeightsOk) (hD : g.DistOk) :
    (g.relax i v w).T i b =
      if b = w ∧ (g.T i w).visited = false ∧ (g.T i w).dist > (g.T i v).dist + g.C v w then
        ⟨(g.T i w).visited, (g.T i v).dist + g.C v w, v⟩
      else g.T i b := by
  unfold GraphM.relax
  rw [add32_eq (hD i v).1 (hD i v).2 (hC v w).1 (hC v w).2]
  split_ifs with h1 h2 h3 h4 h5
  · simp [upd2, h3.1]
  · have hb : b ≠ w := fun e => h3 ⟨e, h1, h2⟩
    simp [upd2, hb]
  · exact absurd h4.2.2 h2
  · rfl
  · exact absurd h5.2.1 h1
  · rfl

theorem GraphM.markVisited_row (g : GraphM) (i v b : Int) :
    ((g.markVisited i v).T i b).dist = (g.T i b).dist ∧
    ((g.markVisited i v).T i b).visited = (if b = v then true else (g.T i b).visited) := by
  show (upd2 g.T i v _ i b).dist = _ ∧ (upd2 g.T i v _ i b).visited = _
  unfold upd2
  split_ifs with h1 h2 h2
  · rw [h2]
    exact ⟨rfl, rfl⟩
  · exact absurd h1.2 h2
  · exact absurd ⟨rfl, h2⟩ h1
  · exact ⟨rfl, rfl⟩

/-- The relaxation loop of `settle` on row `s` from a settled node `v` whose
distance is least among the unsettled nodes: settled distances stay, distances
only go down and not below that of `v`, and the nodes handled so far are
within the edge weight of `v`. -/
theorem GraphM.relaxLoop_inv (g1 : GraphM) (s v : Int) (hC : g1.WeightsOk) (hD : g1.DistOk)
    (hv : (g1.T s v).visited = true)
    (hmin : ∀ w : Int, 1 ≤ w → w ≤ (g1.size : Int) → (g1.T s w).visited = false →
      (g1.T s v).dist ≤ (g1.T s w).dist)
    (k : Nat) (hk : k ≤ g1.size) :
    (forLoop k (fun w h => h.relax s v w) g1).C = g1.C ∧
    (forLoop k (fun w h => h.relax s v w) g1).size = g1.size ∧
    (forLoop k (fun w h => h.relax s v w) g1).DistOk ∧
    (∀ b : Int, ((forLoop k (fun w h => h.relax s v w) g1).T s b).visited =
      (g1.T s b).visited) ∧
    (∀ b : Int, (g1.T s b).visited = true →
      ((forLoop k (fun w h => h.relax s v w) g1).T s b).dist = (g1.T s b).dist) ∧
    (∀ b : Int, ((forLoop k (fun w h => h.relax s v w) g1).T s b).dist ≤ (g1.T s b).dist) ∧
    (∀ w : Int, 1 ≤ w → w ≤ (g1.size : Int) → (g1.T s w).visited = false →
      (g1.T s v).dist ≤ ((forLoop k (fun w h => h.relax s v w) g1).T s w).dist) ∧
    (∀ w : Int, 1 ≤ w → w ≤ (k : Int) → (g1.T s w).visited = false →
      ((forLoop k (fun w h => h.relax s v w) g1).T s w).dist ≤ (g1.T s v).dist + g1.C v w) := by
  induction k with
  | zero =>
    exact ⟨rfl, rfl, hD, fun b => rfl, fun b _ => rfl, fun b => le_refl _, hmin,
      fun w w1 w2 => absurd w2 (by push_cast; omega)⟩
  | succ k ih =>
    obtain ⟨tC, tn, tD, tvis, tkeep, tmono, tlow, tdone⟩ := ih (by omega)
    rw [forLoop_succ]
    generalize forLoop k (fun w h => h.relax s v w) g1 = t at tC tn tD tvis tkeep tmono tlow tdone
    have tW : t.WeightsOk := GraphM.WeightsOk_congr tC hC
    have cell := fun b => GraphM.relax_row t s v ((k : Int) + 1) b tW tD
    have hdv : (t.T s v).dist = (g1.T s v).dist := tkeep v hv
    have hcw := hC v ((k : Int) + 1)
    refine ⟨(GraphM.relax_frame t s v _).1.trans tC, (GraphM.relax_frame t s v _).2.1.trans tn,
      GraphM.relax_distOk t s v _ tW tD, fun b => ?_, fun b hb => ?_, fun b => ?_,
      fun w w1 w2 hw => ?_, fun w w1 w2 hw => ?_⟩
    · rw [GraphM.relax_visited]
      exact tvis b
    · rw [cell b]
      split_ifs with hc
      · exfalso
        rw [← hc.1, tvis b, hb] at hc
        exact Bool.noConfusion hc.2.1
      · exact tkeep b hb
    · rw [cell b]
      split_ifs with hc
      · show (t.T s v).dist + t.C v ((k : Int) + 1) ≤ _
        have := tmono ((k : Int) + 1)
        rw [hc.1]
        omega
      · exact tmono b
    · rw [cell w]
      split_ifs with hc
      · show (g1.T s v).dist ≤ (t.T s v).dist + t.C v ((k : Int) + 1)
        rw [hdv, tC]
        omega
      · exact tlow w w1 w2 hw
    · rw [cell w]
      split_ifs with hc
      · show (t.T s v).dist + t.C v ((k : Int) + 1) ≤ _
        rw [hdv, tC, hc.1]
      · by_cases hwk : w = (k : Int) + 1
        · have hnot : ¬ ((t.T s ((k : Int) + 1)).dist >
              (t.T s v).dist + t.C v ((k : Int) + 1)) := by
            intro hgt
            apply hc
            refine ⟨hwk, ?_, hgt⟩
            rw [tvis, ← hwk]
            exact hw
          rw [hwk]
          rw [hdv, tC] at hnot
          omega
        · exact tdone w w1 (by push_cast at w2; omega) hw

/-- A `relax` that finds nothing to improve leaves the graph as it is. -/
theorem GraphM.relax_noop (g : GraphM) (i v w : Int) (hC : g.WeightsOk) (hD : g.DistOk)
    (h : (g.T i w).visited = false → (g.T i w).dist ≤ (g.T i v).dist + g.C v w) :
    g.relax i v w = g := by
  unfold GraphM.relax
  rw [add32_eq (hD i v).1 (hD i v).2 (hC v w).1 (hC v w).2]
  split_ifs with h1 h2
  · have := h h1
    omega
  · rfl
  · rfl

/-- A `settle` on row `s` whose pick is an unsettled node of least distance
keeps the row consistent and settles one more node. -/
theorem GraphM.settle_real_pick (g : GraphM) (s : Int) (hC : g.WeightsOk) (hD : g.DistOk)
    (hS : g.RowSettled s)
    (hvr : 1 ≤ g.getSmallest (g.T s) ∧ g.getSmallest (g.T s) ≤ (g.size : Int))
    (hvu : (g.T s (g.getSmallest (g.T s))).visited = false)
    (hvm : ∀ i : Int, 1 ≤ i → i ≤ (g.size : Int) → (g.T s i).visited = false →
      (g.T s (g.getSmallest (g.T s))).dist ≤ (g.T s i).dist) :
    (g.settle s).RowSettled s ∧ (g.settle s).unvisitedIn s < g.unvisitedIn s ∧
    (∀ b : Int, ((g.settle s).T s b).dist ≤ (g.T s b).dist) := by
  have mrow := fun b => GraphM.markVisited_row g s (g.getSmallest (g.T s)) b
  have g1v : ((g.markVisited s (g.getSmallest (g.T s))).T s (g.getSmallest (g.T s))).visited =
      true := by
    rw [(mrow _).2, if_pos rfl]
  have g1u : ∀ w : Int, ((g.markVisited s (g.getSmallest (g.T s))).T s w).visited = false →
      (g.T s w).visited = false ∧ w ≠ g.getSmallest (g.T s) := by
    intro w hw
    rw [(mrow w).2] at hw
    split_ifs at hw with h
    exact ⟨hw, h⟩
  have g1t : ∀ w : Int, ((g.markVisited s (g.getSmallest (g.T s))).T s w).visited = true →
      (g.T s w).visited = true ∨ w = g.getSmallest (g.T s) := by
    intro w hw
    rw [(mrow w).2] at hw
    split_ifs at hw with h
    · exact Or.inr h
    · exact Or.inl hw
  obtain ⟨lC, ln, _, lvis, lkeep, lmono, llow, ldone⟩ :=
    GraphM.relaxLoop_inv (g.markVisited s (g.getSmallest (g.T s))) s (g.getSmallest (g.T s))
      hC (GraphM.markVisited_distOk g s _ hD) g1v
      (by
        intro w w1 w2 hw
        rw [(mrow _).1, (mrow w).1]
        exact hvm w w1 w2 (g1u w hw).1)
      g.size (le_refl _)
  have hsettle : g.settle s =
      forLoop g.size (fun w h => h.relax s (g.getSmallest (g.T s)) w)
        (g.markVisited s (g.getSmallest (g.T s))) := rfl
  rw [← hsettle] at lC ln lvis lkeep lmono llow ldone
  have hn : (g.settle s).size = g.size := ln
  have hCC : (g.settle s).C = g.C := lC
  have dv : ((g.settle s).T s (g.getSmallest (g.T s))).dist =
      (g.T s (g.getSmallest (g.T s))).dist := by
    rw [lkeep _ g1v, (mrow _).1]
  refine ⟨⟨?_, ?_⟩, ?_, ?_⟩
  · intro v w v1 v2 w1 w2 hv
    rw [hn] at v2 w2
    rw [hCC]
    rw [lvis] at hv
    have cw := hC v w
    rcases g1t v hv with hold | hnew
    · -- `v` was settled before
      have e1 : ((g.settle s).T s v).dist = (g.T s v).dist := by
        rw [lkeep v hv, (mrow v).1]
      have e2 := lmono w
      rw [(mrow w).1] at e2
      have := hS.1 v w v1 v2 w1 w2 hold
      omega
    · -- `v` is the node just settled
      subst hnew
      rw [dv]
      by_cases hw : ((g.markVisited s (g.getSmallest (g.T s))).T s w).visited = true
      · have e1 : ((g.settle s).T s w).dist = (g.T s w).dist := by
          rw [lkeep w hw, (mrow w).1]
        rw [e1]
        rcases g1t w hw with hwold | hwnew
        · have := hS.2 w _ w1 w2 v1 v2 hwold hvu
          omega
        · rw [hwnew]
          have := hC (g.getSmallest (g.T s)) (g.getSmallest (g.T s))
          omega
      · have hw2 : ((g.markVisited s (g.getSmallest (g.T s))).T s w).visited = false := by
          simpa using hw
        have := ldone w w1 w2 hw2
        rw [(mrow _).1] at this
        exact this
  · intro v w v1 v2 w1 w2 hv hw
    rw [hn] at v2 w2
    rw [lvis] at hv hw
    have l1 := llow w w1 w2 hw
    rw [(mrow _).1] at l1
    rcases g1t v hv with hold | hnew
    · have e1 : ((g.settle s).T s v).dist = (g.T s v).dist := by
        rw [lkeep v hv, (mrow v).1]
      have := hS.2 v _ v1 v2 hvr.1 hvr.2 hold hvu
      omega
    · subst hnew
      rw [dv]
      exact l1
  · unfold GraphM.unvisitedIn
    rw [hn]
    refine countP_lt_of_imp _ _ _ ?_ (g.getSmallest (g.T s))
      ((mem_nodeList _ _).2 hvr) (by simp [hvu]) ?_
    · intro x _ hx
      simp only [Bool.not_eq_true'] at hx ⊢
      rw [lvis] at hx
      exact (g1u x hx).1
    · simp only [Bool.not_eq_false']
      rw [lvis]
      exact g1v
  · intro b
    have := lmono b
    rw [(mrow b).1] at this
    exact this

/-- A `settle` on a row that is done only marks node `size`: no distance
changes, and the row stays consistent and done. -/
theorem GraphM.settle_done_row (g : GraphM) (s : Int) (hC : g.WeightsOk) (hD : g.DistOk)
    (hS : g.RowSettled s) (hn : 1 ≤ g.size) (hv : g.getSmallest (g.T s) = (g.size : Int))
    (hdone : g.RowDone s) :
    (g.settle s).RowSettled s ∧ (g.settle s).RowDone s ∧
    (∀ b : Int, ((g.settle s).T s b).dist = (g.T s b).dist) := by
  have mrow := fun b => GraphM.markVisited_row g s (g.size : Int) b
  have g1t : ∀ w : Int, ((g.markVisited s (g.size : Int)).T s w).visited = true →
      (g.T s w).visited = true ∨ w = (g.size : Int) := by
    intro w hw
    rw [(mrow w).2] at hw
    split_ifs at hw with h
    · exact Or.inr h
    · exact Or.inl hw
  have g1u : ∀ w : Int, ((g.markVisited s (g.size : Int)).T s w).visited = false →
      (g.T s w).visited = false := by
    intro w hw
    rw [(mrow w).2] at hw
    split_ifs at hw with h
    exact hw
  -- the marked graph is consistent and done
  have hS1 : (g.markVisited s (g.size : Int)).RowSettled s := by
    constructor
    · intro v w v1 v2 w1 w2 hvis
      rw [(mrow v).1, (mrow w).1]
      show (g.T s w).dist ≤ (g.T s v).dist + g.C v w
      rcases g1t v hvis with hold | hnew
      · exact hS.1 v w v1 v2 w1 w2 hold
      · by_cases hvv : (g.T s v).visited = true
        · exact hS.1 v w v1 v2 w1 w2 hvv
        · have := hdone v v1 v2 (by simpa using hvv)
          have := (hD s w).2
          have := (hC v w).1
          omega
    · intro v w v1 v2 w1 w2 _ hw
      rw [(mrow v).1, (mrow w).1]
      have := hdone w w1 w2 (g1u w hw)
      have := (hD s v).2
      omega
  have hdone1 : (g.markVisited s (g.size : Int)).RowDone s := by
    intro w w1 w2 hw
    rw [(mrow w).1]
    exact hdone w w1 w2 (g1u w hw)
  have hD1 := GraphM.markVisited_distOk g s (g.size : Int) hD
  have hvis1 : ((g.markVisited s (g.size : Int)).T s (g.size : Int)).visited = true := by
    rw [(mrow _).2, if_pos rfl]
  -- the relaxation loop changes nothing
  have hloop : g.settle s = g.markVisited s (g.size : Int) := by
    simp only [GraphM.settle, hv]
    refine forLoop_preserve (fun h : GraphM => h = g.markVisited s (g.size : Int)) _ _
      (g.markVisited s (g.size : Int)) rfl ?_
    intro w t w1 w2 ht
    rw [ht]
    apply GraphM.relax_noop (g.markVisited s (g.size : Int)) s _ w hC hD1
    intro _
    exact hS1.1 (g.size : Int) w (by omega) (le_refl _) w1 w2 hvis1
  rw [hloop]
  exact ⟨hS1, hdone1, fun b => (mrow b).1⟩

/-- The row predicates read row `s`, the weights and the size only. -/
theorem GraphM.RowRun_congr {g h : GraphM} {s : Int} {m : Nat}
    (hT : ∀ b : Int, h.T s b = g.T s b) (hC : h.C = g.C) (hn : h.size = g.size)
    (hD : h.DistOk) (hR : g.RowRun s m) : h.RowRun s m := by
  obtain ⟨r1, _, r3, r4, r5⟩ := hR
  refine ⟨GraphM.WeightsOk_congr hC r1, hD, by rw [hT]; exact r3, ?_, ?_⟩
  · unfold GraphM.RowSettled
    simp only [hT, hC, hn]
    exact r4
  · unfold GraphM.RowDone GraphM.unvisitedIn
    simp only [hT, hn]
    exact r5

/-- One `settle` on row `s` is one more step of the run of that row. -/
theorem GraphM.settle_rowRun (g : GraphM) (s : Int) (m : Nat) (hn : 1 ≤ g.size)
    (hR : g.RowRun s m) : (g.settle s).RowRun s (m + 1) := by
  obtain ⟨hC, hD, h0, hS, hprog⟩ := hR
  obtain ⟨f1, f2, _⟩ := GraphM.settle_frame g s
  have hD2 := GraphM.settle_distOk g s hC hD
  rcases GraphM.getSmallest_cases g (g.T s) with ⟨hv, hnone⟩ | ⟨hvr, hvu, hvlt, hvm⟩
  · obtain ⟨a1, a2, a3⟩ := GraphM.settle_done_row g s hC hD hS hn hv hnone
    exact ⟨GraphM.WeightsOk_congr f1 hC, hD2, by rw [a3]; exact h0, a1, Or.inl a2⟩
  · obtain ⟨a1, a2, a3⟩ := GraphM.settle_real_pick g s hC hD hS hvr hvu hvm
    refine ⟨GraphM.WeightsOk_congr f1 hC, hD2, ?_, a1, Or.inr ?_⟩
    · have := a3 s
      have := (hD2 s s).1
      omega
    · rcases hprog with hdone | hcnt
      · have := hdone _ hvr.1 hvr.2 hvu
        omega
      · rw [f2]
        omega

/-- A `settle` on another row leaves the run of row `s` where it is. -/
theorem GraphM.settle_other_rowRun (g : GraphM) (s i : Int) (m : Nat) (hsi : s ≠ i)
    (hR : g.RowRun s m) : (g.settle i).RowRun s m :=
  GraphM.RowRun_congr (GraphM.settle_other_row g i s hsi) (GraphM.settle_frame g i).1
    (GraphM.settle_frame g i).2.1 (GraphM.settle_distOk g i hR.1 hR.2.1) hR

theorem GraphM.zeroDist_row (g : GraphM) (k a b : Int) :
    ((g.zeroDist k).T a b).visited = (g.T a b).visited ∧
    (¬ (a = k ∧ b = k) → (g.zeroDist k).T a b = g.T a b) ∧
    ((g.zeroDist k).T k k).dist = 0 := by
  refine ⟨?_, ?_, ?_⟩
  · show (upd2 g.T k k _ a b).visited = _
    unfold upd2
    split_ifs with h
    · rw [h.1, h.2]
    · rfl
  · intro h
    show upd2 g.T k k _ a b = _
    unfold upd2
    rw [if_neg h]
  · show (upd2 g.T k k _ k k).dist = 0
    simp [upd2]

/-- The assignment `dist[s][s] = 0` on a row still as constructed starts the run
of that row. -/
theorem GraphM.zeroDist_starts_row (g : GraphM) (s : Int) (hC : g.WeightsOk) (hD : g.DistOk)
    (hrow : ∀ w : Int, g.T s w = ⟨false, MAX_VALUE, MAX_VALUE⟩) :
    (g.zeroDist s).RowRun s 0 := by
  have hu : ∀ w : Int, ((g.zeroDist s).T s w).visited = false := by
    intro w
    rw [(GraphM.zeroDist_row g s s w).1, hrow w]
  refine ⟨hC, GraphM.zeroDist_distOk g s hD, (GraphM.zeroDist_row g s s s).2.2, ⟨?_, ?_⟩,
    Or.inr ?_⟩
  · intro v w _ _ _ _ hv
    rw [hu v] at hv
    exact Bool.noConfusion hv
  · intro v w _ _ _ _ hv
    rw [hu v] at hv
    exact Bool.noConfusion hv
  · unfold GraphM.unvisitedIn
    have := List.countP_le_length (fun w => !((g.zeroDist s).T s w).visited)
      (l := nodeList (g.zeroDist s).size)
    rw [nodeList_length] at this
    omega

/-- The assignment `dist[k][k] = 0` for another row leaves the run of row `s`
where it is. -/
theorem GraphM.zeroDist_other_rowRun (g : GraphM) (s k : Int) (m : Nat) (hsk : s ≠ k)
    (hR : g.RowRun s m) : (g.zeroDist k).RowRun s m :=
  GraphM.RowRun_congr (fun b => (GraphM.zeroDist_row g k s b).2.1 (fun h => hsk h.1)) rfl rfl
    (GraphM.zeroDist_distOk g k hR.2.1) hR

/-- The middle loop of `findShortestPath` does one step of the run of each
row `1..size`. -/
theorem GraphM.settleLoop_rowRun (g : GraphM) (s : Int) (m : Nat)
    (hs : 1 ≤ s ∧ s ≤ (g.size : Int)) (hR : g.RowRun s m) :
    (forLoop g.size (fun i h => h.settle i) g).size = g.size ∧
    (forLoop g.size (fun i h => h.settle i) g).RowRun s (m + 1) := by
  have key := forLoop_induct
    (fun (j : Nat) (h : GraphM) => h.size = g.size ∧
      (((j : Int) < s → h.RowRun s m) ∧ (s ≤ (j : Int) → h.RowRun s (m + 1))))
    g.size (fun i h => h.settle i) g
    ⟨rfl, fun _ => hR, fun h => absurd h (by push_cast; omega)⟩
    (by
      intro j t hj ht
      obtain ⟨tn, t1, t2⟩ := ht
      refine ⟨(GraphM.settle_frame t _).2.1.trans tn, fun hlt => ?_, fun hle => ?_⟩
      · exact GraphM.settle_other_rowRun t s _ m (by push_cast at hlt; omega)
          (t1 (by push_cast at hlt; omega))
      · by_cases hjs : s = (j : Int) + 1
        · rw [← hjs]
          exact GraphM.settle_rowRun t s m (by omega) (t1 (by omega))
        · exact GraphM.settle_other_rowRun t s _ (m + 1) hjs
            (t2 (by push_cast at hle; omega)))
  exact ⟨key.1, key.2.2 hs.2⟩

/-- After `findShortestPath` on a graph whose row 1 is as constructed, row 1
is consistent and done: it has had `size` steps of its run. -/
theorem GraphM.findShortestPath_row_one (g : GraphM) (hn : 1 ≤ g.size) (hC : g.WeightsOk)
    (hD : g.DistOk) (hrow : ∀ w : Int, g.T 1 w = ⟨false, MAX_VALUE, MAX_VALUE⟩) :
    g.findShortestPath.RowSettled 1 ∧ g.findShortestPath.RowDone 1 ∧
    (g.findShortestPath.T 1 1).dist = 0 := by
  have key := forLoop_induct
    (fun (k : Nat) (h : GraphM) => h.size = g.size ∧
      ((k = 0 → h.WeightsOk ∧ h.DistOk ∧ ∀ w : Int, h.T 1 w = ⟨false, MAX_VALUE, MAX_VALUE⟩) ∧
        (1 ≤ k → h.RowRun 1 k)))
    g.size (fun source h => h.sourceStep source) g
    ⟨rfl, fun _ => ⟨hC, hD, hrow⟩, fun h => absurd h (by omega)⟩
    (by
      intro k t hk ht
      obtain ⟨tn, t0, t1⟩ := ht
      have hloop : t.sourceStep ((k : Int) + 1) =
          forLoop (t.zeroDist ((k : Int) + 1)).size (fun i h => h.settle i)
            (t.zeroDist ((k : Int) + 1)) := rfl
      refine ⟨(GraphM.sourceStep_frame t _).2.1.trans tn, fun h => absurd h (by omega),
        fun _ => ?_⟩
      show (t.sourceStep ((k : Int) + 1)).RowRun 1 (k + 1)
      rw [hloop]
      by_cases hk0 : k = 0
      · subst hk0
        obtain ⟨c, d, r⟩ := t0 rfl
        have hstart := GraphM.zeroDist_starts_row t 1 c d r
        simp only [Nat.cast_zero, zero_add]
        exact (GraphM.settleLoop_rowRun (t.zeroDist 1) 1 0
          ⟨le_refl _, by show (1 : Int) ≤ (t.size : Int); rw [tn]; omega⟩ hstart).2
      · have hrun := GraphM.zeroDist_other_rowRun t 1 ((k : Int) + 1) k (by omega)
          (t1 (by omega))
        exact (GraphM.settleLoop_rowRun (t.zeroDist ((k : Int) + 1)) 1 k
          ⟨le_refl _, by show (1 : Int) ≤ (t.size : Int); rw [tn]; omega⟩ hrun).2)
  have hfsp : g.findShortestPath = forLoop g.size (fun source h => h.sourceStep source) g := rfl
  rw [← hfsp] at key
  obtain ⟨kn, _, krun⟩ := key
  obtain ⟨_, _, r0, rS, rP⟩ := krun hn
  refine ⟨rS, ?_, r0⟩
  rcases rP with hdone | hcnt
  · exact hdone
  · intro w w1 w2 hw
    exfalso
    rw [kn] at hcnt
    have hz : g.findShortestPath.unvisitedIn 1 = 0 := by omega
    unfold GraphM.unvisitedIn at hz
    rw [List.countP_eq_zero] at hz
    have := hz w ((mem_nodeList _ w).2 ⟨w1, w2⟩)
    simp [hw] at this

theorem GraphM.walkWeight_nonneg (g : GraphM) (hC : g.WeightsOk) (q : List Int) :
    ∀ u : Int, 0 ≤ g.walkWeight u q := by
  induction q with
  | nil => exact fun u => le_refl _
  | cons t rest ih =>
    intro u
    show 0 ≤ g.C u t + g.walkWeight t rest
    have := (hC u t).1
    have := ih t
    omega

/-- In a row that is consistent and done, the distance of the end of a walk is
at most the distance of its start plus the weight of the walk, when that sum is
below `MAX_VALUE`. -/
theorem GraphM.walk_bound (g : GraphM) (s : Int) (hC : g.WeightsOk)
    (hS : g.RowSettled s) (hdone : g.RowDone s) (q : List Int) :
    ∀ u : Int, g.isWalk u q → (g.T s u).dist + g.walkWeight u q < MAX_VALUE →
      (g.T s (walkEnd u q)).dist ≤ (g.T s u).dist + g.walkWeight u q := by
  induction q with
  | nil =>
    intro u _ _
    show (g.T s u).dist ≤ (g.T s u).dist + 0
    omega
  | cons t rest ih =>
    intro u hw hlt
    obtain ⟨hu, _, hrest⟩ := hw
    change (g.T s u).dist + (g.C u t + g.walkWeight t rest) < MAX_VALUE at hlt
    show (g.T s (walkEnd t rest)).dist ≤ (g.T s u).dist + (g.C u t + g.walkWeight t rest)
    have hnn := GraphM.walkWeight_nonneg g hC rest t
    have hcu := (hC u t).1
    have htr : 1 ≤ t ∧ t ≤ (g.size : Int) := by
      cases rest with
      | nil => exact hrest
      | cons x xs => exact hrest.1
    have hvis : (g.T s u).visited = true := by
      by_contra hne
      have := hdone u hu.1 hu.2 (by simpa using hne)
      omega
    have hstep := hS.1 u t hu.1 hu.2 htr.1 htr.2 hvis
    have := ih t hrest (by omega)
    omega

/-- C21: after construction, edge updates and one `findShortestPath` on a
graph of `n ≥ 1` nodes, row 1 is a complete Dijkstra run. For every target `t`
in `1..n`, `dist[1][t]` is at most the weight of every walk from node 1 to `t`
along present edges whose weight is below `MAX_VALUE`; if `dist[1][t]` is below
`MAX_VALUE` it is the weight of such a walk; and if no such walk has weight
below `MAX_VALUE` then `dist[1][t] = MAX_VALUE`. -/
theorem GraphM.row_one_complete (n : Nat) (descr : Int → NodeData)
    (edges : List (Int × Int × Int)) (edits : List OpM)
    (hE : ∀ op ∈ edits, op.isEdit = true) (t : Int) (ht : 1 ≤ t ∧ t ≤ (n : Int)) :
    (∀ q : List Int,
      ((GraphM.ctor.buildGraph n descr edges).run (edits ++ [OpM.compute])).isWalk 1 q →
      walkEnd 1 q = t →
      ((GraphM.ctor.buildGraph n descr edges).run (edits ++ [OpM.compute])).walkWeight 1 q <
        MAX_VALUE →
      (((GraphM.ctor.buildGraph n descr edges).run (edits ++ [OpM.compute])).T 1 t).dist ≤
        ((GraphM.ctor.buildGraph n descr edges).run (edits ++ [OpM.compute])).walkWeight 1 q) ∧
    ((((GraphM.ctor.buildGraph n descr edges).run (edits ++ [OpM.compute])).T 1 t).dist <
        MAX_VALUE →
      ∃ q : List Int,
        ((GraphM.ctor.buildGraph n descr edges).run (edits ++ [OpM.compute])).isWalk 1 q ∧
        walkEnd 1 q = t ∧
        ((GraphM.ctor.buildGraph n descr edges).run (edits ++ [OpM.compute])).walkWeight 1 q =
          (((GraphM.ctor.buildGraph n descr edges).run (edits ++ [OpM.compute])).T 1 t).dist) ∧
    ((¬ ∃ q : List Int,
        ((GraphM.ctor.buildGraph n descr edges).run (edits ++ [OpM.compute])).isWalk 1 q ∧
        walkEnd 1 q = t ∧
        ((GraphM.ctor.buildGraph n descr edges).run (edits ++ [OpM.compute])).walkWeight 1 q <
          MAX_VALUE) →
      (((GraphM.ctor.buildGraph n descr edges).run (edits ++ [OpM.compute])).T 1 t).dist =
        MAX_VALUE) := by
  have hn : 1 ≤ n := by omega
  obtain ⟨b1, b2, b3⟩ := GraphM.buildGraph_state n descr edges
  obtain ⟨r1, r2, r3⟩ := GraphM.run_edits (GraphM.ctor.buildGraph n descr edges) edits hE
  obtain ⟨_, _, hW, hD, hrows⟩ := GraphM.first_compute_state n descr edges edits hE
  have hrow0 : ∀ w : Int, ((GraphM.ctor.buildGraph n descr edges).run edits).T 1 w =
      ⟨false, MAX_VALUE, MAX_VALUE⟩ := by
    intro w
    rw [r3]
    exact b3 1 w
  have hD0 : ((GraphM.ctor.buildGraph n descr edges).run edits).DistOk := by
    intro a b
    rw [r3, b3 a b, MAX_VALUE_eq]
    simp
  obtain ⟨hS, hdone, h0⟩ := GraphM.findShortestPath_row_one
    ((GraphM.ctor.buildGraph n descr edges).run edits) (by rw [r1, b1]; exact hn) (r2 b2) hD0
    hrow0
  have hrun : (GraphM.ctor.buildGraph n descr edges).run (edits ++ [OpM.compute]) =
      ((GraphM.ctor.buildGraph n descr edges).run edits).findShortestPath := by
    rw [GraphM.run_snoc]
    rfl
  rw [← hrun] at hS hdone h0
  generalize (GraphM.ctor.buildGraph n descr edges).run (edits ++ [OpM.compute]) = g
    at hW hD hrows hS hdone h0 ⊢
  have hreach : (g.T 1 t).dist < MAX_VALUE →
      ∃ q : List Int, g.isWalk 1 q ∧ walkEnd 1 q = t ∧ g.walkWeight 1 q = (g.T 1 t).dist := by
    intro hlt
    obtain ⟨hops, hR⟩ := (hrows 1).1 ⟨le_refl _, by omega⟩
    exact hR.reach (hops t) t rfl hlt
  refine ⟨fun q hq he hlt => ?_, hreach, fun hno => ?_⟩
  · have := GraphM.walk_bound g 1 hW hS hdone q 1 hq (by rw [h0]; omega)
    rw [he, h0] at this
    omega
  · by_contra hne
    have hlt := lt_of_le_of_ne (hD 1 t).2 hne
    obtain ⟨q, q1, q2, q3⟩ := hreach hlt
    exact hno ⟨q, q1, q2, by rw [q3]; exact hlt⟩

/-- C21 at the 3-node graph with edges 1→2 (5), 2→3 (2) and 1→3 (9), for the
target 3: the distance 7 found is at most the weight of every walk from 1 to 3,
and it is the weight of a walk. -/
theorem GraphM.row_one_complete_witness :
    (((GraphM.ctor.buildGraph 3 (fun _ => ⟨""⟩) [(1, 2, 5), (2, 3, 2), (1, 3, 9)]).run
      ([] ++ [OpM.compute])).T 1 3).dist = 7 ∧
    (∀ q : List Int,
      ((GraphM.ctor.buildGraph 3 (fun _ => ⟨""⟩) [(1, 2, 5), (2, 3, 2), (1, 3, 9)]).run
        ([] ++ [OpM.compute])).isWalk 1 q →
      walkEnd 1 q = 3 →
      ((GraphM.ctor.buildGraph 3 (fun _ => ⟨""⟩) [(1, 2, 5), (2, 3, 2), (1, 3, 9)]).run
        ([] ++ [OpM.compute])).walkWeight 1 q < MAX_VALUE →
      (((GraphM.ctor.buildGraph 3 (fun _ => ⟨""⟩) [(1, 2, 5), (2, 3, 2), (1, 3, 9)]).run
        ([] ++ [OpM.compute])).T 1 3).dist ≤
        ((GraphM.ctor.buildGraph 3 (fun _ => ⟨""⟩) [(1, 2, 5), (2, 3, 2), (1, 3, 9)]).run
          ([] ++ [OpM.compute])).walkWeight 1 q) :=
  ⟨by decide,
    (GraphM.row_one_complete 3 (fun _ => ⟨""⟩) [(1, 2, 5), (2, 3, 2), (1, 3, 9)] []
      (by simp) 3 (by decide)).1⟩

end Graph
